import Mathlib

/-!
Verification of the arena-based zip-zip tree (ordered set / ordered map
engine with order statistics).

The Go source stores nodes in a flat arena (`[]ZipNode`) addressed by
`uint32` handles, with the all-ones value as the reserved "none" handle
(`SENTINEL`).  The embedding below mirrors that representation: the arena
is a `List (ZipNode K)`, handles are `Nat`, and `SENTINEL = 2^32 - 1`.
Machine integers are modelled as `Nat`; none of the verified properties
depend on 32-bit wrap-around, and the documented capacity cap (at most
`SENTINEL` live nodes) appears as an explicit hypothesis on insertion.

Go's unbounded `for` loops are modelled as fuel-indexed recursive
functions; each public operation supplies fuel `entries.length + 1`,
and the well-formedness invariant proved below shows this fuel is never
exhausted on reachable states.

The random draws performed inside `insert` (the geometric `r1` and the
bounded uniform `r2` that make up the packed rank) are externalized: the
embedded `insert` receives an already packed rank value.  All verified
invariants hold for every rank value, hence for every behaviour of the
injected random source.
-/

namespace ZipTreeSpec

/-- The reserved "none" handle, `^ZipNodeEntryIndex(0)` in the source. -/
def SENTINEL : Nat := 2 ^ 32 - 1

/-- One arena slot: key, child/parent handles, packed rank, subtree count
(`ZipNode` in the source). -/
structure ZipNode (K : Type) where
  key : K
  left : Nat
  right : Nat
  parent : Nat
  rank : Nat
  count : Nat
deriving DecidableEq

instance [Inhabited K] : Inhabited (ZipNode K) :=
  ⟨⟨default, SENTINEL, SENTINEL, SENTINEL, 0, 0⟩⟩

/-- The tree engine state: the dense arena plus the root handle and the
caller supplied ordering predicate (`ZipTree` in the source; the random
generator is externalized). -/
structure ZipTree (K : Type) where
  entries : List (ZipNode K)
  root : Nat
  lessThan : K → K → Bool

/-- Reading the arena slot `i` (Go `z.entries[i]`); out-of-range reads
return the zero node, which never happens on the verified paths. -/
def nodeAt [Inhabited K] (e : List (ZipNode K)) (i : Nat) : ZipNode K :=
  e.getD i default

/-- Writing the `left` field of slot `i` (Go `z.entries[i].left = v`). -/
def setLf [Inhabited K] (e : List (ZipNode K)) (i v : Nat) : List (ZipNode K) :=
  e.set i { nodeAt e i with left := v }

/-- Writing the `right` field of slot `i` (Go `z.entries[i].right = v`). -/
def setRt [Inhabited K] (e : List (ZipNode K)) (i v : Nat) : List (ZipNode K) :=
  e.set i { nodeAt e i with right := v }

/-- Writing the `parent` field of slot `i` (Go `z.entries[i].parent = v`). -/
def setPar [Inhabited K] (e : List (ZipNode K)) (i v : Nat) : List (ZipNode K) :=
  e.set i { nodeAt e i with parent := v }

/-- Writing the `count` field of slot `i` (Go `z.entries[i].count = v`). -/
def setCnt [Inhabited K] (e : List (ZipNode K)) (i v : Nat) : List (ZipNode K) :=
  e.set i { nodeAt e i with count := v }

/-- The `find` descent loop of the source, fuel-indexed. -/
def findLoop [Inhabited K] (lt : K → K → Bool) (e : List (ZipNode K)) (key : K) :
    Nat → Nat → Nat
  | root, 0 => root
  | root, fuel + 1 =>
    if root = SENTINEL then root
    else if lt key (nodeAt e root).key then findLoop lt e key (nodeAt e root).left fuel
    else if lt (nodeAt e root).key key then findLoop lt e key (nodeAt e root).right fuel
    else root

/-- Source `find`: descend from the root by comparisons, return the handle
of the node whose key is equivalent to `key`, or `SENTINEL`. -/
def ZipTree.find [Inhabited K] (z : ZipTree K) (key : K) : Nat :=
  findLoop z.lessThan z.entries key z.root (z.entries.length + 1)

/-- An iterator: a current handle plus a reference to the arena
(`ZipIterator` in the source). -/
structure ZipIterator (K : Type) where
  current : Nat
  entries : List (ZipNode K)

/-- Source `IsEmpty`: whether the cursor is the "none" handle. -/
def ZipIterator.IsEmpty (it : ZipIterator K) : Bool :=
  it.current == SENTINEL

/-- Source `Index`. -/
def ZipIterator.Index (it : ZipIterator K) : Nat :=
  it.current

/-- The descend-to-leftmost loop used by `Next` (and by `leftMost`). -/
def downLeft [Inhabited K] (e : List (ZipNode K)) : Nat → Nat → Nat
  | root, 0 => root
  | root, fuel + 1 =>
    if (nodeAt e root).left ≠ SENTINEL then downLeft e (nodeAt e root).left fuel else root

/-- The descend-to-rightmost loop used by `Prev` (and by `rightMost`). -/
def downRight [Inhabited K] (e : List (ZipNode K)) : Nat → Nat → Nat
  | root, 0 => root
  | root, fuel + 1 =>
    if (nodeAt e root).right ≠ SENTINEL then downRight e (nodeAt e root).right fuel else root

/-- The parent-climb loop of `Next`: climb while the current node is its
parent's right child. -/
def climbNext [Inhabited K] (e : List (ZipNode K)) : Nat → Nat → Nat → Nat
  | _, parent, 0 => parent
  | root, parent, fuel + 1 =>
    if parent ≠ SENTINEL ∧ (nodeAt e parent).right = root then
      climbNext e parent (nodeAt e parent).parent fuel
    else parent

/-- The parent-climb loop of `Prev`: climb while the current node is its
parent's left child. -/
def climbPrev [Inhabited K] (e : List (ZipNode K)) : Nat → Nat → Nat → Nat
  | _, parent, 0 => parent
  | root, parent, fuel + 1 =>
    if parent ≠ SENTINEL ∧ (nodeAt e parent).left = root then
      climbPrev e parent (nodeAt e parent).parent fuel
    else parent

/-- Source `Next`: in-order successor stepping (right child's leftmost
descendant, else climb until reached via a left edge). -/
def ZipIterator.Next [Inhabited K] (it : ZipIterator K) : ZipIterator K :=
  if it.IsEmpty then it
  else
    let root := it.current
    if (nodeAt it.entries root).right ≠ SENTINEL then
      { it with current := downLeft it.entries (nodeAt it.entries root).right (it.entries.length + 1) }
    else
      { it with current := climbNext it.entries root (nodeAt it.entries root).parent (it.entries.length + 1) }

/-- Source `Prev`: in-order predecessor stepping, the exact mirror of `Next`. -/
def ZipIterator.Prev [Inhabited K] (it : ZipIterator K) : ZipIterator K :=
  if it.IsEmpty then it
  else
    let root := it.current
    if (nodeAt it.entries root).left ≠ SENTINEL then
      { it with current := downRight it.entries (nodeAt it.entries root).left (it.entries.length + 1) }
    else
      { it with current := climbPrev it.entries root (nodeAt it.entries root).parent (it.entries.length + 1) }

/-- Source `Key`: the key at the cursor, or the key type's zero value
(Go `var ret K`) on an exhausted cursor. -/
def ZipIterator.Key [Inhabited K] (it : ZipIterator K) : K :=
  if it.current ≠ SENTINEL then (nodeAt it.entries it.current).key else default

/-- Source `Parent`: the parent handle at the cursor, or `SENTINEL` on an
exhausted cursor. -/
def ZipIterator.Parent [Inhabited K] (it : ZipIterator K) : Nat :=
  if it.current ≠ SENTINEL then (nodeAt it.entries it.current).parent else SENTINEL

/-- The rank-descent loop of `insert` (source lines: `for curr != SENTINEL &&
(rank < ... || (rank == ... && lessThan(entries[curr].key, key)))`); returns
the final `(prev, curr)` pair. -/
def insertDescend [Inhabited K] (lt : K → K → Bool) (e : List (ZipNode K)) (rank : Nat)
    (key : K) : Nat → Nat → Nat → Nat × Nat
  | prev, curr, 0 => (prev, curr)
  | prev, curr, fuel + 1 =>
    if curr ≠ SENTINEL ∧
        (rank < (nodeAt e curr).rank ∨
          (rank = (nodeAt e curr).rank ∧ lt (nodeAt e curr).key key)) then
      insertDescend lt e rank key curr
        (if lt key (nodeAt e curr).key then (nodeAt e curr).left else (nodeAt e curr).right) fuel
    else (prev, curr)

/-- The unzip inner walk taken when the visited key is below the new key:
`for curr != SENTINEL && !lessThan(key, entries[curr].key) { prev = curr;
curr = entries[curr].right }`. -/
def runLess [Inhabited K] (lt : K → K → Bool) (e : List (ZipNode K)) (key : K) :
    Nat → Nat → Nat → Nat × Nat
  | prev, curr, 0 => (prev, curr)
  | prev, curr, fuel + 1 =>
    if curr ≠ SENTINEL ∧ ¬lt key (nodeAt e curr).key then
      runLess lt e key curr (nodeAt e curr).right fuel
    else (prev, curr)

/-- The unzip inner walk taken when the visited key is above the new key:
`for curr != SENTINEL && !lessThan(entries[curr].key, key) { prev = curr;
curr = entries[curr].left }`. -/
def runGreater [Inhabited K] (lt : K → K → Bool) (e : List (ZipNode K)) (key : K) :
    Nat → Nat → Nat → Nat × Nat
  | prev, curr, 0 => (prev, curr)
  | prev, curr, fuel + 1 =>
    if curr ≠ SENTINEL ∧ ¬lt (nodeAt e curr).key key then
      runGreater lt e key curr (nodeAt e curr).left fuel
    else (prev, curr)

/-- Source `fixupCount`: recompute `count` from `curr` upward along parent
links, stopping at `limit` (exclusive). -/
def fixupCount [Inhabited K] : List (ZipNode K) → Nat → Nat → Nat → List (ZipNode K)
  | e, _, _, 0 => e
  | e, curr, limit, fuel + 1 =>
    if curr ≠ limit then
      let n := nodeAt e curr
      let cnt := 1 + (if n.left ≠ SENTINEL then (nodeAt e n.left).count else 0) +
        (if n.right ≠ SENTINEL then (nodeAt e n.right).count else 0)
      fixupCount (setCnt e curr cnt) n.parent limit fuel
    else e

/-- The outer unzip loop of `insert` (source `for curr != SENTINEL` over the
two alternating chain walks, the re-attachment, and the per-iteration
`fixupCount(fix, idx)`). -/
def unzipLoop [Inhabited K] (lt : K → K → Bool) (key : K) (idx : Nat) :
    List (ZipNode K) → Nat → Nat → Nat → List (ZipNode K)
  | e, _, _, 0 => e
  | e, prev, curr, fuel + 1 =>
    if curr ≠ SENTINEL then
      let fix := prev
      let pc :=
        if lt (nodeAt e curr).key key then runLess lt e key prev curr (e.length + 1)
        else runGreater lt e key prev curr (e.length + 1)
      let prev' := pc.1
      let curr' := pc.2
      let e1 :=
        if lt key (nodeAt e fix).key ∨ (fix = idx ∧ lt key (nodeAt e prev').key) then
          setLf e fix curr'
        else setRt e fix curr'
      let e2 := if curr' ≠ SENTINEL then setPar e1 curr' fix else e1
      let e3 := fixupCount e2 fix idx (e2.length + 1)
      unzipLoop lt key idx e3 prev' curr' fuel
    else e

/-- Source `insert` with the random draw externalized: `rank` is the packed
rank value the generator produced.  Appends the node, descends by rank,
splices, unzips the displaced subtree, and repairs counts to the root. -/
def ZipTree.insert [Inhabited K] (z : ZipTree K) (rank : Nat) (key : K) : ZipTree K :=
  let rootIdx := z.root
  let idx := z.entries.length
  let e0 := z.entries ++ [⟨key, SENTINEL, SENTINEL, SENTINEL, rank, 1⟩]
  let pc := insertDescend z.lessThan e0 rank key SENTINEL rootIdx (e0.length + 1)
  let prev := pc.1
  let curr := pc.2
  let st :=
    if curr = rootIdx then (e0, idx)
    else
      (setPar (if z.lessThan key (nodeAt e0 prev).key then setLf e0 prev idx
          else setRt e0 prev idx) idx prev,
        rootIdx)
  let e1 := st.1
  let root1 := st.2
  let e2 :=
    if curr ≠ SENTINEL then
      let eA := if z.lessThan key (nodeAt e1 curr).key then setRt e1 idx curr else setLf e1 idx curr
      let eB := setPar eA curr idx
      unzipLoop z.lessThan key idx eB idx curr (eB.length + 1)
    else e1
  let e3 := fixupCount e2 idx SENTINEL (e2.length + 1)
  { z with entries := e3, root := root1 }

/-- Source `Insert`: create the key if absent (returning `true`), otherwise
leave the tree untouched and return `false`. -/
def ZipTree.Insert [Inhabited K] (z : ZipTree K) (rank : Nat) (key : K) : Bool × ZipTree K :=
  if z.find key = SENTINEL then (true, z.insert rank key) else (false, z)

/-- The zip-merge inner walk down the left side's right spine:
`for !(left == SENTINEL || entries[left].rank < rightRank)`. -/
def zipWalkRight [Inhabited K] (e : List (ZipNode K)) (rRank : Nat) :
    Nat → Nat → Nat → Nat × Nat
  | prev, left, 0 => (prev, left)
  | prev, left, fuel + 1 =>
    if ¬(left = SENTINEL ∨ (nodeAt e left).rank < rRank) then
      zipWalkRight e rRank left (nodeAt e left).right fuel
    else (prev, left)

/-- The zip-merge inner walk down the right side's left spine:
`for !(right == SENTINEL || leftRank >= entries[right].rank)`. -/
def zipWalkLeft [Inhabited K] (e : List (ZipNode K)) (lRank : Nat) :
    Nat → Nat → Nat → Nat × Nat
  | prev, right, 0 => (prev, right)
  | prev, right, fuel + 1 =>
    if ¬(right = SENTINEL ∨ lRank ≥ (nodeAt e right).rank) then
      zipWalkLeft e lRank right (nodeAt e right).left fuel
    else (prev, right)

/-- The zip loop of `deleteIndex` (`for left != SENTINEL && right != SENTINEL`);
returns the updated arena and the final `prev` used for the count repair. -/
def zipLoop [Inhabited K] : List (ZipNode K) → Nat → Nat → Nat → Nat → List (ZipNode K) × Nat
  | e, _, _, prev, 0 => (e, prev)
  | e, left, right, prev, fuel + 1 =>
    if left ≠ SENTINEL ∧ right ≠ SENTINEL then
      if (nodeAt e left).rank ≥ (nodeAt e right).rank then
        let pr := zipWalkRight e (nodeAt e right).rank prev left (e.length + 1)
        let e' := setPar (setRt e pr.1 right) right pr.1
        zipLoop e' pr.2 right pr.1 fuel
      else
        let pr := zipWalkLeft e (nodeAt e left).rank prev right (e.length + 1)
        let e' := setPar (setLf e pr.1 left) left pr.1
        zipLoop e' left pr.2 pr.1 fuel
    else (e, prev)

/-- Source `deleteIndex`: unlink the victim, replace it by its higher-rank
child (tie favouring the left child), zip its two subtrees together, and
repair counts from the splice point to the root. -/
def ZipTree.deleteIndex [Inhabited K] (z : ZipTree K) (keyIdx : Nat) : ZipTree K :=
  let key := (nodeAt z.entries keyIdx).key
  let prev := (nodeAt z.entries keyIdx).parent
  let left := (nodeAt z.entries keyIdx).left
  let right := (nodeAt z.entries keyIdx).right
  let curr :=
    if left = SENTINEL then right
    else if right = SENTINEL then left
    else if (nodeAt z.entries left).rank ≥ (nodeAt z.entries right).rank then left
    else right
  let st :=
    if z.root = keyIdx then (z.entries, curr)
    else
      ((if z.lessThan key (nodeAt z.entries prev).key then setLf z.entries prev curr
        else setRt z.entries prev curr),
        z.root)
  let e1 := st.1
  let root1 := st.2
  let e2 := if curr ≠ SENTINEL then setPar e1 curr prev else e1
  let zp := zipLoop e2 left right prev (e2.length + 1)
  let e3 := fixupCount zp.1 zp.2 SENTINEL (zp.1.length + 1)
  { z with entries := e3, root := root1 }

/-- Source `compact`: move the arena's last slot into the freed slot, fix the
relocated node's parent/children back-references (and the root handle), then
shrink the arena by one. -/
def ZipTree.compact [Inhabited K] (z : ZipTree K) (keyIdx : Nat) : ZipTree K :=
  let last := z.entries.length - 1
  if keyIdx ≠ last then
    let e1 := z.entries.set keyIdx (nodeAt z.entries last)
    let l := (nodeAt e1 keyIdx).left
    let r := (nodeAt e1 keyIdx).right
    let e2 := if l ≠ SENTINEL then setPar e1 l keyIdx else e1
    let e3 := if r ≠ SENTINEL then setPar e2 r keyIdx else e2
    let p := (nodeAt e3 keyIdx).parent
    let e4 :=
      if p ≠ SENTINEL then
        if last = (nodeAt e3 p).left then setLf e3 p keyIdx else setRt e3 p keyIdx
      else e3
    let root1 := if last = z.root then keyIdx else z.root
    { z with entries := e4.dropLast, root := root1 }
  else { z with entries := z.entries.dropLast }

/-- Source `deleteInternal`: no-op returning `false` on the "none" handle,
otherwise `deleteIndex` followed by `compact`. -/
def ZipTree.deleteInternal [Inhabited K] (z : ZipTree K) (keyIdx : Nat) : Bool × ZipTree K :=
  if keyIdx = SENTINEL then (false, z)
  else (true, (z.deleteIndex keyIdx).compact keyIdx)

/-- Source `Delete` (by key). -/
def ZipTree.Delete [Inhabited K] (z : ZipTree K) (key : K) : Bool × ZipTree K :=
  z.deleteInternal (z.find key)

/-- Source `DeleteIter` (by cursor position). -/
def ZipTree.DeleteIter [Inhabited K] (z : ZipTree K) (it : ZipIterator K) : Bool × ZipTree K :=
  z.deleteInternal it.Index

/-- Source `leftMost`. -/
def ZipTree.leftMost [Inhabited K] (z : ZipTree K) : Nat :=
  downLeft z.entries z.root (z.entries.length + 1)

/-- Source `rightMost`. -/
def ZipTree.rightMost [Inhabited K] (z : ZipTree K) : Nat :=
  downRight z.entries z.root (z.entries.length + 1)

/-- Source `minimum`. -/
def ZipTree.minimum [Inhabited K] (z : ZipTree K) : Nat :=
  if z.root = SENTINEL then z.root else z.leftMost

/-- Source `maximum`. -/
def ZipTree.maximum [Inhabited K] (z : ZipTree K) : Nat :=
  if z.root = SENTINEL then z.root else z.rightMost

/-- The `floor` descent loop: keep the last node not greater than the key
while descending right on "not greater". -/
def floorLoop [Inhabited K] (lt : K → K → Bool) (e : List (ZipNode K)) (key : K) :
    Nat → Nat → Nat → Nat
  | res, _, 0 => res
  | res, root, fuel + 1 =>
    if root ≠ SENTINEL then
      if lt key (nodeAt e root).key then floorLoop lt e key res (nodeAt e root).left fuel
      else floorLoop lt e key root (nodeAt e root).right fuel
    else res

/-- Source `floor`. -/
def ZipTree.floor [Inhabited K] (z : ZipTree K) (key : K) : Nat :=
  floorLoop z.lessThan z.entries key SENTINEL z.root (z.entries.length + 1)

/-- The `ceiling` descent loop: keep the last node not less than the key
while descending left on "not less". -/
def ceilingLoop [Inhabited K] (lt : K → K → Bool) (e : List (ZipNode K)) (key : K) :
    Nat → Nat → Nat → Nat
  | res, _, 0 => res
  | res, root, fuel + 1 =>
    if root ≠ SENTINEL then
      if lt (nodeAt e root).key key then ceilingLoop lt e key res (nodeAt e root).right fuel
      else ceilingLoop lt e key root (nodeAt e root).left fuel
    else res

/-- Source `ceiling`. -/
def ZipTree.ceiling [Inhabited K] (z : ZipTree K) (key : K) : Nat :=
  ceilingLoop z.lessThan z.entries key SENTINEL z.root (z.entries.length + 1)

/-- The `upperBound` descent loop. -/
def upperBoundLoop [Inhabited K] (lt : K → K → Bool) (e : List (ZipNode K)) (key : K) :
    Nat → Nat → Nat → Nat
  | res, _, 0 => res
  | res, root, fuel + 1 =>
    if root ≠ SENTINEL then
      if ¬lt key (nodeAt e root).key then upperBoundLoop lt e key res (nodeAt e root).right fuel
      else upperBoundLoop lt e key root (nodeAt e root).left fuel
    else res

/-- Source `upperBound`. -/
def ZipTree.upperBound [Inhabited K] (z : ZipTree K) (key : K) : Nat :=
  upperBoundLoop z.lessThan z.entries key SENTINEL z.root (z.entries.length + 1)

/-- Source `lowerBound`, defined as `ceiling`. -/
def ZipTree.lowerBound [Inhabited K] (z : ZipTree K) (key : K) : Nat :=
  z.ceiling key

/-- The `atIndex` (select) descent loop over subtree counts. -/
def atIndexLoop [Inhabited K] (e : List (ZipNode K)) : Nat → Nat → Nat → Nat
  | _, root, 0 => root
  | idx, root, fuel + 1 =>
    if root ≠ SENTINEL then
      let left := (nodeAt e root).left
      let leftCount := if left ≠ SENTINEL then (nodeAt e left).count else 0
      if idx < leftCount then atIndexLoop e idx left fuel
      else if idx > leftCount then atIndexLoop e (idx - leftCount - 1) (nodeAt e root).right fuel
      else root
    else root

/-- Source `atIndex`. -/
def ZipTree.atIndex [Inhabited K] (z : ZipTree K) (idx : Nat) : Nat :=
  atIndexLoop z.entries idx z.root (z.entries.length + 1)

/-- The reserved not-found result of `indexOf`, `^uint32(0)` in the source. -/
def NOT_FOUND : Nat := 2 ^ 32 - 1

/-- The `indexOf` (rank) descent loop; returns the stopping handle and the
accumulated count. -/
def indexOfLoop [Inhabited K] (lt : K → K → Bool) (e : List (ZipNode K)) (key : K) :
    Nat → Nat → Nat → Nat × Nat
  | res, root, 0 => (root, res)
  | res, root, fuel + 1 =>
    if root ≠ SENTINEL then
      let left := (nodeAt e root).left
      if lt key (nodeAt e root).key then indexOfLoop lt e key res left fuel
      else
        let res1 := if left ≠ SENTINEL then res + (nodeAt e left).count else res
        if lt (nodeAt e root).key key then indexOfLoop lt e key (res1 + 1) (nodeAt e root).right fuel
        else (root, res1)
    else (root, res)

/-- Source `indexOf`: the accumulated count on a hit, `NOT_FOUND` on a miss. -/
def ZipTree.indexOf [Inhabited K] (z : ZipTree K) (key : K) : Nat :=
  let rr := indexOfLoop z.lessThan z.entries key 0 z.root (z.entries.length + 1)
  if rr.1 = SENTINEL then NOT_FOUND else rr.2

/-- Source `iterator`: wrap a handle into a cursor (an empty cursor carries
no arena reference, as in the source). -/
def ZipTree.iterator [Inhabited K] (z : ZipTree K) (idx : Nat) : ZipIterator K :=
  if idx = SENTINEL then ⟨SENTINEL, []⟩ else ⟨idx, z.entries⟩

/-- Source `Ceiling`. -/
def ZipTree.Ceiling [Inhabited K] (z : ZipTree K) (key : K) : ZipIterator K :=
  z.iterator (z.ceiling key)

/-- Source `Floor`. -/
def ZipTree.Floor [Inhabited K] (z : ZipTree K) (key : K) : ZipIterator K :=
  z.iterator (z.floor key)

/-- Source `UpperBound`. -/
def ZipTree.UpperBound [Inhabited K] (z : ZipTree K) (key : K) : ZipIterator K :=
  z.iterator (z.upperBound key)

/-- Source `LowerBound`. -/
def ZipTree.LowerBound [Inhabited K] (z : ZipTree K) (key : K) : ZipIterator K :=
  z.iterator (z.lowerBound key)

/-- Source `Find`. -/
def ZipTree.Find [Inhabited K] (z : ZipTree K) (key : K) : ZipIterator K :=
  z.iterator (z.find key)

/-- Source `Minimum`. -/
def ZipTree.Minimum [Inhabited K] (z : ZipTree K) : ZipIterator K :=
  z.iterator z.minimum

/-- Source `Maximum`. -/
def ZipTree.Maximum [Inhabited K] (z : ZipTree K) : ZipIterator K :=
  z.iterator z.maximum

/-- Source `AtIndex`. -/
def ZipTree.AtIndex [Inhabited K] (z : ZipTree K) (idx : Nat) : ZipIterator K :=
  z.iterator (z.atIndex idx)

/-- Source `IndexOf`. -/
def ZipTree.IndexOf [Inhabited K] (z : ZipTree K) (key : K) : Nat :=
  z.indexOf key

/-- Source `Size`: the arena length. -/
def ZipTree.Size (z : ZipTree K) : Nat :=
  z.entries.length

/-- Source `Count`: the root's subtree count, `0` when empty. -/
def ZipTree.Count [Inhabited K] (z : ZipTree K) : Nat :=
  if z.root = SENTINEL then 0 else (nodeAt z.entries z.root).count

/-- Source `NewIterator`: a cursor at the minimum. -/
def ZipTree.NewIterator [Inhabited K] (z : ZipTree K) : ZipIterator K :=
  if z.root = SENTINEL then ⟨SENTINEL, []⟩ else ⟨z.leftMost, z.entries⟩

/-- Source `NewPrevIterator`: a cursor at the maximum. -/
def ZipTree.NewPrevIterator [Inhabited K] (z : ZipTree K) : ZipIterator K :=
  if z.root = SENTINEL then ⟨SENTINEL, []⟩ else ⟨z.rightMost, z.entries⟩

/-- Source `NewZipTree` with the random generator externalized: the empty
tree over an ordering predicate. -/
def mkZipTree (lt : K → K → Bool) : ZipTree K :=
  ⟨[], SENTINEL, lt⟩

/-- The keyed map adapter: a tree engine plus the value array aligned by
slot index (`Map` in the source). -/
structure ZMap (K V : Type) where
  tree : ZipTree K
  values : List V

/-- Source `NewMap` with the random generator externalized. -/
def mkZMap (lt : K → K → Bool) : ZMap K V :=
  ⟨mkZipTree lt, []⟩

/-- Source `Put`: insert key and append the value when absent, otherwise
overwrite the stored value in place. -/
def ZMap.Put [Inhabited K] (m : ZMap K V) (rank : Nat) (key : K) (v : V) : Bool × ZMap K V :=
  let found := m.tree.find key
  if found = SENTINEL then (true, ⟨m.tree.insert rank key, m.values ++ [v]⟩)
  else (false, ⟨m.tree, m.values.set found v⟩)

/-- Source `deleteInternalWithValue`: delegate to the engine and relocate the
value array's last entry into the freed slot in the same step. -/
def ZMap.deleteInternalWithValue [Inhabited K] [Inhabited V] (m : ZMap K V) (keyIdx : Nat) :
    Bool × ZMap K V :=
  let d := m.tree.deleteInternal keyIdx
  if d.1 then
    let last := m.values.length - 1
    let vs := if keyIdx ≠ last then m.values.set keyIdx (m.values.getD last default) else m.values
    (true, ⟨d.2, vs.dropLast⟩)
  else (false, ⟨d.2, m.values⟩)

/-- Source map `Delete` (by key). -/
def ZMap.Delete [Inhabited K] [Inhabited V] (m : ZMap K V) (key : K) : Bool × ZMap K V :=
  m.deleteInternalWithValue (m.tree.find key)

/-- The map iterator (`MapIterator` in the source). -/
structure MapIterator (K V : Type) where
  iterator : ZipIterator K
  values : List V

/-- Source map `DeleteIter`. -/
def ZMap.DeleteIter [Inhabited K] [Inhabited V] (m : ZMap K V) (it : MapIterator K V) :
    Bool × ZMap K V :=
  m.deleteInternalWithValue it.iterator.Index

/-- Source `Value`: the stored value at the cursor, or the value type's zero
value on an exhausted cursor. -/
def MapIterator.Value [Inhabited V] (it : MapIterator K V) : V :=
  if it.iterator.Index ≠ SENTINEL then it.values.getD it.iterator.Index default else default

/-! Basic facts about arena reads and writes. -/

lemma length_setLf [Inhabited K] (e : List (ZipNode K)) (i v : Nat) :
    (setLf e i v).length = e.length := by
  simp [setLf]

lemma length_setRt [Inhabited K] (e : List (ZipNode K)) (i v : Nat) :
    (setRt e i v).length = e.length := by
  simp [setRt]

lemma length_setPar [Inhabited K] (e : List (ZipNode K)) (i v : Nat) :
    (setPar e i v).length = e.length := by
  simp [setPar]

lemma length_setCnt [Inhabited K] (e : List (ZipNode K)) (i v : Nat) :
    (setCnt e i v).length = e.length := by
  simp [setCnt]

lemma nodeAt_set_same [Inhabited K] (e : List (ZipNode K)) (i : Nat) (n : ZipNode K)
    (h : i < e.length) : nodeAt (e.set i n) i = n := by
  simp [nodeAt, List.getD_eq_getElem?_getD, List.getElem?_set_self, h]

lemma nodeAt_set_other [Inhabited K] (e : List (ZipNode K)) (i j : Nat) (n : ZipNode K)
    (h : i ≠ j) : nodeAt (e.set i n) j = nodeAt e j := by
  simp [nodeAt, List.getD_eq_getElem?_getD, List.getElem?_set_ne h]

lemma nodeAt_setLf_same [Inhabited K] (e : List (ZipNode K)) (i v : Nat) (h : i < e.length) :
    nodeAt (setLf e i v) i = { nodeAt e i with left := v } := by
  simp [setLf, nodeAt_set_same _ _ _ h]

lemma nodeAt_setLf_other [Inhabited K] (e : List (ZipNode K)) (i j v : Nat) (h : i ≠ j) :
    nodeAt (setLf e i v) j = nodeAt e j := by
  simp [setLf, nodeAt_set_other _ _ _ _ h]

lemma nodeAt_setRt_same [Inhabited K] (e : List (ZipNode K)) (i v : Nat) (h : i < e.length) :
    nodeAt (setRt e i v) i = { nodeAt e i with right := v } := by
  simp [setRt, nodeAt_set_same _ _ _ h]

lemma nodeAt_setRt_other [Inhabited K] (e : List (ZipNode K)) (i j v : Nat) (h : i ≠ j) :
    nodeAt (setRt e i v) j = nodeAt e j := by
  simp [setRt, nodeAt_set_other _ _ _ _ h]

lemma nodeAt_setPar_same [Inhabited K] (e : List (ZipNode K)) (i v : Nat) (h : i < e.length) :
    nodeAt (setPar e i v) i = { nodeAt e i with parent := v } := by
  simp [setPar, nodeAt_set_same _ _ _ h]

lemma nodeAt_setPar_other [Inhabited K] (e : List (ZipNode K)) (i j v : Nat) (h : i ≠ j) :
    nodeAt (setPar e i v) j = nodeAt e j := by
  simp [setPar, nodeAt_set_other _ _ _ _ h]

lemma nodeAt_setCnt_same [Inhabited K] (e : List (ZipNode K)) (i v : Nat) (h : i < e.length) :
    nodeAt (setCnt e i v) i = { nodeAt e i with count := v } := by
  simp [setCnt, nodeAt_set_same _ _ _ h]

lemma nodeAt_setCnt_other [Inhabited K] (e : List (ZipNode K)) (i j v : Nat) (h : i ≠ j) :
    nodeAt (setCnt e i v) j = nodeAt e j := by
  simp [setCnt, nodeAt_set_other _ _ _ _ h]

lemma nodeAt_append_left [Inhabited K] (e e' : List (ZipNode K)) (i : Nat) (h : i < e.length) :
    nodeAt (e ++ e') i = nodeAt e i := by
  simp [nodeAt, List.getD_eq_getElem?_getD, List.getElem?_append_left h]

lemma nodeAt_append_len [Inhabited K] (e : List (ZipNode K)) (n : ZipNode K) :
    nodeAt (e ++ [n]) e.length = n := by
  simp [nodeAt, List.getD_eq_getElem?_getD]

lemma nodeAt_dropLast [Inhabited K] (e : List (ZipNode K)) (i : Nat) (h : i + 1 < e.length) :
    nodeAt e.dropLast i = nodeAt e i := by
  simp only [nodeAt, List.getD_eq_getElem?_getD, List.getElem?_dropLast]
  rw [List.getElem?_eq_getElem (by omega)]
  simp only [Option.getD_some, if_pos (by omega : i < e.length - 1)]

/-- The comparator contract: the caller supplied predicate is a strict
total order (irreflexive, transitive, and any two distinct keys compare). -/
structure LtOrd (lt : K → K → Bool) : Prop where
  irrefl : ∀ a, lt a a = false
  lt_trans : ∀ a b c, lt a b = true → lt b c = true → lt a c = true
  total : ∀ a b, a ≠ b → lt a b = true ∨ lt b a = true

lemma LtOrd.asymm {lt : K → K → Bool} (O : LtOrd lt) {a b : K}
    (h : lt a b = true) : lt b a = false := by
  by_contra hc
  have hba : lt b a = true := by
    cases hh : lt b a with
    | false => exact absurd hh hc
    | true => rfl
  have := O.lt_trans a b a h hba
  rw [O.irrefl a] at this
  exact Bool.false_ne_true this

lemma LtOrd.ne_of_lt {lt : K → K → Bool} (O : LtOrd lt) {a b : K}
    (h : lt a b = true) : a ≠ b := by
  rintro rfl
  rw [O.irrefl a] at h
  exact Bool.false_ne_true h

lemma LtOrd.eq_of_not_lt {lt : K → K → Bool} (O : LtOrd lt) {a b : K}
    (h1 : lt a b = false) (h2 : lt b a = false) : a = b := by
  by_contra hne
  rcases O.total a b hne with h | h
  · rw [h1] at h; exact Bool.false_ne_true h
  · rw [h2] at h; exact Bool.false_ne_true h

/-! The functional model: inductive binary trees labelled with the arena
slot each node occupies, its key and its packed rank.  All tree-shaped
invariants are stated on this model and transported to the arena through
the representation relation `ReprP` below. -/

/-- A slot-labelled binary tree. -/
inductive BT (K : Type) where
  | leaf : BT K
  | node (l : BT K) (i : Nat) (k : K) (rk : Nat) (r : BT K) : BT K

/-- Number of nodes. -/
def BT.size : BT K → Nat
  | .leaf => 0
  | .node l _ _ _ r => l.size + 1 + r.size

/-- In-order key list. -/
def BT.keysIn : BT K → List K
  | .leaf => []
  | .node l _ k _ r => l.keysIn ++ k :: r.keysIn

/-- In-order slot list. -/
def BT.idxsIn : BT K → List Nat
  | .leaf => []
  | .node l i _ _ r => l.idxsIn ++ i :: r.idxsIn

/-- All keys of the tree satisfy `P`. -/
def BT.AllK (P : K → Prop) : BT K → Prop
  | .leaf => True
  | .node l _ k _ r => BT.AllK P l ∧ P k ∧ BT.AllK P r

/-- The BST invariant with respect to the ordering predicate. -/
def BSTb (lt : K → K → Bool) : BT K → Prop
  | .leaf => True
  | .node l _ k _ r =>
    BSTb lt l ∧ BSTb lt r ∧
    BT.AllK (fun x => lt x k = true) l ∧ BT.AllK (fun x => lt k x = true) r

/-- The heap edge condition between a parent with key `k`, rank `rk` and a
child subtree: the child's root rank is not larger, and on an exact rank
tie the parent's key is the smaller one. -/
def HRel (lt : K → K → Bool) (k : K) (rk : Nat) : BT K → Prop
  | .leaf => True
  | .node _ _ k' rk' _ => rk' ≤ rk ∧ (rk' = rk → lt k k' = true)

/-- The rank max-heap invariant with the deterministic tie-break. -/
def HeapOK (lt : K → K → Bool) : BT K → Prop
  | .leaf => True
  | .node l _ k rk r =>
    HeapOK lt l ∧ HeapOK lt r ∧ HRel lt k rk l ∧ HRel lt k rk r

/-- The pointer representation relation: the subtree `t` is laid out in the
arena `e` rooted at handle `i` whose parent field is `p` (counts are related
separately by `CountsOK`). -/
def ReprP [Inhabited K] (e : List (ZipNode K)) : BT K → Nat → Nat → Prop
  | .leaf, i, _ => i = SENTINEL
  | .node l j k rk r, i, p =>
    i = j ∧ i < e.length ∧ (nodeAt e i).key = k ∧ (nodeAt e i).rank = rk ∧
    (nodeAt e i).parent = p ∧
    ReprP e l (nodeAt e i).left i ∧ ReprP e r (nodeAt e i).right i

/-- Count correctness: every node's stored `count` equals its subtree size. -/
def CountsOK [Inhabited K] (e : List (ZipNode K)) : BT K → Prop
  | .leaf => True
  | .node l i _ _ r =>
    (nodeAt e i).count = l.size + 1 + r.size ∧ CountsOK e l ∧ CountsOK e r

/-- One-hole tree contexts, stored inside-out: the first constructor frame
is the hole's immediate parent.  `inL` means the hole is the left child of
the frame node; `inR` means it is the right child. -/
inductive Ctx (K : Type) where
  | hole : Ctx K
  | inL (c : Ctx K) (i : Nat) (k : K) (rk : Nat) (r : BT K) : Ctx K
  | inR (l : BT K) (i : Nat) (k : K) (rk : Nat) (c : Ctx K) : Ctx K

/-- Fill the hole of a context with a subtree. -/
def Ctx.plug : Ctx K → BT K → BT K
  | .hole, s => s
  | .inL c i k rk r, s => Ctx.plug c (.node s i k rk r)
  | .inR l i k rk c, s => Ctx.plug c (.node l i k rk s)

/-- All slots occurring in a context. -/
def Ctx.idxsC : Ctx K → List Nat
  | .hole => []
  | .inL c i _ _ r => i :: (r.idxsIn ++ c.idxsC)
  | .inR l i _ _ c => i :: (l.idxsIn ++ c.idxsC)

/-- The spine slots (frame nodes only), innermost first. -/
def Ctx.spineC : Ctx K → List Nat
  | .hole => []
  | .inL c i _ _ _ => i :: c.spineC
  | .inR _ i _ _ c => i :: c.spineC

/-- Number of frames. -/
def Ctx.depth : Ctx K → Nat
  | .hole => 0
  | .inL c _ _ _ _ => c.depth + 1
  | .inR _ _ _ _ c => c.depth + 1

/-- All keys occurring in a context. -/
def Ctx.keysC : Ctx K → List K
  | .hole => []
  | .inL c _ k _ r => k :: (r.keysIn ++ c.keysC)
  | .inR l _ k _ c => k :: (l.keysIn ++ c.keysC)

/-- Number of nodes in a context. -/
def Ctx.sizeC : Ctx K → Nat
  | .hole => 0
  | .inL c _ _ _ r => c.sizeC + 1 + r.size
  | .inR l _ _ _ c => l.size + 1 + c.sizeC

lemma size_plug (c : Ctx K) (s : BT K) : (c.plug s).size = s.size + c.sizeC := by
  induction c generalizing s with
  | hole => simp [Ctx.plug, Ctx.sizeC]
  | inL c i k rk r ih => simp [Ctx.plug, Ctx.sizeC, ih, BT.size]; omega
  | inR l i k rk c ih => simp [Ctx.plug, Ctx.sizeC, ih, BT.size]; omega

lemma middle_swap_perm {α : Type} (a : α) (l s c : List α) :
    ((l ++ a :: s) ++ c).Perm (s ++ a :: (l ++ c)) := by
  have hmid : (l ++ (s ++ c)).Perm (s ++ (l ++ c)) := by
    rw [← List.append_assoc, ← List.append_assoc]
    exact List.perm_append_comm.append_right _
  have h1 : (l ++ a :: s) ++ c = l ++ a :: (s ++ c) := by simp [List.append_assoc]
  rw [h1]
  exact List.perm_middle.trans ((hmid.cons a).trans List.perm_middle.symm)

lemma idxs_plug_perm (c : Ctx K) (s : BT K) :
    (c.plug s).idxsIn.Perm (s.idxsIn ++ c.idxsC) := by
  induction c generalizing s with
  | hole => simp [Ctx.plug, Ctx.idxsC]
  | inL c i k rk r ih =>
    refine (ih _).trans ?_
    simp [BT.idxsIn, Ctx.idxsC, List.append_assoc]
  | inR l i k rk c ih =>
    refine (ih _).trans ?_
    simp only [BT.idxsIn, Ctx.idxsC]
    exact middle_swap_perm i _ _ _

lemma keys_plug_perm (c : Ctx K) (s : BT K) :
    (c.plug s).keysIn.Perm (s.keysIn ++ c.keysC) := by
  induction c generalizing s with
  | hole => simp [Ctx.plug, Ctx.keysC]
  | inL c i k rk r ih =>
    refine (ih _).trans ?_
    simp [BT.keysIn, Ctx.keysC, List.append_assoc]
  | inR l i k rk c ih =>
    refine (ih _).trans ?_
    simp only [BT.keysIn, Ctx.keysC]
    exact middle_swap_perm k _ _ _

/-- Pointer layout of a context: `ReprCtx e c h hp top tp` states that the
frames of `c` are laid out in `e`, with the hole-side child field of the
innermost frame holding handle `h` and the innermost frame at slot `hp`
(for the empty context, `h = top` and `hp = tp`), and the plugged tree
occupying slot `top` whose parent field is `tp`. -/
def ReprCtx [Inhabited K] (e : List (ZipNode K)) : Ctx K → Nat → Nat → Nat → Nat → Prop
  | .hole, h, hp, top, tp => h = top ∧ hp = tp
  | .inL c i k rk r, h, hp, top, tp =>
    hp = i ∧ i < e.length ∧ (nodeAt e i).key = k ∧ (nodeAt e i).rank = rk ∧
    (nodeAt e i).left = h ∧ ReprP e r (nodeAt e i).right i ∧
    ReprCtx e c i (nodeAt e i).parent top tp
  | .inR l i k rk c, h, hp, top, tp =>
    hp = i ∧ i < e.length ∧ (nodeAt e i).key = k ∧ (nodeAt e i).rank = rk ∧
    (nodeAt e i).right = h ∧ ReprP e l (nodeAt e i).left i ∧
    ReprCtx e c i (nodeAt e i).parent top tp

/-- Count layout of a context, assuming the hole will be filled by a
subtree of `extra` nodes. -/
def CtxCounts [Inhabited K] (e : List (ZipNode K)) : Ctx K → Nat → Prop
  | .hole, _ => True
  | .inL c i _ _ r, extra =>
    (nodeAt e i).count = extra + 1 + r.size ∧ CtxCounts e c (extra + 1 + r.size)
  | .inR l i _ _ c, extra =>
    (nodeAt e i).count = l.size + 1 + extra ∧ CtxCounts e c (l.size + 1 + extra)

/-- Count correctness of the side subtrees of a context (the spine counts
themselves are not constrained). -/
def CtxSidesOK [Inhabited K] (e : List (ZipNode K)) : Ctx K → Prop
  | .hole => True
  | .inL c _ _ _ r => CountsOK e r ∧ CtxSidesOK e c
  | .inR l _ _ _ c => CountsOK e l ∧ CtxSidesOK e c

lemma ReprP_plug [Inhabited K] {e : List (ZipNode K)} {c : Ctx K} {s : BT K}
    {h hp top tp : Nat} (hc : ReprCtx e c h hp top tp) (hs : ReprP e s h hp) :
    ReprP e (c.plug s) top tp := by
  induction c generalizing s h hp with
  | hole => obtain ⟨rfl, rfl⟩ := hc; exact hs
  | inL c i k rk r ih =>
    obtain ⟨rfl, hlen, hk, hrk, hl, hr, hrec⟩ := hc
    exact ih hrec ⟨rfl, hlen, hk, hrk, rfl, hl ▸ hs, hr⟩
  | inR l i k rk c ih =>
    obtain ⟨rfl, hlen, hk, hrk, hrt, hl, hrec⟩ := hc
    exact ih hrec ⟨rfl, hlen, hk, hrk, rfl, hl, hrt ▸ hs⟩

lemma ReprP_unplug [Inhabited K] {e : List (ZipNode K)} {c : Ctx K} {s : BT K}
    {top tp : Nat} (hps : ReprP e (c.plug s) top tp) :
    ∃ h hp, ReprCtx e c h hp top tp ∧ ReprP e s h hp := by
  induction c generalizing s with
  | hole => exact ⟨top, tp, ⟨rfl, rfl⟩, hps⟩
  | inL c i k rk r ih =>
    obtain ⟨h, hp, hc, hs⟩ := ih hps
    obtain ⟨rfl, hlen, hk, hrk, hpp, hsl, hsr⟩ := hs
    refine ⟨(nodeAt e h).left, h, ⟨rfl, hlen, hk, hrk, rfl, hsr, ?_⟩, hsl⟩
    rw [hpp]; exact hc
  | inR l i k rk c ih =>
    obtain ⟨h, hp, hc, hs⟩ := ih hps
    obtain ⟨rfl, hlen, hk, hrk, hpp, hsl, hsr⟩ := hs
    refine ⟨(nodeAt e h).right, h, ⟨rfl, hlen, hk, hrk, rfl, hsl, ?_⟩, hsr⟩
    rw [hpp]; exact hc

/-- Count decomposition over a plugged context. -/
lemma CountsOK_plug_iff [Inhabited K] {e : List (ZipNode K)} (c : Ctx K) (s : BT K) :
    CountsOK e (c.plug s) ↔ CtxCounts e c s.size ∧ CtxSidesOK e c ∧ CountsOK e s := by
  induction c generalizing s with
  | hole => simp [Ctx.plug, CtxCounts, CtxSidesOK]
  | inL c i k rk r ih =>
    simp only [Ctx.plug, ih, CountsOK, CtxCounts, CtxSidesOK, BT.size]
    tauto
  | inR l i k rk c ih =>
    simp only [Ctx.plug, ih, CountsOK, CtxCounts, CtxSidesOK, BT.size]
    tauto

/-- Two arenas with the same length and the same non-count fields
everywhere (only subtree counts may differ). -/
def EqShape [Inhabited K] (e e' : List (ZipNode K)) : Prop :=
  e.length = e'.length ∧ ∀ j,
    (nodeAt e' j).key = (nodeAt e j).key ∧ (nodeAt e' j).left = (nodeAt e j).left ∧
    (nodeAt e' j).right = (nodeAt e j).right ∧
    (nodeAt e' j).parent = (nodeAt e j).parent ∧ (nodeAt e' j).rank = (nodeAt e j).rank

lemma EqShape.refl [Inhabited K] (e : List (ZipNode K)) : EqShape e e :=
  ⟨rfl, fun _ => ⟨rfl, rfl, rfl, rfl, rfl⟩⟩

lemma EqShape.trans' [Inhabited K] {e1 e2 e3 : List (ZipNode K)}
    (h1 : EqShape e1 e2) (h2 : EqShape e2 e3) : EqShape e1 e3 := by
  refine ⟨h1.1.trans h2.1, fun j => ?_⟩
  obtain ⟨a1, a2, a3, a4, a5⟩ := h1.2 j
  obtain ⟨b1, b2, b3, b4, b5⟩ := h2.2 j
  exact ⟨b1.trans a1, b2.trans a2, b3.trans a3, b4.trans a4, b5.trans a5⟩

lemma EqShape_setCnt [Inhabited K] (e : List (ZipNode K)) (i v : Nat) :
    EqShape e (setCnt e i v) := by
  refine ⟨(length_setCnt e i v).symm, fun j => ?_⟩
  by_cases hij : i = j
  · subst hij
    by_cases hlen : i < e.length
    · rw [nodeAt_setCnt_same e i v hlen]
      exact ⟨rfl, rfl, rfl, rfl, rfl⟩
    · rw [setCnt, List.set_eq_of_length_le (by omega)]
      exact ⟨rfl, rfl, rfl, rfl, rfl⟩
  · rw [nodeAt_setCnt_other e i j v hij]
    exact ⟨rfl, rfl, rfl, rfl, rfl⟩

lemma EqShape_fixupCount [Inhabited K] (e : List (ZipNode K)) (curr limit fuel : Nat) :
    EqShape e (fixupCount e curr limit fuel) := by
  induction fuel generalizing e curr with
  | zero => exact EqShape.refl e
  | succ fuel ih =>
    rw [fixupCount]
    by_cases hcl : curr ≠ limit
    · rw [if_pos hcl]
      exact (EqShape_setCnt e curr _).trans' (ih _ _)
    · rw [if_neg hcl]
      exact EqShape.refl e

lemma ReprP_of_EqShape [Inhabited K] {e e' : List (ZipNode K)} (hsh : EqShape e e')
    {t : BT K} {i p : Nat} (h : ReprP e t i p) : ReprP e' t i p := by
  induction t generalizing i p with
  | leaf => exact h
  | node l j k rk r ihl ihr =>
    obtain ⟨rfl, hlen, hk, hrk, hp, hl, hr⟩ := h
    obtain ⟨a1, a2, a3, a4, a5⟩ := hsh.2 i
    exact ⟨rfl, hsh.1 ▸ hlen, a1.trans hk, a5.trans hrk, a4.trans hp,
      a2 ▸ ihl hl, a3 ▸ ihr hr⟩

lemma ReprCtx_of_EqShape [Inhabited K] {e e' : List (ZipNode K)} (hsh : EqShape e e')
    {c : Ctx K} {h hp top tp : Nat} (hc : ReprCtx e c h hp top tp) :
    ReprCtx e' c h hp top tp := by
  induction c generalizing h hp with
  | hole => exact hc
  | inL c i k rk r ih =>
    obtain ⟨h1, hlen, hk, hrk, hl, hr, hrec⟩ := hc
    obtain ⟨a1, a2, a3, a4, a5⟩ := hsh.2 i
    refine ⟨h1, hsh.1 ▸ hlen, a1.trans hk, a5.trans hrk, a2.trans hl, ?_, ?_⟩
    · rw [a3]; exact ReprP_of_EqShape hsh hr
    · rw [a4]; exact ih hrec
  | inR l i k rk c ih =>
    obtain ⟨h1, hlen, hk, hrk, hrt, hl, hrec⟩ := hc
    obtain ⟨a1, a2, a3, a4, a5⟩ := hsh.2 i
    refine ⟨h1, hsh.1 ▸ hlen, a1.trans hk, a5.trans hrk, a3.trans hrt, ?_, ?_⟩
    · rw [a2]; exact ReprP_of_EqShape hsh hl
    · rw [a4]; exact ih hrec

/-- Context composition: `comp o c` is `c` sitting inside the hole of `o`. -/
def Ctx.comp : Ctx K → Ctx K → Ctx K
  | o, .hole => o
  | o, .inL c i k rk r => .inL (Ctx.comp o c) i k rk r
  | o, .inR l i k rk c => .inR l i k rk (Ctx.comp o c)

lemma plug_comp (o c : Ctx K) (s : BT K) : (o.comp c).plug s = o.plug (c.plug s) := by
  induction c generalizing s with
  | hole => rfl
  | inL c i k rk r ih => simp [Ctx.comp, Ctx.plug, ih]
  | inR l i k rk c ih => simp [Ctx.comp, Ctx.plug, ih]

lemma ReprCtx_comp [Inhabited K] {e : List (ZipNode K)} {o c : Ctx K}
    {h hp m mp top tp : Nat} (hc : ReprCtx e c h hp m mp) (ho : ReprCtx e o m mp top tp) :
    ReprCtx e (o.comp c) h hp top tp := by
  induction c generalizing h hp with
  | hole => obtain ⟨rfl, rfl⟩ := hc; exact ho
  | inL c i k rk r ih =>
    obtain ⟨h1, hlen, hk, hrk, hl, hr, hrec⟩ := hc
    exact ⟨h1, hlen, hk, hrk, hl, hr, ih hrec⟩
  | inR l i k rk c ih =>
    obtain ⟨h1, hlen, hk, hrk, hrt, hl, hrec⟩ := hc
    exact ⟨h1, hlen, hk, hrk, hrt, hl, ih hrec⟩

lemma idxsC_comp (o c : Ctx K) : (o.comp c).idxsC.Perm (c.idxsC ++ o.idxsC) := by
  induction c with
  | hole => simp [Ctx.comp, Ctx.idxsC]
  | inL c i k rk r ih =>
    simp only [Ctx.comp, Ctx.idxsC, List.cons_append, List.append_assoc]
    exact (ih.append_left r.idxsIn).cons i
  | inR l i k rk c ih =>
    simp only [Ctx.comp, Ctx.idxsC, List.cons_append, List.append_assoc]
    exact (ih.append_left l.idxsIn).cons i

/-- The frames of a context direct a search for `key` into the hole: the
hole lies left of every `inL` frame key and right of every `inR` frame key. -/
def RoutesTo (lt : K → K → Bool) (key : K) : Ctx K → Prop
  | .hole => True
  | .inL c _ k _ _ => lt key k = true ∧ RoutesTo lt key c
  | .inR _ _ k _ c => lt k key = true ∧ RoutesTo lt key c

lemma RoutesTo_comp {lt : K → K → Bool} {key : K} {o c : Ctx K}
    (ho : RoutesTo lt key o) (hc : RoutesTo lt key c) : RoutesTo lt key (o.comp c) := by
  induction c with
  | hole => exact ho
  | inL c i k rk r ih => exact ⟨hc.1, ih hc.2⟩
  | inR l i k rk c ih => exact ⟨hc.1, ih hc.2⟩

lemma AllK_iff_forall (P : K → Prop) (t : BT K) : t.AllK P ↔ ∀ x ∈ t.keysIn, P x := by
  induction t with
  | leaf => simp [BT.AllK, BT.keysIn]
  | node l i k rk r ihl ihr =>
    simp only [BT.AllK, BT.keysIn, ihl, ihr, List.mem_append, List.mem_cons]
    constructor
    · rintro ⟨h1, h2, h3⟩ x hx
      rcases hx with hx | hx | hx
      · exact h1 x hx
      · exact hx ▸ h2
      · exact h3 x hx
    · intro h
      exact ⟨fun x hx => h x (Or.inl hx), h k (Or.inr (Or.inl rfl)),
        fun x hx => h x (Or.inr (Or.inr hx))⟩

lemma keysIn_length (t : BT K) : t.keysIn.length = t.size := by
  induction t with
  | leaf => rfl
  | node l i k rk r ihl ihr => simp [BT.keysIn, BT.size, ihl, ihr]; omega

lemma idxsIn_length (t : BT K) : t.idxsIn.length = t.size := by
  induction t with
  | leaf => rfl
  | node l i k rk r ihl ihr => simp [BT.idxsIn, BT.size, ihl, ihr]; omega

lemma ReprP_idx_lt [Inhabited K] {e : List (ZipNode K)} {t : BT K} {i p : Nat}
    (h : ReprP e t i p) : ∀ j ∈ t.idxsIn, j < e.length := by
  induction t generalizing i p with
  | leaf => simp [BT.idxsIn]
  | node l j' k rk r ihl ihr =>
    obtain ⟨rfl, hlen, _, _, _, hl, hr⟩ := h
    intro j hj
    simp only [BT.idxsIn, List.mem_append, List.mem_cons] at hj
    rcases hj with hj | hj | hj
    · exact ihl hl j hj
    · omega
    · exact ihr hr j hj

lemma ReprP_congr [Inhabited K] {e e' : List (ZipNode K)} {t : BT K} {i p : Nat}
    (h : ReprP e t i p)
    (hsame : ∀ j ∈ t.idxsIn, nodeAt e' j = nodeAt e j ∧ j < e'.length) :
    ReprP e' t i p := by
  induction t generalizing i p with
  | leaf => exact h
  | node l j' k rk r ihl ihr =>
    obtain ⟨rfl, hlen, hk, hrk, hp, hl, hr⟩ := h
    have hmem : i ∈ (BT.node l i k rk r).idxsIn := by simp [BT.idxsIn]
    obtain ⟨heq, hlt⟩ := hsame i hmem
    refine ⟨rfl, hlt, heq ▸ hk, heq ▸ hrk, heq ▸ hp, heq ▸ ?_, heq ▸ ?_⟩
    · exact ihl hl fun j hj => hsame j (by simp [BT.idxsIn, hj])
    · exact ihr hr fun j hj => hsame j (by simp [BT.idxsIn, hj])

lemma CountsOK_congr [Inhabited K] {e e' : List (ZipNode K)} {t : BT K}
    (h : CountsOK e t)
    (hsame : ∀ j ∈ t.idxsIn, (nodeAt e' j).count = (nodeAt e j).count) :
    CountsOK e' t := by
  induction t with
  | leaf => trivial
  | node l i k rk r ihl ihr =>
    obtain ⟨hc, hl, hr⟩ := h
    refine ⟨(hsame i (by simp [BT.idxsIn])).trans hc, ?_, ?_⟩
    · exact ihl hl fun j hj => hsame j (by simp [BT.idxsIn, hj])
    · exact ihr hr fun j hj => hsame j (by simp [BT.idxsIn, hj])

lemma ReprCtx_congr [Inhabited K] {e e' : List (ZipNode K)} {c : Ctx K}
    {h hp top tp : Nat} (hc : ReprCtx e c h hp top tp)
    (hsame : ∀ j ∈ c.idxsC, nodeAt e' j = nodeAt e j ∧ j < e'.length) :
    ReprCtx e' c h hp top tp := by
  induction c generalizing h hp with
  | hole => exact hc
  | inL c i k rk r ih =>
    obtain ⟨h1, hlen, hk, hrk, hl, hr, hrec⟩ := hc
    obtain ⟨heq, hlt⟩ := hsame i (by simp [Ctx.idxsC])
    refine ⟨h1, hlt, heq ▸ hk, heq ▸ hrk, heq ▸ hl, heq ▸ ?_, heq ▸ ?_⟩
    · exact ReprP_congr hr fun j hj => hsame j (by simp [Ctx.idxsC, hj])
    · exact ih hrec fun j hj => hsame j (by simp [Ctx.idxsC, hj])
  | inR l i k rk c ih =>
    obtain ⟨h1, hlen, hk, hrk, hrt, hl, hrec⟩ := hc
    obtain ⟨heq, hlt⟩ := hsame i (by simp [Ctx.idxsC])
    refine ⟨h1, hlt, heq ▸ hk, heq ▸ hrk, heq ▸ hrt, heq ▸ ?_, heq ▸ ?_⟩
    · exact ReprP_congr hl fun j hj => hsame j (by simp [Ctx.idxsC, hj])
    · exact ih hrec fun j hj => hsame j (by simp [Ctx.idxsC, hj])

lemma CtxCounts_congr [Inhabited K] {e e' : List (ZipNode K)} {c : Ctx K} {extra : Nat}
    (h : CtxCounts e c extra)
    (hsame : ∀ j ∈ c.spineC, (nodeAt e' j).count = (nodeAt e j).count) :
    CtxCounts e' c extra := by
  induction c generalizing extra with
  | hole => trivial
  | inL c i k rk r ih =>
    exact ⟨(hsame i (by simp [Ctx.spineC])).trans h.1,
      ih h.2 fun j hj => hsame j (by simp [Ctx.spineC, hj])⟩
  | inR l i k rk c ih =>
    exact ⟨(hsame i (by simp [Ctx.spineC])).trans h.1,
      ih h.2 fun j hj => hsame j (by simp [Ctx.spineC, hj])⟩

lemma CtxSidesOK_congr [Inhabited K] {e e' : List (ZipNode K)} {c : Ctx K}
    (h : CtxSidesOK e c)
    (hsame : ∀ j ∈ c.idxsC, (nodeAt e' j).count = (nodeAt e j).count) :
    CtxSidesOK e' c := by
  induction c with
  | hole => trivial
  | inL c i k rk r ih =>
    exact ⟨CountsOK_congr h.1 fun j hj => hsame j (by simp [Ctx.idxsC, hj]),
      ih h.2 fun j hj => hsame j (by simp [Ctx.idxsC, hj])⟩
  | inR l i k rk c ih =>
    exact ⟨CountsOK_congr h.1 fun j hj => hsame j (by simp [Ctx.idxsC, hj]),
      ih h.2 fun j hj => hsame j (by simp [Ctx.idxsC, hj])⟩

lemma findLoop_miss [Inhabited K] {lt : K → K → Bool} (O : LtOrd lt) {e : List (ZipNode K)}
    (hlen : e.length ≤ SENTINEL) {t : BT K} {i p : Nat}
    (ht : ReprP e t i p) (hbst : BSTb lt t) {key : K} (hmiss : key ∉ t.keysIn)
    {fuel : Nat} (hfuel : t.size < fuel) :
    findLoop lt e key i fuel = SENTINEL := by
  induction t generalizing i p fuel with
  | leaf =>
    have hS : i = SENTINEL := ht
    cases fuel with
    | zero => omega
    | succ f => simp [findLoop, hS]
  | node l j' k rk r ihl ihr =>
    obtain ⟨rfl, hilen, hk, hrk, hp, hl, hr⟩ := ht
    obtain ⟨bl, br, al, ar⟩ := hbst
    cases fuel with
    | zero => simp [BT.size] at hfuel
    | succ f =>
      rw [findLoop, if_neg (by omega : ¬ i = SENTINEL), hk]
      have hml : key ∉ l.keysIn := fun hc => hmiss (by simp [BT.keysIn, hc])
      have hmr : key ∉ r.keysIn := fun hc => hmiss (by simp [BT.keysIn, hc])
      have hmk : key ≠ k := fun hc => hmiss (by simp [BT.keysIn, hc])
      by_cases h1 : lt key k = true
      · rw [if_pos h1]
        exact ihl hl bl hml (by simp [BT.size] at hfuel ⊢; omega)
      · rw [if_neg h1]
        by_cases h2 : lt k key = true
        · rw [if_pos h2]
          exact ihr hr br hmr (by simp [BT.size] at hfuel ⊢; omega)
        · exact absurd (O.eq_of_not_lt (Bool.not_eq_true _ ▸ h1)
            (Bool.not_eq_true _ ▸ h2)) hmk

lemma findLoop_hit [Inhabited K] {lt : K → K → Bool} (O : LtOrd lt) {e : List (ZipNode K)}
    (hlen : e.length ≤ SENTINEL) {t : BT K} {i p : Nat}
    (ht : ReprP e t i p) (hbst : BSTb lt t) {key : K} (hkey : key ∈ t.keysIn)
    {fuel : Nat} (hfuel : t.size < fuel) :
    ∃ cD vl j vrk vr, t = cD.plug (.node vl j key vrk vr) ∧ RoutesTo lt key cD ∧
      findLoop lt e key i fuel = j := by
  induction t generalizing i p fuel with
  | leaf => simp [BT.keysIn] at hkey
  | node l j' k rk r ihl ihr =>
    obtain ⟨rfl, hilen, hk, hrk, hp, hl, hr⟩ := ht
    obtain ⟨bl, br, al, ar⟩ := hbst
    cases fuel with
    | zero => simp [BT.size] at hfuel
    | succ f =>
      rw [findLoop, if_neg (by omega : ¬ i = SENTINEL), hk]
      by_cases h1 : lt key k = true
      · rw [if_pos h1]
        have hkeyl : key ∈ l.keysIn := by
          simp only [BT.keysIn, List.mem_append, List.mem_cons] at hkey
          rcases hkey with h | h | h
          · exact h
          · exact absurd (h ▸ h1) (by simp [O.irrefl])
          · have := (AllK_iff_forall _ r).1 ar key h
            rw [O.asymm this] at h1
            exact absurd h1 (by simp)
        obtain ⟨cD, vl, j, vrk, vr, hdec, hroutes, hrun⟩ :=
          ihl hl bl hkeyl (show l.size < f by simp [BT.size] at hfuel ⊢; omega)
        refine ⟨(Ctx.inL Ctx.hole i k rk r).comp cD, vl, j, vrk, vr, ?_, ?_, hrun⟩
        · rw [plug_comp, ← hdec]; rfl
        · exact RoutesTo_comp ⟨h1, trivial⟩ hroutes
      · rw [if_neg h1]
        by_cases h2 : lt k key = true
        · rw [if_pos h2]
          have hkeyr : key ∈ r.keysIn := by
            simp only [BT.keysIn, List.mem_append, List.mem_cons] at hkey
            rcases hkey with h | h | h
            · have := (AllK_iff_forall _ l).1 al key h
              rw [O.asymm this] at h2
              exact absurd h2 (by simp)
            · exact absurd (h ▸ h2) (by simp [O.irrefl])
            · exact h
          obtain ⟨cD, vl, j, vrk, vr, hdec, hroutes, hrun⟩ :=
            ihr hr br hkeyr (show r.size < f by simp [BT.size] at hfuel ⊢; omega)
          refine ⟨(Ctx.inR l i k rk Ctx.hole).comp cD, vl, j, vrk, vr, ?_, ?_, hrun⟩
          · rw [plug_comp, ← hdec]; rfl
          · exact RoutesTo_comp ⟨h2, trivial⟩ hroutes
        · have hkk : key = k := O.eq_of_not_lt (Bool.not_eq_true _ ▸ h1)
            (Bool.not_eq_true _ ▸ h2)
          exact ⟨Ctx.hole, l, i, rk, r, by rw [hkk]; rfl, trivial, by rw [if_neg h2]⟩

lemma nodup_shuffle {l l' : List Nat} (hnd : l.Nodup)
    (hcount : ∀ a, l.count a = l'.count a) : l'.Nodup :=
  ((List.perm_iff_count.2 hcount).nodup_iff).1 hnd

lemma spineC_subset_idxsC (c : Ctx K) : ∀ j ∈ c.spineC, j ∈ c.idxsC := by
  induction c with
  | hole => simp [Ctx.spineC]
  | inL c i k rk r ih =>
    intro j hj
    simp only [Ctx.spineC, List.mem_cons] at hj
    rcases hj with rfl | hj
    · simp [Ctx.idxsC]
    · simp [Ctx.idxsC, ih j hj]
  | inR l i k rk c ih =>
    intro j hj
    simp only [Ctx.spineC, List.mem_cons] at hj
    rcases hj with rfl | hj
    · simp [Ctx.idxsC]
    · simp [Ctx.idxsC, ih j hj]

lemma child_count [Inhabited K] {e : List (ZipNode K)} {s : BT K} {h hp : Nat}
    (hlen : e.length ≤ SENTINEL) (hs : ReprP e s h hp) (hcs : CountsOK e s) :
    (if h ≠ SENTINEL then (nodeAt e h).count else 0) = s.size := by
  cases s with
  | leaf =>
    have : h = SENTINEL := hs
    simp [this, BT.size]
  | node l j k rk r =>
    obtain ⟨rfl, hlt, _, _, _, _, _⟩ := hs
    rw [if_pos (by omega : ¬ h = SENTINEL)]
    exact hcs.1

/-- Behaviour of `fixupCount` starting at the hole-parent of a represented
context and stopping at `tp`: it rewrites exactly the spine counts, making
them correct for the tree obtained by plugging `s` into the hole. -/
lemma fixupCount_spine [Inhabited K] {e : List (ZipNode K)} {c : Ctx K}
    {s : BT K} {h hp top tp : Nat}
    (hlen : e.length ≤ SENTINEL)
    (hc : ReprCtx e c h hp top tp) (hs : ReprP e s h hp)
    (hcs : CountsOK e s) (hsides : CtxSidesOK e c)
    (hnd : (c.idxsC ++ s.idxsIn).Nodup)
    (htp : ∀ j ∈ c.spineC, j ≠ tp)
    {fuel : Nat} (hfuel : c.depth < fuel) :
    ∃ e', fixupCount e hp tp fuel = e' ∧ EqShape e e' ∧
      (∀ j, j ∉ c.spineC → nodeAt e' j = nodeAt e j) ∧
      CtxCounts e' c s.size ∧ CtxSidesOK e' c ∧ CountsOK e' s := by
  induction c generalizing e s h hp fuel with
  | hole =>
    obtain ⟨rfl, rfl⟩ := hc
    cases fuel with
    | zero => omega
    | succ f =>
      refine ⟨e, ?_, EqShape.refl e, fun j _ => rfl, trivial, trivial, hcs⟩
      rw [fixupCount, if_neg (by simp)]
  | inL c i k rk r ih =>
    obtain ⟨rfl, hilen, hk, hrk, hl, hr, hrec⟩ := hc
    cases fuel with
    | zero => simp [Ctx.depth] at hfuel
    | succ f =>
      have hi_tp : hp ≠ tp := htp hp (by simp [Ctx.spineC])
      have hndL : hp ∉ c.idxsC ++ s.idxsIn ∧ hp ∉ r.idxsIn := by
        have h1 := hnd
        simp only [Ctx.idxsC, List.cons_append, List.nodup_cons, List.mem_append] at h1
        constructor
        · intro hmem
          simp only [List.mem_append] at hmem
          rcases hmem with hm | hm
          · exact h1.1 (Or.inl (Or.inr hm))
          · exact h1.1 (Or.inr hm)
        · intro hmem
          exact h1.1 (Or.inl (Or.inl hmem))
      rw [fixupCount, if_pos hi_tp]
      have hcntL : (if (nodeAt e hp).left ≠ SENTINEL then (nodeAt e (nodeAt e hp).left).count else 0)
          = s.size := by rw [hl]; exact child_count hlen hs hcs
      have hcntR : (if (nodeAt e hp).right ≠ SENTINEL then (nodeAt e (nodeAt e hp).right).count else 0)
          = r.size := child_count hlen hr hsides.1
      set cnt := 1 + (if (nodeAt e hp).left ≠ SENTINEL then (nodeAt e (nodeAt e hp).left).count else 0)
        + (if (nodeAt e hp).right ≠ SENTINEL then (nodeAt e (nodeAt e hp).right).count else 0) with hcnt
      have hcnteq : cnt = 1 + s.size + r.size := by rw [hcnt, hcntL, hcntR]
      set e1 := setCnt e hp cnt with he1
      have hsh1 : EqShape e e1 := EqShape_setCnt e hp cnt
      have hother : ∀ j, j ≠ hp → nodeAt e1 j = nodeAt e j :=
        fun j hj => nodeAt_setCnt_other e hp j cnt (fun hc' => hj hc'.symm)
      have hself : nodeAt e1 hp = { nodeAt e hp with count := cnt } :=
        nodeAt_setCnt_same e hp cnt hilen
      -- the parent step
      have hrec1 : ReprCtx e1 c hp (nodeAt e hp).parent top tp := ReprCtx_of_EqShape hsh1 hrec
      have hs1 : ReprP e1 (BT.node s hp k rk r) hp (nodeAt e hp).parent := by
        refine ⟨rfl, by simpa [← hsh1.1] using hilen, ?_, ?_, ?_, ?_, ?_⟩
        · rw [hself]; exact hk
        · rw [hself]; exact hrk
        · rw [hself]
        · rw [hself]
          exact hl ▸ ReprP_of_EqShape hsh1 hs
        · rw [hself]
          exact ReprP_of_EqShape hsh1 hr
      have hcs1 : CountsOK e1 (BT.node s hp k rk r) := by
        refine ⟨by rw [hself]; simp; omega, ?_, ?_⟩
        · exact CountsOK_congr hcs fun j hj => by
            rw [hother j (fun hj' => hndL.1 (by simp [hj' ▸ hj]))]
        · exact CountsOK_congr hsides.1 fun j hj => by
            rw [hother j (fun hj' => hndL.2 (hj' ▸ hj))]
      have hsides1 : CtxSidesOK e1 c := CtxSidesOK_congr hsides.2 fun j hj => by
        rw [hother j (fun hj' => hndL.1 (by simp [hj' ▸ hj]))]
      have hnd1 : (c.idxsC ++ (BT.node s hp k rk r).idxsIn).Nodup := by
        refine nodup_shuffle hnd fun a => ?_
        simp only [Ctx.idxsC, BT.idxsIn, List.count_append, List.count_cons, List.cons_append]
        ring
      obtain ⟨e', hrun, hsh', hframe', hctx', hsides', hcnts'⟩ :=
        ih (e := e1) (by rw [← hsh1.1]; exact hlen) hrec1 hs1 hcs1 hsides1 hnd1
          (fun j hj => htp j (by simp [Ctx.spineC, hj]))
          (show c.depth < f by simp [Ctx.depth] at hfuel ⊢; omega)
      refine ⟨e', hrun, hsh1.trans' hsh', ?_, ?_, ?_, hcnts'.2.1⟩
      · intro j hj
        simp only [Ctx.spineC, List.mem_cons, not_or] at hj
        rw [hframe' j (by
          intro hmem
          exact hj.2 hmem), hother j hj.1]
      · refine ⟨?_, ?_⟩
        · have : nodeAt e' hp = nodeAt e1 hp := hframe' hp (by
            intro hmem
            exact hndL.1 (by simp [spineC_subset_idxsC c hp hmem]))
          rw [this, hself]
          simpa using by omega
        · have := hctx'
          simpa [BT.size] using this
      · exact ⟨hcnts'.2.2, hsides'⟩
  | inR l i k rk c ih =>
    obtain ⟨rfl, hilen, hk, hrk, hrt, hl, hrec⟩ := hc
    cases fuel with
    | zero => simp [Ctx.depth] at hfuel
    | succ f =>
      have hi_tp : hp ≠ tp := htp hp (by simp [Ctx.spineC])
      have hndL : hp ∉ c.idxsC ++ s.idxsIn ∧ hp ∉ l.idxsIn := by
        have h1 := hnd
        simp only [Ctx.idxsC, List.cons_append, List.nodup_cons, List.mem_append] at h1
        constructor
        · intro hmem
          simp only [List.mem_append] at hmem
          rcases hmem with hm | hm
          · exact h1.1 (Or.inl (Or.inr hm))
          · exact h1.1 (Or.inr hm)
        · intro hmem
          exact h1.1 (Or.inl (Or.inl hmem))
      rw [fixupCount, if_pos hi_tp]
      have hcntL : (if (nodeAt e hp).left ≠ SENTINEL then (nodeAt e (nodeAt e hp).left).count else 0)
          = l.size := child_count hlen hl hsides.1
      have hcntR : (if (nodeAt e hp).right ≠ SENTINEL then (nodeAt e (nodeAt e hp).right).count else 0)
          = s.size := by rw [hrt]; exact child_count hlen hs hcs
      set cnt := 1 + (if (nodeAt e hp).left ≠ SENTINEL then (nodeAt e (nodeAt e hp).left).count else 0)
        + (if (nodeAt e hp).right ≠ SENTINEL then (nodeAt e (nodeAt e hp).right).count else 0) with hcnt
      have hcnteq : cnt = 1 + l.size + s.size := by rw [hcnt, hcntL, hcntR]
      set e1 := setCnt e hp cnt with he1
      have hsh1 : EqShape e e1 := EqShape_setCnt e hp cnt
      have hother : ∀ j, j ≠ hp → nodeAt e1 j = nodeAt e j :=
        fun j hj => nodeAt_setCnt_other e hp j cnt (fun hc' => hj hc'.symm)
      have hself : nodeAt e1 hp = { nodeAt e hp with count := cnt } :=
        nodeAt_setCnt_same e hp cnt hilen
      have hrec1 : ReprCtx e1 c hp (nodeAt e hp).parent top tp := ReprCtx_of_EqShape hsh1 hrec
      have hs1 : ReprP e1 (BT.node l hp k rk s) hp (nodeAt e hp).parent := by
        refine ⟨rfl, by simpa [← hsh1.1] using hilen, ?_, ?_, ?_, ?_, ?_⟩
        · rw [hself]; exact hk
        · rw [hself]; exact hrk
        · rw [hself]
        · rw [hself]
          exact ReprP_of_EqShape hsh1 hl
        · rw [hself]
          exact hrt ▸ ReprP_of_EqShape hsh1 hs
      have hcs1 : CountsOK e1 (BT.node l hp k rk s) := by
        refine ⟨by rw [hself]; simp; omega, ?_, ?_⟩
        · exact CountsOK_congr hsides.1 fun j hj => by
            rw [hother j (fun hj' => hndL.2 (hj' ▸ hj))]
        · exact CountsOK_congr hcs fun j hj => by
            rw [hother j (fun hj' => hndL.1 (by simp [hj' ▸ hj]))]
      have hsides1 : CtxSidesOK e1 c := CtxSidesOK_congr hsides.2 fun j hj => by
        rw [hother j (fun hj' => hndL.1 (by simp [hj' ▸ hj]))]
      have hnd1 : (c.idxsC ++ (BT.node l hp k rk s).idxsIn).Nodup := by
        refine nodup_shuffle hnd fun a => ?_
        simp only [Ctx.idxsC, BT.idxsIn, List.count_append, List.count_cons, List.cons_append]
        ring
      obtain ⟨e', hrun, hsh', hframe', hctx', hsides', hcnts'⟩ :=
        ih (e := e1) (by rw [← hsh1.1]; exact hlen) hrec1 hs1 hcs1 hsides1 hnd1
          (fun j hj => htp j (by simp [Ctx.spineC, hj]))
          (show c.depth < f by simp [Ctx.depth] at hfuel ⊢; omega)
      refine ⟨e', hrun, hsh1.trans' hsh', ?_, ?_, ?_, hcnts'.2.2⟩
      · intro j hj
        simp only [Ctx.spineC, List.mem_cons, not_or] at hj
        rw [hframe' j (by
          intro hmem
          exact hj.2 hmem), hother j hj.1]
      · refine ⟨?_, ?_⟩
        · have : nodeAt e' hp = nodeAt e1 hp := hframe' hp (by
            intro hmem
            exact hndL.1 (by simp [spineC_subset_idxsC c hp hmem]))
          rw [this, hself]
          simpa using by omega
        · have := hctx'
          simpa [BT.size] using this
      · exact ⟨hcnts'.2.1, hsides'⟩

/-- Functional model of the unzip left chain: the subtree of keys below
`key` (keys are distinct from `key` whenever this is used). -/
def unzipL (lt : K → K → Bool) (key : K) : BT K → BT K
  | .leaf => .leaf
  | .node l i x rk r =>
    if lt x key = true then .node l i x rk (unzipL lt key r) else unzipL lt key l

/-- Functional model of the unzip right chain: the subtree of keys above
`key`. -/
def unzipR (lt : K → K → Bool) (key : K) : BT K → BT K
  | .leaf => .leaf
  | .node l i x rk r =>
    if lt x key = true then unzipR lt key r else .node (unzipR lt key l) i x rk r

/-- Functional model of `insert`: descend while the visited rank is
strictly greater, or equal with the visited key below the new key; at the
stop point splice a new node over the unzipped pieces of the displaced
subtree. -/
def insF (lt : K → K → Bool) (rank : Nat) (key : K) (idx : Nat) : BT K → BT K
  | .leaf => .node .leaf idx key rank .leaf
  | .node l i x rk r =>
    if rank < rk ∨ (rank = rk ∧ lt x key = true) then
      if lt key x = true then .node (insF lt rank key idx l) i x rk r
      else .node l i x rk (insF lt rank key idx r)
    else .node (unzipL lt key (.node l i x rk r)) idx key rank (unzipR lt key (.node l i x rk r))

/-- Functional model of the zip merge used by deletion: interleave two
subtrees by rank, ties favouring the left side. -/
def zipF : BT K → BT K → BT K
  | .leaf, r => r
  | .node ll li lx lrk lr, .leaf => .node ll li lx lrk lr
  | .node ll li lx lrk lr, .node rl ri rx rrk rr =>
    if rrk ≤ lrk then .node ll li lx lrk (zipF lr (.node rl ri rx rrk rr))
    else .node (zipF (.node ll li lx lrk lr) rl) ri rx rrk rr
termination_by l r => l.size + r.size
decreasing_by
  all_goals simp [BT.size]
  all_goals omega

/-- Functional model of deletion by key: replace the matching node by the
zip of its subtrees. -/
def delF (lt : K → K → Bool) (key : K) : BT K → BT K
  | .leaf => .leaf
  | .node l i x rk r =>
    if lt key x = true then .node (delF lt key l) i x rk r
    else if lt x key = true then .node l i x rk (delF lt key r)
    else zipF l r

/-- The frame keys of a context, innermost first. -/
def Ctx.spineKeys : Ctx K → List K
  | .hole => []
  | .inL c _ k _ _ => k :: c.spineKeys
  | .inR _ _ k _ c => k :: c.spineKeys

lemma spineC_sublist_idxsC (c : Ctx K) : c.spineC.Sublist c.idxsC := by
  induction c with
  | hole => simp [Ctx.spineC, Ctx.idxsC]
  | inL c i k rk r ih =>
    simp only [Ctx.spineC, Ctx.idxsC]
    exact (ih.trans (List.sublist_append_right _ _)).cons₂ i
  | inR l i k rk c ih =>
    simp only [Ctx.spineC, Ctx.idxsC]
    exact (ih.trans (List.sublist_append_right _ _)).cons₂ i

lemma ReprCtx_spine_lt [Inhabited K] {e : List (ZipNode K)} {c : Ctx K}
    {h hp top tp : Nat} (hc : ReprCtx e c h hp top tp) :
    ∀ j ∈ c.spineC, j < e.length := by
  induction c generalizing h hp with
  | hole => simp [Ctx.spineC]
  | inL c i k rk r ih =>
    obtain ⟨_, hlen, _, _, _, _, hrec⟩ := hc
    intro j hj
    simp only [Ctx.spineC, List.mem_cons] at hj
    rcases hj with rfl | hj
    · exact hlen
    · exact ih hrec j hj
  | inR l i k rk c ih =>
    obtain ⟨_, hlen, _, _, _, _, hrec⟩ := hc
    intro j hj
    simp only [Ctx.spineC, List.mem_cons] at hj
    rcases hj with rfl | hj
    · exact hlen
    · exact ih hrec j hj

lemma depth_eq_spine_length (c : Ctx K) : c.depth = c.spineC.length := by
  induction c with
  | hole => rfl
  | inL c i k rk r ih => simp [Ctx.depth, Ctx.spineC, ih]
  | inR l i k rk c ih => simp [Ctx.depth, Ctx.spineC, ih]

lemma nodup_lt_length {l : List Nat} {n : Nat} (hnd : l.Nodup)
    (hb : ∀ j ∈ l, j < n) : l.length ≤ n := by
  have hsub : l ⊆ List.range n := fun j hj => List.mem_range.2 (hb j hj)
  have := (List.subperm_of_subset hnd hsub).length_le
  simpa using this

lemma CtxCounts_cast [Inhabited K] {e : List (ZipNode K)} {o : Ctx K} {a b : Nat}
    (h : CtxCounts e o a) (hab : a = b) : CtxCounts e o b :=
  hab ▸ h

lemma CtxCounts_comp [Inhabited K] {e : List (ZipNode K)} (o c : Ctx K) (extra : Nat) :
    CtxCounts e (o.comp c) extra ↔ CtxCounts e c extra ∧ CtxCounts e o (extra + c.sizeC) := by
  induction c generalizing extra with
  | hole => simp [Ctx.comp, CtxCounts, Ctx.sizeC]
  | inL c i k rk r ih =>
    simp only [Ctx.comp, CtxCounts, Ctx.sizeC, ih]
    constructor
    · rintro ⟨h1, h2, h3⟩
      exact ⟨⟨h1, h2⟩, CtxCounts_cast h3 (by omega)⟩
    · rintro ⟨⟨h1, h2⟩, h3⟩
      exact ⟨h1, h2, CtxCounts_cast h3 (by omega)⟩
  | inR l i k rk c ih =>
    simp only [Ctx.comp, CtxCounts, Ctx.sizeC, ih]
    constructor
    · rintro ⟨h1, h2, h3⟩
      exact ⟨⟨h1, h2⟩, CtxCounts_cast h3 (by omega)⟩
    · rintro ⟨⟨h1, h2⟩, h3⟩
      exact ⟨h1, h2, CtxCounts_cast h3 (by omega)⟩

lemma CtxSidesOK_comp [Inhabited K] {e : List (ZipNode K)} (o c : Ctx K) :
    CtxSidesOK e (o.comp c) ↔ CtxSidesOK e c ∧ CtxSidesOK e o := by
  induction c with
  | hole => simp [Ctx.comp, CtxSidesOK]
  | inL c i k rk r ih => simp [Ctx.comp, CtxSidesOK, ih]; tauto
  | inR l i k rk c ih => simp [Ctx.comp, CtxSidesOK, ih]; tauto

lemma spineKeys_comp (o c : Ctx K) :
    (o.comp c).spineKeys = c.spineKeys ++ o.spineKeys := by
  induction c with
  | hole => simp [Ctx.comp, Ctx.spineKeys]
  | inL c i k rk r ih => simp [Ctx.comp, Ctx.spineKeys, ih]
  | inR l i k rk c ih => simp [Ctx.comp, Ctx.spineKeys, ih]

lemma spineC_comp (o c : Ctx K) :
    (o.comp c).spineC = c.spineC ++ o.spineC := by
  induction c with
  | hole => simp [Ctx.comp, Ctx.spineC]
  | inL c i k rk r ih => simp [Ctx.comp, Ctx.spineC, ih]
  | inR l i k rk c ih => simp [Ctx.comp, Ctx.spineC, ih]

lemma depth_comp (o c : Ctx K) : (o.comp c).depth = c.depth + o.depth := by
  rw [depth_eq_spine_length, depth_eq_spine_length, depth_eq_spine_length, spineC_comp]
  simp

lemma sizeC_comp (o c : Ctx K) : (o.comp c).sizeC = c.sizeC + o.sizeC := by
  induction c with
  | hole => simp [Ctx.comp, Ctx.sizeC]
  | inL c i k rk r ih => simp [Ctx.comp, Ctx.sizeC, ih]; omega
  | inR l i k rk c ih => simp [Ctx.comp, Ctx.sizeC, ih]; omega

lemma comp_ne_hole {o c : Ctx K} (ho : o ≠ Ctx.hole) : o.comp c ≠ Ctx.hole := by
  cases c with
  | hole => exact ho
  | inL c i k rk r => simp [Ctx.comp]
  | inR l i k rk c => simp [Ctx.comp]

/-- The root key of a nonempty subtree is below `key`. -/
def RootLess (lt : K → K → Bool) (key : K) : BT K → Prop
  | .leaf => False
  | .node _ _ x _ _ => lt x key = true

/-- The root key of a nonempty subtree is above `key`. -/
def RootGreater (lt : K → K → Bool) (key : K) : BT K → Prop
  | .leaf => False
  | .node _ _ x _ _ => lt key x = true

/-- A left-chain context: every frame holds its continuation as its right
child (the chain descends rightwards). -/
def LChain : Ctx K → Prop
  | .hole => True
  | .inL _ _ _ _ _ => False
  | .inR _ _ _ _ c => LChain c

/-- A right-chain context: every frame holds its continuation as its left
child. -/
def RChain : Ctx K → Prop
  | .hole => True
  | .inL c _ _ _ _ => RChain c
  | .inR _ _ _ _ _ => False

lemma LChain_comp {o c : Ctx K} (ho : LChain o) (hc : LChain c) : LChain (o.comp c) := by
  induction c with
  | hole => exact ho
  | inL c i k rk r ih => exact absurd hc (by simp [LChain])
  | inR l i k rk c ih => exact ih hc

lemma RChain_comp {o c : Ctx K} (ho : RChain o) (hc : RChain c) : RChain (o.comp c) := by
  induction c with
  | hole => exact ho
  | inL c i k rk r ih => exact ih hc
  | inR l i k rk c ih => exact absurd hc (by simp [RChain])

/-- Specification of the first unzip inner walk: starting at a subtree whose
root key is below the new key, it peels off the maximal top chain of
right-descending nodes with keys below `key`, which is exactly the next
piece of the functional left unzip chain. -/
lemma runLess_spec [Inhabited K] {lt : K → K → Bool} (O : LtOrd lt) {e : List (ZipNode K)}
    (hlen : e.length ≤ SENTINEL) {key : K} {c : BT K} {curr cp : Nat}
    (ht : ReprP e c curr cp)
    (hne : RootLess lt key c)
    (hcomp : c.AllK (fun x => lt x key = true ∨ lt key x = true)) :
    ∀ {prev fuel : Nat}, c.size < fuel →
    ∃ (w : Ctx K) (c' : BT K) (h' hp' : Nat),
      runLess lt e key prev curr fuel = (hp', h') ∧
      c = w.plug c' ∧ w ≠ Ctx.hole ∧ LChain w ∧
      ReprCtx e w h' hp' curr cp ∧ ReprP e c' h' hp' ∧
      (∀ x ∈ w.spineKeys, lt x key = true) ∧
      (c' = .leaf ∨ RootGreater lt key c') ∧
      unzipL lt key c = w.plug (unzipL lt key c') ∧
      unzipR lt key c = unzipR lt key c' := by
  induction c generalizing curr cp with
  | leaf => exact absurd hne (by simp [RootLess])
  | node l0 i0 x0 rk0 r0 ihl ihr =>
    intro prev fuel hfuel
    have hx0 : lt x0 key = true := hne
    obtain ⟨rfl, hilen, hk, hrk, hpp, hl, hr⟩ := ht
    obtain ⟨hcl, hcx, hcr⟩ := hcomp
    cases fuel with
    | zero => simp [BT.size] at hfuel
    | succ f =>
      rw [runLess, if_pos ⟨by omega, by rw [hk, O.asymm hx0]; simp⟩]
      cases hr0 : r0 with
      | leaf =>
        subst hr0
        have hrS : (nodeAt e curr).right = SENTINEL := hr
        cases f with
        | zero => simp [BT.size] at hfuel
        | succ f' =>
          rw [runLess, if_neg (by rw [hrS]; simp)]
          refine ⟨Ctx.inR l0 curr x0 rk0 Ctx.hole, .leaf, SENTINEL, curr, by rw [hrS],
            by simp [Ctx.plug], by simp, by simp [LChain], ?_, by exact rfl, ?_, Or.inl rfl, ?_, ?_⟩
          · exact ⟨rfl, hilen, hk, hrk, hrS, hl, rfl, hpp⟩
          · intro x hx
            simp only [Ctx.spineKeys, List.mem_cons] at hx
            rcases hx with rfl | hx
            · exact hx0
            · simp [Ctx.spineKeys] at hx
          · simp [unzipL, hx0, Ctx.plug]
          · simp [unzipR, hx0]
      | node l1 i1 x1 rk1 r1 =>
        subst hr0
        rcases hcr.2.1 with hx1 | hx1
        · -- the run continues into the right child
          obtain ⟨w', c', h', hp', hrun, hdec, hwne, hwch, hctx, hrepr, hkeys, hsign, huL, huR⟩ :=
            ihr hr hx1 hcr
              (show (BT.node l1 i1 x1 rk1 r1).size < f by simp [BT.size] at hfuel ⊢; omega)
          refine ⟨(Ctx.inR l0 curr x0 rk0 Ctx.hole).comp w', c', h', hp', hrun, ?_,
            comp_ne_hole (by simp), LChain_comp (by simp [LChain]) hwch, ?_, hrepr, ?_,
            hsign, ?_, ?_⟩
          · rw [plug_comp, ← hdec]; rfl
          · exact ReprCtx_comp hctx ⟨rfl, hilen, hk, hrk, rfl, hl, rfl, hpp⟩
          · intro x hx
            rw [spineKeys_comp] at hx
            simp only [List.mem_append, Ctx.spineKeys, List.mem_cons] at hx
            rcases hx with hx | rfl | hx
            · exact hkeys x hx
            · exact hx0
            · simp at hx
          · rw [plug_comp, ← huL]
            simp [unzipL, hx0, Ctx.plug]
          · rw [← huR]
            simp [unzipR, hx0]
        · -- the run stops at the right child
          cases f with
          | zero => simp [BT.size] at hfuel
          | succ f' =>
            have hstop : ¬ ((nodeAt e curr).right ≠ SENTINEL ∧
                ¬ lt key (nodeAt e (nodeAt e curr).right).key = true) := by
              obtain ⟨heq1, hlen1, hk1, _, _, _, _⟩ := hr
              rw [hk1, hx1]
              simp
            rw [runLess, if_neg hstop]
            refine ⟨Ctx.inR l0 curr x0 rk0 Ctx.hole, .node l1 i1 x1 rk1 r1,
              (nodeAt e curr).right, curr, rfl,
              by simp [Ctx.plug], by simp, by simp [LChain], ?_, hr, ?_,
              Or.inr hx1, ?_, ?_⟩
            · exact ⟨rfl, hilen, hk, hrk, rfl, hl, rfl, hpp⟩
            · intro x hx
              simp only [Ctx.spineKeys, List.mem_cons] at hx
              rcases hx with rfl | hx
              · exact hx0
              · simp [Ctx.spineKeys] at hx
            · simp [unzipL, hx0, Ctx.plug]
            · simp [unzipR, hx0]

/-- Specification of the second unzip inner walk, the mirror of
`runLess_spec`: it peels the maximal top chain of left-descending nodes
with keys above `key`, the next piece of the right unzip chain. -/
lemma runGreater_spec [Inhabited K] {lt : K → K → Bool} (O : LtOrd lt) {e : List (ZipNode K)}
    (hlen : e.length ≤ SENTINEL) {key : K} {c : BT K} {curr cp : Nat}
    (ht : ReprP e c curr cp)
    (hne : RootGreater lt key c)
    (hcomp : c.AllK (fun x => lt x key = true ∨ lt key x = true)) :
    ∀ {prev fuel : Nat}, c.size < fuel →
    ∃ (w : Ctx K) (c' : BT K) (h' hp' : Nat),
      runGreater lt e key prev curr fuel = (hp', h') ∧
      c = w.plug c' ∧ w ≠ Ctx.hole ∧ RChain w ∧
      ReprCtx e w h' hp' curr cp ∧ ReprP e c' h' hp' ∧
      (∀ x ∈ w.spineKeys, lt key x = true) ∧
      (c' = .leaf ∨ RootLess lt key c') ∧
      unzipR lt key c = w.plug (unzipR lt key c') ∧
      unzipL lt key c = unzipL lt key c' := by
  induction c generalizing curr cp with
  | leaf => exact absurd hne (by simp [RootGreater])
  | node l0 i0 x0 rk0 r0 ihl ihr =>
    intro prev fuel hfuel
    have hx0 : lt key x0 = true := hne
    have hx0' : lt x0 key = false := O.asymm hx0
    obtain ⟨rfl, hilen, hk, hrk, hpp, hl, hr⟩ := ht
    obtain ⟨hcl, hcx, hcr⟩ := hcomp
    cases fuel with
    | zero => simp [BT.size] at hfuel
    | succ f =>
      rw [runGreater, if_pos ⟨by omega, by rw [hk, hx0']; simp⟩]
      cases hl0 : l0 with
      | leaf =>
        subst hl0
        have hlS : (nodeAt e curr).left = SENTINEL := hl
        cases f with
        | zero => simp [BT.size] at hfuel
        | succ f' =>
          rw [runGreater, if_neg (by rw [hlS]; simp)]
          refine ⟨Ctx.inL Ctx.hole curr x0 rk0 r0, .leaf, SENTINEL, curr, by rw [hlS],
            by simp [Ctx.plug], by simp, by simp [RChain], ?_, by exact rfl, ?_, Or.inl rfl, ?_, ?_⟩
          · exact ⟨rfl, hilen, hk, hrk, hlS, hr, rfl, hpp⟩
          · intro x hx
            simp only [Ctx.spineKeys, List.mem_cons] at hx
            rcases hx with rfl | hx
            · exact hx0
            · simp [Ctx.spineKeys] at hx
          · simp [unzipR, hx0', Ctx.plug]
          · simp [unzipL, hx0']
      | node l1 i1 x1 rk1 r1 =>
        subst hl0
        rcases hcl.2.1 with hx1 | hx1
        · -- the run stops at the left child
          cases f with
          | zero => simp [BT.size] at hfuel
          | succ f' =>
            have hstop : ¬ ((nodeAt e curr).left ≠ SENTINEL ∧
                ¬ lt (nodeAt e (nodeAt e curr).left).key key = true) := by
              obtain ⟨heq1, hlen1, hk1, _, _, _, _⟩ := hl
              rw [hk1, hx1]
              simp
            rw [runGreater, if_neg hstop]
            refine ⟨Ctx.inL Ctx.hole curr x0 rk0 r0, .node l1 i1 x1 rk1 r1,
              (nodeAt e curr).left, curr, rfl,
              by simp [Ctx.plug], by simp, by simp [RChain], ?_, hl, ?_,
              Or.inr hx1, ?_, ?_⟩
            · exact ⟨rfl, hilen, hk, hrk, rfl, hr, rfl, hpp⟩
            · intro x hx
              simp only [Ctx.spineKeys, List.mem_cons] at hx
              rcases hx with rfl | hx
              · exact hx0
              · simp [Ctx.spineKeys] at hx
            · simp [unzipR, hx0', Ctx.plug]
            · simp [unzipL, hx0']
        · -- the run continues into the left child
          obtain ⟨w', c', h', hp', hrun, hdec, hwne, hwch, hctx, hrepr, hkeys, hsign, huR, huL⟩ :=
            ihl hl hx1 hcl
              (show (BT.node l1 i1 x1 rk1 r1).size < f by simp [BT.size] at hfuel ⊢; omega)
          refine ⟨(Ctx.inL Ctx.hole curr x0 rk0 r0).comp w', c', h', hp', hrun, ?_,
            comp_ne_hole (by simp), RChain_comp (by simp [RChain]) hwch, ?_, hrepr, ?_,
            hsign, ?_, ?_⟩
          · rw [plug_comp, ← hdec]; rfl
          · exact ReprCtx_comp hctx ⟨rfl, hilen, hk, hrk, rfl, hr, rfl, hpp⟩
          · intro x hx
            rw [spineKeys_comp] at hx
            simp only [List.mem_append, Ctx.spineKeys, List.mem_cons] at hx
            rcases hx with hx | rfl | hx
            · exact hkeys x hx
            · exact hx0
            · simp at hx
          · rw [plug_comp, ← huR]
            simp [unzipR, hx0', Ctx.plug]
          · rw [← huL]
            simp [unzipL, hx0']

lemma sizeC_pos {c : Ctx K} (hc : c ≠ Ctx.hole) : 1 ≤ c.sizeC := by
  cases c with
  | hole => exact absurd rfl hc
  | inL c i k rk r => simp [Ctx.sizeC]; omega
  | inR l i k rk c => simp [Ctx.sizeC]; omega

lemma ReprP_size_le [Inhabited K] {e : List (ZipNode K)} {t : BT K} {i p : Nat}
    (h : ReprP e t i p) (hnd : t.idxsIn.Nodup) : t.size ≤ e.length := by
  rw [← idxsIn_length]
  exact nodup_lt_length hnd (ReprP_idx_lt h)

lemma ReprCtx_innermost [Inhabited K] {e : List (ZipNode K)} {w : Ctx K}
    {h hp top tp : Nat} (hne : w ≠ Ctx.hole) (hc : ReprCtx e w h hp top tp) :
    hp ∈ w.spineC ∧ (nodeAt e hp).key ∈ w.spineKeys := by
  cases w with
  | hole => exact absurd rfl hne
  | inL c i k rk r =>
    obtain ⟨rfl, _, hk, _, _, _, _⟩ := hc
    exact ⟨by simp [Ctx.spineC], by simp [Ctx.spineKeys, hk]⟩
  | inR l i k rk c =>
    obtain ⟨rfl, _, hk, _, _, _, _⟩ := hc
    exact ⟨by simp [Ctx.spineC], by simp [Ctx.spineKeys, hk]⟩

lemma ReprP_setPar_root [Inhabited K] {e : List (ZipNode K)} {t : BT K} {i p q : Nat}
    (hlen : e.length ≤ SENTINEL) (h : ReprP e t i p) (hnd : t.idxsIn.Nodup) :
    ReprP (setPar e i q) t i q := by
  cases t with
  | leaf => exact h
  | node l j k rk r =>
    obtain ⟨rfl, hilen, hk, hrk, _, hl, hr⟩ := h
    have hself : nodeAt (setPar e i q) i = { nodeAt e i with parent := q } :=
      nodeAt_setPar_same e i q hilen
    have hnd' := List.nodup_middle.1 (by simpa [BT.idxsIn] using hnd)
    rw [List.nodup_cons] at hnd'
    have hni : i ∉ l.idxsIn ∧ i ∉ r.idxsIn := by
      constructor <;> intro hc <;> exact hnd'.1 (by simp [hc])
    refine ⟨rfl, by simpa [length_setPar] using hilen, ?_, ?_, ?_, ?_, ?_⟩
    · rw [hself]; exact hk
    · rw [hself]; exact hrk
    · rw [hself]
    · rw [hself]
      exact ReprP_congr hl fun j' hj' =>
        ⟨nodeAt_setPar_other e i j' q (fun hh => hni.1 (hh ▸ hj')),
          by simpa [length_setPar] using ReprP_idx_lt hl j' hj'⟩
    · rw [hself]
      exact ReprP_congr hr fun j' hj' =>
        ⟨nodeAt_setPar_other e i j' q (fun hh => hni.2 (hh ▸ hj')),
          by simpa [length_setPar] using ReprP_idx_lt hr j' hj'⟩

lemma ReprCtx_idx_lt [Inhabited K] {e : List (ZipNode K)} {c : Ctx K}
    {h hp top tp : Nat} (hc : ReprCtx e c h hp top tp) :
    ∀ j ∈ c.idxsC, j < e.length := by
  induction c generalizing h hp with
  | hole => simp [Ctx.idxsC]
  | inL c i k rk r ih =>
    obtain ⟨_, hilen, _, _, _, hrepr, hrec⟩ := hc
    intro j hj
    simp only [Ctx.idxsC, List.mem_cons, List.mem_append] at hj
    rcases hj with rfl | hj | hj
    · exact hilen
    · exact ReprP_idx_lt hrepr j hj
    · exact ih hrec j hj
  | inR l i k rk c ih =>
    obtain ⟨_, hilen, _, _, _, hrepr, hrec⟩ := hc
    intro j hj
    simp only [Ctx.idxsC, List.mem_cons, List.mem_append] at hj
    rcases hj with rfl | hj | hj
    · exact hilen
    · exact ReprP_idx_lt hrepr j hj
    · exact ih hrec j hj

lemma ReprCtx_set_hole_left [Inhabited K] {e : List (ZipNode K)} {c : Ctx K}
    {i : Nat} {k : K} {rk : Nat} {r : BT K} {h top tp : Nat}
    (hc : ReprCtx e (Ctx.inL c i k rk r) h i top tp)
    (hnd : (Ctx.inL c i k rk r).idxsC.Nodup) (v : Nat) :
    ReprCtx (setLf e i v) (Ctx.inL c i k rk r) v i top tp := by
  obtain ⟨_, hilen, hk, hrk, _, hrepr, hrec⟩ := hc
  have hself : nodeAt (setLf e i v) i = { nodeAt e i with left := v } :=
    nodeAt_setLf_same e i v hilen
  simp only [Ctx.idxsC, List.nodup_cons, List.mem_append] at hnd
  refine ⟨rfl, by simpa [length_setLf] using hilen, ?_, ?_, ?_, ?_, ?_⟩
  · rw [hself]; exact hk
  · rw [hself]; exact hrk
  · rw [hself]
  · rw [hself]
    exact ReprP_congr hrepr fun j' hj' =>
      ⟨nodeAt_setLf_other e i j' v (fun hh => hnd.1 (Or.inl (hh ▸ hj'))),
        by simpa [length_setLf] using ReprP_idx_lt hrepr j' hj'⟩
  · rw [hself]
    exact ReprCtx_congr hrec fun j' hj' =>
      ⟨nodeAt_setLf_other e i j' v (fun hh => hnd.1 (Or.inr (hh ▸ hj'))),
        by simpa [length_setLf] using ReprCtx_idx_lt hrec j' hj'⟩

lemma ReprCtx_set_hole_right [Inhabited K] {e : List (ZipNode K)} {c : Ctx K}
    {i : Nat} {k : K} {rk : Nat} {l : BT K} {h top tp : Nat}
    (hc : ReprCtx e (Ctx.inR l i k rk c) h i top tp)
    (hnd : (Ctx.inR l i k rk c).idxsC.Nodup) (v : Nat) :
    ReprCtx (setRt e i v) (Ctx.inR l i k rk c) v i top tp := by
  obtain ⟨_, hilen, hk, hrk, _, hrepr, hrec⟩ := hc
  have hself : nodeAt (setRt e i v) i = { nodeAt e i with right := v } :=
    nodeAt_setRt_same e i v hilen
  simp only [Ctx.idxsC, List.nodup_cons, List.mem_append] at hnd
  refine ⟨rfl, by simpa [length_setRt] using hilen, ?_, ?_, ?_, ?_, ?_⟩
  · rw [hself]; exact hk
  · rw [hself]; exact hrk
  · rw [hself]
  · rw [hself]
    exact ReprP_congr hrepr fun j' hj' =>
      ⟨nodeAt_setRt_other e i j' v (fun hh => hnd.1 (Or.inl (hh ▸ hj'))),
        by simpa [length_setRt] using ReprP_idx_lt hrepr j' hj'⟩
  · rw [hself]
    exact ReprCtx_congr hrec fun j' hj' =>
      ⟨nodeAt_setRt_other e i j' v (fun hh => hnd.1 (Or.inr (hh ▸ hj'))),
        by simpa [length_setRt] using ReprCtx_idx_lt hrec j' hj'⟩

/-- Invariant of the outer unzip loop: the arena holds the new node `idx`
with two partially built chains hanging below it, the not-yet-unzipped
remainder `c`, and the loop variables point at the chain tails. -/
def UnzipInv [Inhabited K] (lt : K → K → Bool) (key : K) (idx : Nat)
    (e : List (ZipNode K)) (prev curr : Nat) (cL cR : Ctx K) (c : BT K) : Prop :=
  e.length ≤ SENTINEL ∧ idx < e.length ∧ (nodeAt e idx).key = key ∧
  (idx :: (cL.idxsC ++ cR.idxsC ++ c.idxsIn)).Nodup ∧
  LChain cL ∧ RChain cR ∧
  (∀ x ∈ cL.spineKeys, lt x key = true) ∧ (∀ x ∈ cR.spineKeys, lt key x = true) ∧
  c.AllK (fun x => lt x key = true ∨ lt key x = true) ∧
  CountsOK e c ∧ CtxSidesOK e cL ∧ CtxSidesOK e cR ∧
  CtxCounts e cL c.size ∧ CtxCounts e cR c.size ∧
  ∃ hL hpL hR hpR,
    ReprCtx e cL hL hpL (nodeAt e idx).left idx ∧
    ReprCtx e cR hR hpR (nodeAt e idx).right idx ∧
    ((c = .leaf ∧ curr = SENTINEL ∧ hL = SENTINEL ∧ hR = SENTINEL) ∨
     (curr ≠ SENTINEL ∧
       ((RootLess lt key c ∧ hL = curr ∧ ReprP e c curr hpL ∧ prev = hpR) ∨
        (RootGreater lt key c ∧ hR = curr ∧ ReprP e c curr hpR ∧ prev = hpL))))

lemma nodup_parts {a : Nat} {l1 l2 l3 : List Nat}
    (h : (a :: (l1 ++ l2 ++ l3)).Nodup) :
    a ∉ l1 ∧ a ∉ l2 ∧ a ∉ l3 ∧
    l1.Nodup ∧ l2.Nodup ∧ l3.Nodup ∧
    (∀ x ∈ l1, x ∉ l2) ∧ (∀ x ∈ l1, x ∉ l3) ∧ (∀ x ∈ l2, x ∉ l3) := by
  simp only [List.nodup_cons, List.mem_append, List.nodup_append,
    List.disjoint_left] at h
  constructor
  · intro hc; exact h.1 (Or.inl (Or.inl hc))
  constructor
  · intro hc; exact h.1 (Or.inl (Or.inr hc))
  constructor
  · intro hc; exact h.1 (Or.inr hc)
  exact ⟨h.2.1.1, h.2.1.2.1, h.2.2.1, fun x hx => h.2.1.2.2 hx,
    fun x hx => h.2.2.2 (Or.inl hx), fun x hx => h.2.2.2 (Or.inr hx)⟩

lemma unzipLoop_step [Inhabited K] (lt : K → K → Bool) (key : K) (idx : Nat)
    (e : List (ZipNode K)) (prev curr f : Nat) (hcurr : curr ≠ SENTINEL) :
    unzipLoop lt key idx e prev curr (f + 1) =
      (let pc := if lt (nodeAt e curr).key key then runLess lt e key prev curr (e.length + 1)
                 else runGreater lt e key prev curr (e.length + 1)
       let e1 := if lt key (nodeAt e prev).key ∨ (prev = idx ∧ lt key (nodeAt e pc.1).key)
                 then setLf e prev pc.2 else setRt e prev pc.2
       let e2 := if pc.2 ≠ SENTINEL then setPar e1 pc.2 prev else e1
       unzipLoop lt key idx (fixupCount e2 prev idx (e2.length + 1)) pc.1 pc.2 f) := by
  rw [unzipLoop, if_pos hcurr]

/-- Correctness of the outer unzip loop: run to exhaustion, it turns the
remainder `c` into the two functional unzip chains grafted onto the chains
built so far, with all chain counts repaired. -/
lemma unzipLoop_spec [Inhabited K] {lt : K → K → Bool} (O : LtOrd lt) {key : K} {idx : Nat} :
    ∀ {fuel : Nat} {c : BT K} {e : List (ZipNode K)} {prev curr : Nat} {cL cR : Ctx K},
    UnzipInv lt key idx e prev curr cL cR c → c.size < fuel →
    ∃ e', unzipLoop lt key idx e prev curr fuel = e' ∧
      e'.length = e.length ∧
      (∀ j, j ≠ idx → j ∉ cL.idxsC → j ∉ cR.idxsC → j ∉ c.idxsIn → nodeAt e' j = nodeAt e j) ∧
      (nodeAt e' idx).key = (nodeAt e idx).key ∧
      (nodeAt e' idx).rank = (nodeAt e idx).rank ∧
      (nodeAt e' idx).parent = (nodeAt e idx).parent ∧
      ReprP e' (cL.plug (unzipL lt key c)) ((nodeAt e' idx).left) idx ∧
      ReprP e' (cR.plug (unzipR lt key c)) ((nodeAt e' idx).right) idx ∧
      CountsOK e' (cL.plug (unzipL lt key c)) ∧
      CountsOK e' (cR.plug (unzipR lt key c)) := by
  intro fuel
  induction fuel with
  | zero => intro c e prev curr cL cR hinv hfuel; omega
  | succ f ih =>
    intro c e prev curr cL cR hinv hfuel
    obtain ⟨hlen, hidxlen, hidxkey, hnd, hLch, hRch, hkeysL, hkeysR, hcomp, hcnt,
      hsidesL, hsidesR, hccL, hccR, hL, hpL, hR, hpR, hctxL, hctxR, hcases⟩ := hinv
    obtain ⟨hidxL, hidxR, hidxC, ndL, ndR, ndC, disjLR, disjLC, disjRC⟩ := nodup_parts hnd
    rcases hcases with ⟨rfl, rfl, rfl, rfl⟩ | ⟨hcurr, hrole⟩
    · refine ⟨e, ?_, rfl, fun j _ _ _ _ => rfl, rfl, rfl, rfl, ?_, ?_, ?_, ?_⟩
      · rw [unzipLoop, if_neg (by simp)]
      · exact ReprP_plug hctxL (by exact rfl)
      · exact ReprP_plug hctxR (by exact rfl)
      · exact (CountsOK_plug_iff cL _).2 ⟨by simpa [BT.size] using hccL, hsidesL, trivial⟩
      · exact (CountsOK_plug_iff cR _).2 ⟨by simpa [BT.size] using hccR, hsidesR, trivial⟩
    · rcases hrole with ⟨hless, hLeq, hrepr, hpreveq⟩ | ⟨hgt, hReq, hrepr, hpreveq⟩
      · -- a less-run is walked and the next remainder joins the right chain
        rw [← hpreveq] at hctxR
        rw [hLeq] at hctxL
        cases c with
        | leaf => exact absurd hless (by simp [RootLess])
        | node l0 i0 x0 rk0 r0 =>
          have hx0 : lt x0 key = true := hless
          obtain ⟨hceq, hclen, hck, hcrk, hcp, hcl, hcr⟩ := id hrepr
          have hsz : (BT.node l0 i0 x0 rk0 r0).size ≤ e.length := ReprP_size_le hrepr ndC
          obtain ⟨w, c2, h', hp', hrun, hdec, hwne, hwch, hwctx, hc2repr, hwkeys, hc2sign,
            huL, huR⟩ := runLess_spec O hlen hrepr hless hcomp
              (show (BT.node l0 i0 x0 rk0 r0).size < e.length + 1 by omega)
          have hcperm : (BT.node l0 i0 x0 rk0 r0).idxsIn.Perm (c2.idxsIn ++ w.idxsC) := by
            rw [hdec]; exact idxs_plug_perm w c2
          have hmemc2 : ∀ x ∈ c2.idxsIn, x ∈ (BT.node l0 i0 x0 rk0 r0).idxsIn :=
            fun x hx => hcperm.mem_iff.2 (by simp [hx])
          have hmemw : ∀ x ∈ w.idxsC, x ∈ (BT.node l0 i0 x0 rk0 r0).idxsIn :=
            fun x hx => hcperm.mem_iff.2 (by simp [hx])
          have hndc2w : (c2.idxsIn ++ w.idxsC).Nodup := hcperm.nodup_iff.1 ndC
          have ndc2 : c2.idxsIn.Nodup := hndc2w.of_append_left
          have hcnt' : CountsOK e (w.plug c2) := by rw [← hdec]; exact hcnt
          obtain ⟨hccw, hsidesw, hcntc2⟩ := (CountsOK_plug_iff w c2).1 hcnt'
          have hmemLW : ∀ j, j ∈ (cL.comp w).idxsC → j ∈ cL.idxsC ∨ j ∈ w.idxsC := by
            intro j hj
            rcases List.mem_append.1 ((idxsC_comp cL w).mem_iff.1 hj) with hj' | hj'
            · exact Or.inr hj'
            · exact Or.inl hj'
          have hprevmem : prev = idx ∨ (prev ∈ cR.idxsC ∧ prev ∈ cR.spineC) := by
            cases cR with
            | hole => exact Or.inl hctxR.2
            | inL c' i' k' rk' r' =>
              obtain ⟨hp1, _, _, _, _, _, _⟩ := hctxR
              exact Or.inr ⟨by rw [hp1]; simp [Ctx.idxsC], by rw [hp1]; simp [Ctx.spineC]⟩
            | inR l' i' k' rk' c' => exact absurd hRch (by simp [RChain])
          have hprevnot : ∀ j, (j ∈ cL.idxsC ∨ j ∈ w.idxsC ∨ j ∈ c2.idxsIn) → j ≠ prev := by
            intro j hj
            rcases hprevmem with rfl | ⟨hpm, _⟩
            · rcases hj with hj | hj | hj
              · exact fun hc => hidxL (hc ▸ hj)
              · exact fun hc => hidxC (hc ▸ hmemw j hj)
              · exact fun hc => hidxC (hc ▸ hmemc2 j hj)
            · rcases hj with hj | hj | hj
              · exact fun hc => disjLR j hj (hc ▸ hpm)
              · exact fun hc => disjRC prev hpm (hc ▸ hmemw j hj)
              · exact fun hc => disjRC prev hpm (hc ▸ hmemc2 j hj)
          have hcondpc : (if lt (nodeAt e curr).key key then
              runLess lt e key prev curr (e.length + 1)
              else runGreater lt e key prev curr (e.length + 1)) = (hp', h') := by
            rw [if_pos (show lt (nodeAt e curr).key key = true by rw [hck]; exact hx0)]
            exact hrun
          -- the hole write
          obtain ⟨e1, he1, he1len, he1frame, he1k, he1l, he1rk, he1p, he1cnt, he1ctxR⟩ :
            ∃ e1, (if lt key (nodeAt e prev).key ∨ (prev = idx ∧ lt key (nodeAt e hp').key)
                then setLf e prev h' else setRt e prev h') = e1 ∧
              e1.length = e.length ∧
              (∀ j, j ≠ prev → nodeAt e1 j = nodeAt e j) ∧
              (nodeAt e1 idx).key = (nodeAt e idx).key ∧
              (nodeAt e1 idx).left = (nodeAt e idx).left ∧
              (nodeAt e1 idx).rank = (nodeAt e idx).rank ∧
              (nodeAt e1 idx).parent = (nodeAt e idx).parent ∧
              (∀ j, (nodeAt e1 j).count = (nodeAt e j).count) ∧
              ReprCtx e1 cR h' prev ((nodeAt e1 idx).right) idx := by
            cases cR with
            | inR l' i' k' rk' c' => exact absurd hRch (by simp [RChain])
            | hole =>
              obtain ⟨hReq2, hpi⟩ := hctxR
              have hc1 : ¬ (lt key (nodeAt e prev).key = true) := by
                rw [hpi, hidxkey, O.irrefl]; simp
              have hc2' : ¬ (prev = idx ∧ lt key (nodeAt e hp').key = true) := by
                rintro ⟨_, hck'⟩
                obtain ⟨_, hkm⟩ := ReprCtx_innermost hwne hwctx
                rw [O.asymm (hwkeys _ hkm)] at hck'
                exact Bool.false_ne_true hck'
              rw [if_neg (not_or.2 ⟨hc1, hc2'⟩)]
              have hself : nodeAt (setRt e prev h') prev = { nodeAt e prev with right := h' } :=
                nodeAt_setRt_same e prev h' (by rw [hpi]; exact hidxlen)
              have hidxprev : nodeAt (setRt e prev h') idx = { nodeAt e idx with right := h' } := by
                rw [← hpi]; exact hself
              refine ⟨setRt e prev h', rfl, length_setRt e prev h',
                fun j hj => nodeAt_setRt_other e prev j h' (fun hc => hj hc.symm),
                by rw [hidxprev], by rw [hidxprev], by rw [hidxprev], by rw [hidxprev], ?_, ?_⟩
              · intro j
                by_cases hj : prev = j
                · subst hj; rw [hself]
                · rw [nodeAt_setRt_other e prev j h' hj]
              · exact ⟨by rw [hidxprev], hpi⟩
            | inL c' i' k' rk' r' =>
              have hp1 : prev = i' := hctxR.1
              subst hp1
              obtain ⟨_, hilen', hk1, hrk1, hleft1, hrepr1, hrec1⟩ := id hctxR
              have hidxne : idx ≠ prev := fun hc => hidxR (by rw [hc]; simp [Ctx.idxsC])
              have hcnd : lt key (nodeAt e prev).key = true := by
                rw [hk1]
                exact hkeysR k' (by simp [Ctx.spineKeys])
              rw [if_pos (Or.inl hcnd)]
              have hCtx1 := ReprCtx_set_hole_left hctxR ndR h'
              have hidxsame : nodeAt (setLf e prev h') idx = nodeAt e idx :=
                nodeAt_setLf_other e prev idx h' (fun hc => hidxne hc.symm)
              refine ⟨setLf e prev h', rfl, length_setLf e prev h',
                fun j hj => nodeAt_setLf_other e prev j h' (fun hc => hj hc.symm),
                by rw [hidxsame], by rw [hidxsame], by rw [hidxsame], by rw [hidxsame], ?_, ?_⟩
              · intro j
                by_cases hj : prev = j
                · subst hj
                  rw [nodeAt_setLf_same e prev h' hilen']
                · rw [nodeAt_setLf_other e prev j h' hj]
              · rw [hidxsame]
                exact hCtx1
          have hctxLW0 : ReprCtx e (cL.comp w) h' hp' ((nodeAt e idx).left) idx :=
            ReprCtx_comp hwctx hctxL
          have he1lenS : e1.length ≤ SENTINEL := by rw [he1len]; exact hlen
          -- the parent write
          obtain ⟨e2, he2, he2len, he2frame, he2k, he2l, he2rk, he2p, he2cnt, he2ctxR,
            he2repr2, he2ctxLW⟩ :
            ∃ e2, (if h' ≠ SENTINEL then setPar e1 h' prev else e1) = e2 ∧
              e2.length = e.length ∧
              (∀ j, j ≠ prev → j ∉ c2.idxsIn → nodeAt e2 j = nodeAt e j) ∧
              (nodeAt e2 idx).key = (nodeAt e idx).key ∧
              (nodeAt e2 idx).left = (nodeAt e idx).left ∧
              (nodeAt e2 idx).rank = (nodeAt e idx).rank ∧
              (nodeAt e2 idx).parent = (nodeAt e idx).parent ∧
              (∀ j, (nodeAt e2 j).count = (nodeAt e j).count) ∧
              ReprCtx e2 cR h' prev ((nodeAt e2 idx).right) idx ∧
              ReprP e2 c2 h' prev ∧
              ReprCtx e2 (cL.comp w) h' hp' ((nodeAt e2 idx).left) idx := by
            have htransLW : ReprCtx e1 (cL.comp w) h' hp' ((nodeAt e idx).left) idx := by
              refine ReprCtx_congr hctxLW0 fun j hj => ⟨?_, ?_⟩
              · exact he1frame j (hprevnot j (by
                  rcases hmemLW j hj with hj' | hj'
                  · exact Or.inl hj'
                  · exact Or.inr (Or.inl hj')))
              · rw [he1len]
                exact ReprCtx_idx_lt hctxLW0 j hj
            rcases hc2sign with hc2leaf | hgt2
            · subst hc2leaf
              have hS : h' = SENTINEL := hc2repr
              rw [if_neg (by simp [hS])]
              refine ⟨e1, rfl, he1len, fun j hj _ => he1frame j hj, he1k, he1l, he1rk, he1p,
                he1cnt, he1ctxR, hS, by rw [he1l]; exact htransLW⟩
            · have hmemh' : h' ∈ c2.idxsIn := by
                cases c2 with
                | leaf => exact absurd hgt2 (by simp [RootGreater])
                | node cl2 ci2 cx2 crk2 cr2 =>
                  obtain ⟨heq2, _, _, _, _, _, _⟩ := hc2repr
                  simp [BT.idxsIn, heq2]
              have hne' : h' ≠ SENTINEL := by
                cases c2 with
                | leaf => exact absurd hgt2 (by simp [RootGreater])
                | node cl2 ci2 cx2 crk2 cr2 =>
                  obtain ⟨_, hlt2, _, _, _, _, _⟩ := hc2repr
                  omega
              rw [if_pos hne']
              have htrans2 : ReprP e1 c2 h' hp' := by
                refine ReprP_congr hc2repr fun j hj => ⟨?_, ?_⟩
                · exact he1frame j (hprevnot j (Or.inr (Or.inr hj)))
                · rw [he1len]
                  exact ReprP_idx_lt hc2repr j hj
              have hreprP2 : ReprP (setPar e1 h' prev) c2 h' prev :=
                ReprP_setPar_root he1lenS htrans2 ndc2
              have hidxnoth : idx ≠ h' := fun hc => hidxC (hc ▸ hmemc2 h' hmemh')
              have hidxsame2 : nodeAt (setPar e1 h' prev) idx = nodeAt e1 idx :=
                nodeAt_setPar_other e1 h' idx prev (fun hc => hidxnoth hc.symm)
              refine ⟨setPar e1 h' prev, rfl, by rw [length_setPar, he1len], ?_,
                by rw [hidxsame2]; exact he1k, by rw [hidxsame2]; exact he1l,
                by rw [hidxsame2]; exact he1rk, by rw [hidxsame2]; exact he1p, ?_, ?_,
                hreprP2, ?_⟩
              · intro j hj hjc2
                rw [nodeAt_setPar_other e1 h' j prev (fun hc => hjc2 (hc ▸ hmemh')),
                  he1frame j hj]
              · intro j
                by_cases hj : h' = j
                · subst hj
                  rw [nodeAt_setPar_same e1 h' prev (by
                    rw [he1len]
                    exact ReprP_idx_lt hc2repr h' hmemh')]
                  exact he1cnt h'
                · rw [nodeAt_setPar_other e1 h' j prev hj]
                  exact he1cnt j
              · rw [hidxsame2]
                refine ReprCtx_congr he1ctxR fun j hj => ⟨?_, ?_⟩
                · exact nodeAt_setPar_other e1 h' j prev
                    (fun hc => disjRC j hj (hc.symm ▸ hmemc2 h' hmemh'))
                · rw [length_setPar, he1len]
                  rw [← he1len]
                  exact ReprCtx_idx_lt he1ctxR j hj
              · rw [hidxsame2, he1l]
                refine ReprCtx_congr htransLW fun j hj => ⟨?_, ?_⟩
                · refine nodeAt_setPar_other e1 h' j prev (fun hc => ?_)
                  rcases hmemLW j hj with hj' | hj'
                  · exact disjLC j hj' (hc.symm ▸ hmemc2 h' hmemh')
                  · exact (List.nodup_append.1 hndc2w).2.2 hmemh' (hc ▸ hj')
                · rw [length_setPar, he1len]
                  exact ReprCtx_idx_lt hctxLW0 j hj
          -- count repair along the stale chain
          have hndRc2 : (cR.idxsC ++ c2.idxsIn).Nodup :=
            List.nodup_append.2 ⟨ndR, ndc2, fun a ha ha2 => disjRC a ha (hmemc2 a ha2)⟩
          have hcntc2e2 : CountsOK e2 c2 :=
            CountsOK_congr hcntc2 fun j _ => he2cnt j
          have hsidesRe2 : CtxSidesOK e2 cR :=
            CtxSidesOK_congr hsidesR fun j _ => he2cnt j
          have he2lenS : e2.length ≤ SENTINEL := by rw [he2len]; exact hlen
          have hdepthR : cR.depth < e2.length + 1 := by
            rw [depth_eq_spine_length]
            have := nodup_lt_length (List.Nodup.sublist (spineC_sublist_idxsC cR) ndR)
              (ReprCtx_spine_lt he2ctxR)
            omega
          obtain ⟨e3, he3run, hsh3, hframe3, hctxcnt3, hsides3, hcnt3⟩ :=
            fixupCount_spine he2lenS he2ctxR he2repr2 hcntc2e2 hsidesRe2 hndRc2
              (fun j hj hc => hidxR (hc ▸ spineC_subset_idxsC cR j hj)) hdepthR
          have he3len : e3.length = e.length := by rw [← hsh3.1]; exact he2len
          have hidx3 : nodeAt e3 idx = nodeAt e2 idx :=
            hframe3 idx (fun hmem => hidxR (spineC_subset_idxsC cR idx hmem))
          have hcnt23 : ∀ j, j ∉ cR.spineC → (nodeAt e3 j).count = (nodeAt e j).count :=
            fun j h3 => by rw [hframe3 j h3]; exact he2cnt j
          have hfr23 : ∀ j, j ≠ prev → j ∉ c2.idxsIn → j ∉ cR.spineC →
              nodeAt e3 j = nodeAt e j :=
            fun j h1 h2 h3 => by rw [hframe3 j h3]; exact he2frame j h1 h2
          have hsizes : (BT.node l0 i0 x0 rk0 r0).size = c2.size + w.sizeC := by
            rw [hdec, size_plug]
          have hinv3 : UnzipInv lt key idx e3 hp' h' (cL.comp w) cR c2 := by
            refine ⟨by rw [he3len]; exact hlen, by rw [he3len]; exact hidxlen,
              by rw [hidx3, he2k]; exact hidxkey, ?_, LChain_comp hLch hwch, hRch, ?_,
              hkeysR, ?_, hcnt3, ?_, hsides3, ?_, hctxcnt3, h', hp', h', prev, ?_, ?_, ?_⟩
            · refine nodup_shuffle hnd fun a => ?_
              have h1 := hcperm.count_eq a
              have h2 := (idxsC_comp cL w).count_eq a
              simp only [List.count_append, List.count_cons] at h1 h2 ⊢
              omega
            · intro x hx
              rw [spineKeys_comp] at hx
              rcases List.mem_append.1 hx with hx | hx
              · exact hwkeys x hx
              · exact hkeysL x hx
            · rw [AllK_iff_forall]
              intro x hx
              have hxmem : x ∈ (BT.node l0 i0 x0 rk0 r0).keysIn := by
                rw [hdec]
                exact (keys_plug_perm w c2).mem_iff.2 (by simp [hx])
              exact (AllK_iff_forall _ _).1 hcomp x hxmem
            · refine (CtxSidesOK_comp cL w).2 ⟨?_, ?_⟩
              · refine CtxSidesOK_congr hsidesw fun j hj => hcnt23 j (fun hc => ?_)
                exact disjRC j (spineC_subset_idxsC cR j hc) (hmemw j hj)
              · refine CtxSidesOK_congr hsidesL fun j hj => hcnt23 j (fun hc => ?_)
                exact disjLR j hj (spineC_subset_idxsC cR j hc)
            · refine (CtxCounts_comp cL w c2.size).2 ⟨?_, ?_⟩
              · refine CtxCounts_congr hccw fun j hj => hcnt23 j (fun hc => ?_)
                exact disjRC j (spineC_subset_idxsC cR j hc)
                  (hmemw j (spineC_subset_idxsC w j hj))
              · refine CtxCounts_cast
                  (CtxCounts_congr hccL fun j hj => hcnt23 j (fun hc => ?_)) hsizes
                exact disjLR j (spineC_subset_idxsC cL j hj) (spineC_subset_idxsC cR j hc)
            · have hx := ReprCtx_of_EqShape hsh3 he2ctxLW
              rw [← hidx3] at hx
              exact hx
            · have hx := ReprCtx_of_EqShape hsh3 he2ctxR
              rw [← hidx3] at hx
              exact hx
            · rcases hc2sign with hc2leaf | hgt2
              · subst hc2leaf
                exact Or.inl ⟨rfl, hc2repr, hc2repr, hc2repr⟩
              · refine Or.inr ⟨?_, Or.inr ⟨hgt2, rfl, ReprP_of_EqShape hsh3 he2repr2, rfl⟩⟩
                cases c2 with
                | leaf => exact absurd hgt2 (by simp [RootGreater])
                | node cl2 ci2 cx2 crk2 cr2 =>
                  obtain ⟨_, hlt2, _, _, _, _, _⟩ := he2repr2
                  rw [he2len] at hlt2
                  omega
          obtain ⟨e4, hrun4, hlen4, hframe4, hk4, hrk4, hp4, hReprL4, hReprR4, hCntL4, hCntR4⟩ :=
            ih hinv3 (by have := sizeC_pos hwne; omega)
          have hloop : unzipLoop lt key idx e prev curr (f + 1) = e4 := by
            rw [unzipLoop_step lt key idx e prev curr f hcurr]
            simp only [hcondpc]
            rw [he1, he2, he3run]
            exact hrun4
          have hplugL : cL.plug (unzipL lt key (BT.node l0 i0 x0 rk0 r0)) =
              (cL.comp w).plug (unzipL lt key c2) := by
            rw [huL, plug_comp]
          have hplugR : cR.plug (unzipR lt key (BT.node l0 i0 x0 rk0 r0)) =
              cR.plug (unzipR lt key c2) := by
            rw [huR]
          refine ⟨e4, hloop, by rw [hlen4, he3len], ?_, ?_, ?_, ?_, ?_, ?_, ?_, ?_⟩
          · intro j hjidx hjL hjR hjC
            have hjc2 : j ∉ c2.idxsIn := fun hc => hjC (hmemc2 j hc)
            have hjw : j ∉ w.idxsC := fun hc => hjC (hmemw j hc)
            have hjLW : j ∉ (cL.comp w).idxsC := fun hc => by
              rcases hmemLW j hc with hj' | hj'
              · exact hjL hj'
              · exact hjw hj'
            have hjprev : j ≠ prev := by
              rcases hprevmem with rfl | ⟨hpm, _⟩
              · exact hjidx
              · exact fun hc => hjR (hc ▸ hpm)
            rw [hframe4 j hjidx hjLW hjR hjc2]
            exact hfr23 j hjprev hjc2 (fun hc => hjR (spineC_subset_idxsC cR j hc))
          · rw [hk4, hidx3]; exact he2k
          · rw [hrk4, hidx3]; exact he2rk
          · rw [hp4, hidx3]; exact he2p
          · rw [hplugL]; exact hReprL4
          · rw [hplugR]; exact hReprR4
          · rw [hplugL]; exact hCntL4
          · rw [hplugR]; exact hCntR4
      · -- a greater-run is walked and the next remainder joins the left chain
        rw [← hpreveq] at hctxL
        rw [hReq] at hctxR
        cases c with
        | leaf => exact absurd hgt (by simp [RootGreater])
        | node l0 i0 x0 rk0 r0 =>
          have hx0 : lt key x0 = true := hgt
          obtain ⟨hceq, hclen, hck, hcrk, hcp, hcl, hcr⟩ := id hrepr
          have hsz : (BT.node l0 i0 x0 rk0 r0).size ≤ e.length := ReprP_size_le hrepr ndC
          obtain ⟨w, c2, h', hp', hrun, hdec, hwne, hwch, hwctx, hc2repr, hwkeys, hc2sign,
            huR, huL⟩ := runGreater_spec O hlen hrepr hgt hcomp
              (show (BT.node l0 i0 x0 rk0 r0).size < e.length + 1 by omega)
          have hcperm : (BT.node l0 i0 x0 rk0 r0).idxsIn.Perm (c2.idxsIn ++ w.idxsC) := by
            rw [hdec]; exact idxs_plug_perm w c2
          have hmemc2 : ∀ x ∈ c2.idxsIn, x ∈ (BT.node l0 i0 x0 rk0 r0).idxsIn :=
            fun x hx => hcperm.mem_iff.2 (by simp [hx])
          have hmemw : ∀ x ∈ w.idxsC, x ∈ (BT.node l0 i0 x0 rk0 r0).idxsIn :=
            fun x hx => hcperm.mem_iff.2 (by simp [hx])
          have hndc2w : (c2.idxsIn ++ w.idxsC).Nodup := hcperm.nodup_iff.1 ndC
          have ndc2 : c2.idxsIn.Nodup := hndc2w.of_append_left
          have hcnt' : CountsOK e (w.plug c2) := by rw [← hdec]; exact hcnt
          obtain ⟨hccw, hsidesw, hcntc2⟩ := (CountsOK_plug_iff w c2).1 hcnt'
          have hmemRW : ∀ j, j ∈ (cR.comp w).idxsC → j ∈ cR.idxsC ∨ j ∈ w.idxsC := by
            intro j hj
            rcases List.mem_append.1 ((idxsC_comp cR w).mem_iff.1 hj) with hj' | hj'
            · exact Or.inr hj'
            · exact Or.inl hj'
          have hprevmem : prev = idx ∨ (prev ∈ cL.idxsC ∧ prev ∈ cL.spineC) := by
            cases cL with
            | hole => exact Or.inl hctxL.2
            | inR l' i' k' rk' c' =>
              obtain ⟨hp1, _, _, _, _, _, _⟩ := hctxL
              exact Or.inr ⟨by rw [hp1]; simp [Ctx.idxsC], by rw [hp1]; simp [Ctx.spineC]⟩
            | inL c' i' k' rk' r' => exact absurd hLch (by simp [LChain])
          have hprevnot : ∀ j, (j ∈ cR.idxsC ∨ j ∈ w.idxsC ∨ j ∈ c2.idxsIn) → j ≠ prev := by
            intro j hj
            rcases hprevmem with rfl | ⟨hpm, _⟩
            · rcases hj with hj | hj | hj
              · exact fun hc => hidxR (hc ▸ hj)
              · exact fun hc => hidxC (hc ▸ hmemw j hj)
              · exact fun hc => hidxC (hc ▸ hmemc2 j hj)
            · rcases hj with hj | hj | hj
              · exact fun hc => disjLR prev hpm (hc ▸ hj)
              · exact fun hc => disjLC prev hpm (hc ▸ hmemw j hj)
              · exact fun hc => disjLC prev hpm (hc ▸ hmemc2 j hj)
          have hcondpc : (if lt (nodeAt e curr).key key then
              runLess lt e key prev curr (e.length + 1)
              else runGreater lt e key prev curr (e.length + 1)) = (hp', h') := by
            rw [if_neg (by rw [hck, O.asymm hx0]; simp)]
            exact hrun
          -- the hole write
          obtain ⟨e1, he1, he1len, he1frame, he1k, he1r, he1rk, he1p, he1cnt, he1ctxL⟩ :
            ∃ e1, (if lt key (nodeAt e prev).key ∨ (prev = idx ∧ lt key (nodeAt e hp').key)
                then setLf e prev h' else setRt e prev h') = e1 ∧
              e1.length = e.length ∧
              (∀ j, j ≠ prev → nodeAt e1 j = nodeAt e j) ∧
              (nodeAt e1 idx).key = (nodeAt e idx).key ∧
              (nodeAt e1 idx).right = (nodeAt e idx).right ∧
              (nodeAt e1 idx).rank = (nodeAt e idx).rank ∧
              (nodeAt e1 idx).parent = (nodeAt e idx).parent ∧
              (∀ j, (nodeAt e1 j).count = (nodeAt e j).count) ∧
              ReprCtx e1 cL h' prev ((nodeAt e1 idx).left) idx := by
            cases cL with
            | inL c' i' k' rk' r' => exact absurd hLch (by simp [LChain])
            | hole =>
              obtain ⟨hLeq2, hpi⟩ := hctxL
              obtain ⟨_, hkm⟩ := ReprCtx_innermost hwne hwctx
              rw [if_pos (Or.inr ⟨hpi, hwkeys _ hkm⟩)]
              have hself : nodeAt (setLf e prev h') prev = { nodeAt e prev with left := h' } :=
                nodeAt_setLf_same e prev h' (by rw [hpi]; exact hidxlen)
              have hidxprev : nodeAt (setLf e prev h') idx = { nodeAt e idx with left := h' } := by
                rw [← hpi]; exact hself
              refine ⟨setLf e prev h', rfl, length_setLf e prev h',
                fun j hj => nodeAt_setLf_other e prev j h' (fun hc => hj hc.symm),
                by rw [hidxprev], by rw [hidxprev], by rw [hidxprev], by rw [hidxprev], ?_, ?_⟩
              · intro j
                by_cases hj : prev = j
                · subst hj; rw [hself]
                · rw [nodeAt_setLf_other e prev j h' hj]
              · exact ⟨by rw [hidxprev], hpi⟩
            | inR l' i' k' rk' c' =>
              have hp1 : prev = i' := hctxL.1
              subst hp1
              obtain ⟨_, hilen', hk1, hrk1, hright1, hrepr1, hrec1⟩ := id hctxL
              have hidxne : idx ≠ prev := fun hc => hidxL (by rw [hc]; simp [Ctx.idxsC])
              have hc1 : ¬ (lt key (nodeAt e prev).key = true) := by
                rw [hk1, O.asymm (hkeysL k' (by simp [Ctx.spineKeys]))]
                simp
              have hc2' : ¬ (prev = idx ∧ lt key (nodeAt e hp').key = true) :=
                fun hand => hidxne hand.1.symm
              rw [if_neg (not_or.2 ⟨hc1, hc2'⟩)]
              have hCtx1 := ReprCtx_set_hole_right hctxL ndL h'
              have hidxsame : nodeAt (setRt e prev h') idx = nodeAt e idx :=
                nodeAt_setRt_other e prev idx h' (fun hc => hidxne hc.symm)
              refine ⟨setRt e prev h', rfl, length_setRt e prev h',
                fun j hj => nodeAt_setRt_other e prev j h' (fun hc => hj hc.symm),
                by rw [hidxsame], by rw [hidxsame], by rw [hidxsame], by rw [hidxsame], ?_, ?_⟩
              · intro j
                by_cases hj : prev = j
                · subst hj
                  rw [nodeAt_setRt_same e prev h' hilen']
                · rw [nodeAt_setRt_other e prev j h' hj]
              · rw [hidxsame]
                exact hCtx1
          have hctxRW0 : ReprCtx e (cR.comp w) h' hp' ((nodeAt e idx).right) idx :=
            ReprCtx_comp hwctx hctxR
          have he1lenS : e1.length ≤ SENTINEL := by rw [he1len]; exact hlen
          -- the parent write
          obtain ⟨e2, he2, he2len, he2frame, he2k, he2r, he2rk, he2p, he2cnt, he2ctxL,
            he2repr2, he2ctxRW⟩ :
            ∃ e2, (if h' ≠ SENTINEL then setPar e1 h' prev else e1) = e2 ∧
              e2.length = e.length ∧
              (∀ j, j ≠ prev → j ∉ c2.idxsIn → nodeAt e2 j = nodeAt e j) ∧
              (nodeAt e2 idx).key = (nodeAt e idx).key ∧
              (nodeAt e2 idx).right = (nodeAt e idx).right ∧
              (nodeAt e2 idx).rank = (nodeAt e idx).rank ∧
              (nodeAt e2 idx).parent = (nodeAt e idx).parent ∧
              (∀ j, (nodeAt e2 j).count = (nodeAt e j).count) ∧
              ReprCtx e2 cL h' prev ((nodeAt e2 idx).left) idx ∧
              ReprP e2 c2 h' prev ∧
              ReprCtx e2 (cR.comp w) h' hp' ((nodeAt e2 idx).right) idx := by
            have htransRW : ReprCtx e1 (cR.comp w) h' hp' ((nodeAt e idx).right) idx := by
              refine ReprCtx_congr hctxRW0 fun j hj => ⟨?_, ?_⟩
              · exact he1frame j (hprevnot j (by
                  rcases hmemRW j hj with hj' | hj'
                  · exact Or.inl hj'
                  · exact Or.inr (Or.inl hj')))
              · rw [he1len]
                exact ReprCtx_idx_lt hctxRW0 j hj
            rcases hc2sign with hc2leaf | hless2
            · subst hc2leaf
              have hS : h' = SENTINEL := hc2repr
              rw [if_neg (by simp [hS])]
              refine ⟨e1, rfl, he1len, fun j hj _ => he1frame j hj, he1k, he1r, he1rk, he1p,
                he1cnt, he1ctxL, hS, by rw [he1r]; exact htransRW⟩
            · have hmemh' : h' ∈ c2.idxsIn := by
                cases c2 with
                | leaf => exact absurd hless2 (by simp [RootLess])
                | node cl2 ci2 cx2 crk2 cr2 =>
                  obtain ⟨heq2, _, _, _, _, _, _⟩ := hc2repr
                  simp [BT.idxsIn, heq2]
              have hne' : h' ≠ SENTINEL := by
                cases c2 with
                | leaf => exact absurd hless2 (by simp [RootLess])
                | node cl2 ci2 cx2 crk2 cr2 =>
                  obtain ⟨_, hlt2, _, _, _, _, _⟩ := hc2repr
                  omega
              rw [if_pos hne']
              have htrans2 : ReprP e1 c2 h' hp' := by
                refine ReprP_congr hc2repr fun j hj => ⟨?_, ?_⟩
                · exact he1frame j (hprevnot j (Or.inr (Or.inr hj)))
                · rw [he1len]
                  exact ReprP_idx_lt hc2repr j hj
              have hreprP2 : ReprP (setPar e1 h' prev) c2 h' prev :=
                ReprP_setPar_root he1lenS htrans2 ndc2
              have hidxnoth : idx ≠ h' := fun hc => hidxC (hc ▸ hmemc2 h' hmemh')
              have hidxsame2 : nodeAt (setPar e1 h' prev) idx = nodeAt e1 idx :=
                nodeAt_setPar_other e1 h' idx prev (fun hc => hidxnoth hc.symm)
              refine ⟨setPar e1 h' prev, rfl, by rw [length_setPar, he1len], ?_,
                by rw [hidxsame2]; exact he1k, by rw [hidxsame2]; exact he1r,
                by rw [hidxsame2]; exact he1rk, by rw [hidxsame2]; exact he1p, ?_, ?_,
                hreprP2, ?_⟩
              · intro j hj hjc2
                rw [nodeAt_setPar_other e1 h' j prev (fun hc => hjc2 (hc ▸ hmemh')),
                  he1frame j hj]
              · intro j
                by_cases hj : h' = j
                · subst hj
                  rw [nodeAt_setPar_same e1 h' prev (by
                    rw [he1len]
                    exact ReprP_idx_lt hc2repr h' hmemh')]
                  exact he1cnt h'
                · rw [nodeAt_setPar_other e1 h' j prev hj]
                  exact he1cnt j
              · rw [hidxsame2]
                refine ReprCtx_congr he1ctxL fun j hj => ⟨?_, ?_⟩
                · exact nodeAt_setPar_other e1 h' j prev
                    (fun hc => disjLC j hj (hc.symm ▸ hmemc2 h' hmemh'))
                · rw [length_setPar, he1len]
                  rw [← he1len]
                  exact ReprCtx_idx_lt he1ctxL j hj
              · rw [hidxsame2, he1r]
                refine ReprCtx_congr htransRW fun j hj => ⟨?_, ?_⟩
                · refine nodeAt_setPar_other e1 h' j prev (fun hc => ?_)
                  rcases hmemRW j hj with hj' | hj'
                  · exact disjRC j hj' (hc.symm ▸ hmemc2 h' hmemh')
                  · exact (List.nodup_append.1 hndc2w).2.2 hmemh' (hc ▸ hj')
                · rw [length_setPar, he1len]
                  exact ReprCtx_idx_lt hctxRW0 j hj
          -- count repair along the stale chain
          have hndLc2 : (cL.idxsC ++ c2.idxsIn).Nodup :=
            List.nodup_append.2 ⟨ndL, ndc2, fun a ha ha2 => disjLC a ha (hmemc2 a ha2)⟩
          have hcntc2e2 : CountsOK e2 c2 :=
            CountsOK_congr hcntc2 fun j _ => he2cnt j
          have hsidesLe2 : CtxSidesOK e2 cL :=
            CtxSidesOK_congr hsidesL fun j _ => he2cnt j
          have he2lenS : e2.length ≤ SENTINEL := by rw [he2len]; exact hlen
          have hdepthL : cL.depth < e2.length + 1 := by
            rw [depth_eq_spine_length]
            have := nodup_lt_length (List.Nodup.sublist (spineC_sublist_idxsC cL) ndL)
              (ReprCtx_spine_lt he2ctxL)
            omega
          obtain ⟨e3, he3run, hsh3, hframe3, hctxcnt3, hsides3, hcnt3⟩ :=
            fixupCount_spine he2lenS he2ctxL he2repr2 hcntc2e2 hsidesLe2 hndLc2
              (fun j hj hc => hidxL (hc ▸ spineC_subset_idxsC cL j hj)) hdepthL
          have he3len : e3.length = e.length := by rw [← hsh3.1]; exact he2len
          have hidx3 : nodeAt e3 idx = nodeAt e2 idx :=
            hframe3 idx (fun hmem => hidxL (spineC_subset_idxsC cL idx hmem))
          have hcnt23 : ∀ j, j ∉ cL.spineC → (nodeAt e3 j).count = (nodeAt e j).count :=
            fun j h3 => by rw [hframe3 j h3]; exact he2cnt j
          have hfr23 : ∀ j, j ≠ prev → j ∉ c2.idxsIn → j ∉ cL.spineC →
              nodeAt e3 j = nodeAt e j :=
            fun j h1 h2 h3 => by rw [hframe3 j h3]; exact he2frame j h1 h2
          have hsizes : (BT.node l0 i0 x0 rk0 r0).size = c2.size + w.sizeC := by
            rw [hdec, size_plug]
          have hinv3 : UnzipInv lt key idx e3 hp' h' cL (cR.comp w) c2 := by
            refine ⟨by rw [he3len]; exact hlen, by rw [he3len]; exact hidxlen,
              by rw [hidx3, he2k]; exact hidxkey, ?_, hLch, RChain_comp hRch hwch, hkeysL,
              ?_, ?_, hcnt3, hsides3, ?_, hctxcnt3, ?_, h', prev, h', hp', ?_, ?_, ?_⟩
            · refine nodup_shuffle hnd fun a => ?_
              have h1 := hcperm.count_eq a
              have h2 := (idxsC_comp cR w).count_eq a
              simp only [List.count_append, List.count_cons] at h1 h2 ⊢
              omega
            · intro x hx
              rw [spineKeys_comp] at hx
              rcases List.mem_append.1 hx with hx | hx
              · exact hwkeys x hx
              · exact hkeysR x hx
            · rw [AllK_iff_forall]
              intro x hx
              have hxmem : x ∈ (BT.node l0 i0 x0 rk0 r0).keysIn := by
                rw [hdec]
                exact (keys_plug_perm w c2).mem_iff.2 (by simp [hx])
              exact (AllK_iff_forall _ _).1 hcomp x hxmem
            · refine (CtxSidesOK_comp cR w).2 ⟨?_, ?_⟩
              · refine CtxSidesOK_congr hsidesw fun j hj => hcnt23 j (fun hc => ?_)
                exact disjLC j (spineC_subset_idxsC cL j hc) (hmemw j hj)
              · refine CtxSidesOK_congr hsidesR fun j hj => hcnt23 j (fun hc => ?_)
                exact disjLR j (spineC_subset_idxsC cL j hc) hj
            · refine (CtxCounts_comp cR w c2.size).2 ⟨?_, ?_⟩
              · refine CtxCounts_congr hccw fun j hj => hcnt23 j (fun hc => ?_)
                exact disjLC j (spineC_subset_idxsC cL j hc)
                  (hmemw j (spineC_subset_idxsC w j hj))
              · refine CtxCounts_cast
                  (CtxCounts_congr hccR fun j hj => hcnt23 j (fun hc => ?_)) hsizes
                exact disjLR j (spineC_subset_idxsC cL j hc) (spineC_subset_idxsC cR j hj)
            · have hx := ReprCtx_of_EqShape hsh3 he2ctxL
              rw [← hidx3] at hx
              exact hx
            · have hx := ReprCtx_of_EqShape hsh3 he2ctxRW
              rw [← hidx3] at hx
              exact hx
            · rcases hc2sign with hc2leaf | hless2
              · subst hc2leaf
                exact Or.inl ⟨rfl, hc2repr, hc2repr, hc2repr⟩
              · refine Or.inr ⟨?_, Or.inl ⟨hless2, rfl, ReprP_of_EqShape hsh3 he2repr2, rfl⟩⟩
                cases c2 with
                | leaf => exact absurd hless2 (by simp [RootLess])
                | node cl2 ci2 cx2 crk2 cr2 =>
                  obtain ⟨_, hlt2, _, _, _, _, _⟩ := he2repr2
                  rw [he2len] at hlt2
                  omega
          obtain ⟨e4, hrun4, hlen4, hframe4, hk4, hrk4, hp4, hReprL4, hReprR4, hCntL4, hCntR4⟩ :=
            ih hinv3 (by have := sizeC_pos hwne; omega)
          have hloop : unzipLoop lt key idx e prev curr (f + 1) = e4 := by
            rw [unzipLoop_step lt key idx e prev curr f hcurr]
            simp only [hcondpc]
            rw [he1, he2, he3run]
            exact hrun4
          have hplugL : cL.plug (unzipL lt key (BT.node l0 i0 x0 rk0 r0)) =
              cL.plug (unzipL lt key c2) := by
            rw [huL]
          have hplugR : cR.plug (unzipR lt key (BT.node l0 i0 x0 rk0 r0)) =
              (cR.comp w).plug (unzipR lt key c2) := by
            rw [huR, plug_comp]
          refine ⟨e4, hloop, by rw [hlen4, he3len], ?_, ?_, ?_, ?_, ?_, ?_, ?_, ?_⟩
          · intro j hjidx hjL hjR hjC
            have hjc2 : j ∉ c2.idxsIn := fun hc => hjC (hmemc2 j hc)
            have hjw : j ∉ w.idxsC := fun hc => hjC (hmemw j hc)
            have hjRW : j ∉ (cR.comp w).idxsC := fun hc => by
              rcases hmemRW j hc with hj' | hj'
              · exact hjR hj'
              · exact hjw hj'
            have hjprev : j ≠ prev := by
              rcases hprevmem with rfl | ⟨hpm, _⟩
              · exact hjidx
              · exact fun hc => hjL (hc ▸ hpm)
            rw [hframe4 j hjidx hjL hjRW hjc2]
            exact hfr23 j hjprev hjc2 (fun hc => hjL (spineC_subset_idxsC cL j hc))
          · rw [hk4, hidx3]; exact he2k
          · rw [hrk4, hidx3]; exact he2rk
          · rw [hp4, hidx3]; exact he2p
          · rw [hplugL]; exact hReprL4
          · rw [hplugR]; exact hReprR4
          · rw [hplugL]; exact hCntL4
          · rw [hplugR]; exact hCntR4

lemma nodeAt_append_lt [Inhabited K] (e : List (ZipNode K)) (n : ZipNode K) {j : Nat}
    (hj : j < e.length) : nodeAt (e ++ [n]) j = nodeAt e j := by
  unfold nodeAt
  rw [List.getD_eq_getElem?_getD, List.getD_eq_getElem?_getD,
    List.getElem?_append_left hj]

lemma nodeAt_append_self [Inhabited K] (e : List (ZipNode K)) (n : ZipNode K) :
    nodeAt (e ++ [n]) e.length = n := by
  unfold nodeAt
  rw [List.getD_eq_getElem?_getD, List.getElem?_concat_length]
  rfl

/-- The in-order slots of the two unzip chains are exactly those of the
unzipped subtree. -/
lemma unzip_idxs_perm (lt : K → K → Bool) (key : K) (c : BT K) :
    ((unzipL lt key c).idxsIn ++ (unzipR lt key c).idxsIn).Perm c.idxsIn := by
  induction c with
  | leaf => simp [unzipL, unzipR, BT.idxsIn]
  | node l i x rk r ihl ihr =>
    by_cases hx : lt x key = true
    · simp only [unzipL, unzipR, if_pos hx, BT.idxsIn]
      have : (l.idxsIn ++ i :: (unzipL lt key r).idxsIn) ++ (unzipR lt key r).idxsIn =
          l.idxsIn ++ i :: ((unzipL lt key r).idxsIn ++ (unzipR lt key r).idxsIn) := by
        simp
      rw [this]
      exact ((ihr.cons i).append_left l.idxsIn)
    · simp only [unzipL, unzipR, if_neg hx, BT.idxsIn]
      rw [← List.append_assoc]
      exact ihl.append_right (i :: r.idxsIn)

/-- The in-order keys of the two unzip chains are exactly those of the
unzipped subtree. -/
lemma unzip_keys_perm (lt : K → K → Bool) (key : K) (c : BT K) :
    ((unzipL lt key c).keysIn ++ (unzipR lt key c).keysIn).Perm c.keysIn := by
  induction c with
  | leaf => simp [unzipL, unzipR, BT.keysIn]
  | node l i x rk r ihl ihr =>
    by_cases hx : lt x key = true
    · simp only [unzipL, unzipR, if_pos hx, BT.keysIn]
      have : (l.keysIn ++ x :: (unzipL lt key r).keysIn) ++ (unzipR lt key r).keysIn =
          l.keysIn ++ x :: ((unzipL lt key r).keysIn ++ (unzipR lt key r).keysIn) := by
        simp
      rw [this]
      exact ((ihr.cons x).append_left l.keysIn)
    · simp only [unzipL, unzipR, if_neg hx, BT.keysIn]
      rw [← List.append_assoc]
      exact ihl.append_right (x :: r.keysIn)

/-- Route and rank conditions collected along the `insert` descent: every
frame passed the continue test of the rank-descent loop, and the hole sits
on the side the key comparison selects. -/
def DescCond (lt : K → K → Bool) (rank : Nat) (key : K) : Ctx K → Prop
  | .hole => True
  | .inL c _ k rk _ =>
    (rank < rk ∨ (rank = rk ∧ lt k key = true)) ∧ lt key k = true ∧ DescCond lt rank key c
  | .inR _ _ k rk c =>
    (rank < rk ∨ (rank = rk ∧ lt k key = true)) ∧ lt key k = false ∧ DescCond lt rank key c

/-- The failure of the continue test at the point the descent stops. -/
def StopCond (lt : K → K → Bool) (rank : Nat) (key : K) : BT K → Prop
  | .leaf => True
  | .node _ _ x rk _ => ¬(rank < rk ∨ (rank = rk ∧ lt x key = true))

lemma DescCond_comp {lt : K → K → Bool} {rank : Nat} {key : K} {o c : Ctx K}
    (ho : DescCond lt rank key o) (hc : DescCond lt rank key c) :
    DescCond lt rank key (o.comp c) := by
  induction c with
  | hole => exact ho
  | inL c i k rk r ih => exact ⟨hc.1, hc.2.1, ih hc.2.2⟩
  | inR l i k rk c ih => exact ⟨hc.1, hc.2.1, ih hc.2.2⟩

/-- `insF` walks through a descent context without modifying it. -/
lemma insF_plug_cont (lt : K → K → Bool) (rank : Nat) (key : K) (idx : Nat)
    {o : Ctx K} (ho : DescCond lt rank key o) (s : BT K) :
    insF lt rank key idx (o.plug s) = o.plug (insF lt rank key idx s) := by
  induction o generalizing s with
  | hole => rfl
  | inL c i k rk r ih =>
    obtain ⟨hcond, hroute, hc⟩ := ho
    simp only [Ctx.plug]
    rw [ih hc, insF, if_pos hcond, if_pos hroute]
  | inR l i k rk c ih =>
    obtain ⟨hcond, hroute, hc⟩ := ho
    simp only [Ctx.plug]
    rw [ih hc, insF, if_pos hcond, if_neg (by simp [hroute])]

/-- At the stop point `insF` splices the new node over the unzip chains. -/
lemma insF_stop (lt : K → K → Bool) (rank : Nat) (key : K) (idx : Nat)
    {s : BT K} (hs : StopCond lt rank key s) :
    insF lt rank key idx s =
      BT.node (unzipL lt key s) idx key rank (unzipR lt key s) := by
  cases s with
  | leaf => simp [insF, unzipL, unzipR]
  | node l i x rk r => rw [insF, if_neg hs]

lemma ReprCtx_top_mem [Inhabited K] {e : List (ZipNode K)} {c : Ctx K}
    {h hp top tp : Nat} (hne : c ≠ Ctx.hole) (hc : ReprCtx e c h hp top tp) :
    top ∈ c.idxsC := by
  induction c generalizing h hp with
  | hole => exact absurd rfl hne
  | inL c i k rk r ih =>
    obtain ⟨_, _, _, _, _, _, hrec⟩ := hc
    show top ∈ i :: (r.idxsIn ++ c.idxsC)
    cases c with
    | hole =>
      obtain ⟨rfl, _⟩ := hrec
      exact List.mem_cons_self _ _
    | inL c' i' k' rk' r' =>
      exact List.mem_cons_of_mem i (List.mem_append_right _ (ih (by simp) hrec))
    | inR l' i' k' rk' c' =>
      exact List.mem_cons_of_mem i (List.mem_append_right _ (ih (by simp) hrec))
  | inR l i k rk c ih =>
    obtain ⟨_, _, _, _, _, _, hrec⟩ := hc
    show top ∈ i :: (l.idxsIn ++ c.idxsC)
    cases c with
    | hole =>
      obtain ⟨rfl, _⟩ := hrec
      exact List.mem_cons_self _ _
    | inL c' i' k' rk' r' =>
      exact List.mem_cons_of_mem i (List.mem_append_right _ (ih (by simp) hrec))
    | inR l' i' k' rk' c' =>
      exact List.mem_cons_of_mem i (List.mem_append_right _ (ih (by simp) hrec))

/-- The rank-descent loop of `insert` stops on a represented subtree whose
root fails the continue test, having accumulated a descent context. -/
lemma insertDescend_spec [Inhabited K] {lt : K → K → Bool} {rank : Nat} {key : K}
    {e : List (ZipNode K)} (hlen : e.length ≤ SENTINEL) {top tp : Nat} :
    ∀ {fuel : Nat} {s : BT K} {curr cp : Nat} {o : Ctx K},
    ReprP e s curr cp → ReprCtx e o curr cp top tp → DescCond lt rank key o →
    s.size < fuel →
    ∃ o' s' curr' cp',
      insertDescend lt e rank key cp curr fuel = (cp', curr') ∧
      o.plug s = o'.plug s' ∧
      ReprP e s' curr' cp' ∧ ReprCtx e o' curr' cp' top tp ∧
      DescCond lt rank key o' ∧ StopCond lt rank key s' ∧
      (o' = Ctx.hole → o = Ctx.hole) := by
  intro fuel
  induction fuel with
  | zero => intro s curr cp o _ _ _ h; omega
  | succ f ih =>
    intro s curr cp o hs hctx hdc hfuel
    cases s with
    | leaf =>
      have hS : curr = SENTINEL := hs
      refine ⟨o, .leaf, curr, cp, ?_, rfl, hs, hctx, hdc, trivial, fun hh => hh⟩
      rw [insertDescend, if_neg (by simp [hS])]
    | node l i x rk r =>
      obtain ⟨rfl, hilen, hk, hrk, hp, hl, hr⟩ := id hs
      by_cases hcond : rank < rk ∨ (rank = rk ∧ lt x key = true)
      · have hcond' : curr ≠ SENTINEL ∧ (rank < (nodeAt e curr).rank ∨
            (rank = (nodeAt e curr).rank ∧ lt (nodeAt e curr).key key = true)) := by
          refine ⟨by omega, ?_⟩
          rw [hk, hrk]
          exact hcond
        by_cases hroute : lt key x = true
        · have hstep : insertDescend lt e rank key cp curr (f + 1) =
              insertDescend lt e rank key curr (nodeAt e curr).left f := by
            rw [insertDescend, if_pos hcond', if_pos (by rw [hk]; exact hroute)]
          have hfr : ReprCtx e (Ctx.inL Ctx.hole curr x rk r)
              ((nodeAt e curr).left) curr curr cp :=
            ⟨rfl, hilen, hk, hrk, rfl, hr, rfl, hp⟩
          have hctx2 : ReprCtx e (o.comp (Ctx.inL Ctx.hole curr x rk r))
              ((nodeAt e curr).left) curr top tp := ReprCtx_comp hfr hctx
          have hdc2 : DescCond lt rank key (o.comp (Ctx.inL Ctx.hole curr x rk r)) :=
            DescCond_comp hdc ⟨hcond, hroute, trivial⟩
          obtain ⟨o', s', curr', cp', hrun, hplugeq, hs', hctx', hdc', hstop', hhole'⟩ :=
            ih hl hctx2 hdc2 (by simp only [BT.size] at hfuel; omega)
          refine ⟨o', s', curr', cp', by rw [hstep]; exact hrun, ?_, hs', hctx', hdc',
            hstop', ?_⟩
          · rw [← hplugeq, plug_comp]
            simp [Ctx.plug]
          · intro hh
            exact absurd (hhole' hh) (by simp [Ctx.comp])
        · have hroute' : lt key x = false := by
            cases hrx : lt key x with
            | false => rfl
            | true => exact absurd hrx hroute
          have hstep : insertDescend lt e rank key cp curr (f + 1) =
              insertDescend lt e rank key curr (nodeAt e curr).right f := by
            rw [insertDescend, if_pos hcond', if_neg (by rw [hk, hroute']; simp)]
          have hfr : ReprCtx e (Ctx.inR l curr x rk Ctx.hole)
              ((nodeAt e curr).right) curr curr cp :=
            ⟨rfl, hilen, hk, hrk, rfl, hl, rfl, hp⟩
          have hctx2 : ReprCtx e (o.comp (Ctx.inR l curr x rk Ctx.hole))
              ((nodeAt e curr).right) curr top tp := ReprCtx_comp hfr hctx
          have hdc2 : DescCond lt rank key (o.comp (Ctx.inR l curr x rk Ctx.hole)) :=
            DescCond_comp hdc ⟨hcond, hroute', trivial⟩
          obtain ⟨o', s', curr', cp', hrun, hplugeq, hs', hctx', hdc', hstop', hhole'⟩ :=
            ih hr hctx2 hdc2 (by simp only [BT.size] at hfuel; omega)
          refine ⟨o', s', curr', cp', by rw [hstep]; exact hrun, ?_, hs', hctx', hdc',
            hstop', ?_⟩
          · rw [← hplugeq, plug_comp]
            simp [Ctx.plug]
          · intro hh
            exact absurd (hhole' hh) (by simp [Ctx.comp])
      · refine ⟨o, .node l curr x rk r, curr, cp, ?_, rfl, hs, hctx, hdc, hcond,
          fun hh => hh⟩
        rw [insertDescend, if_neg ?_]
        rintro ⟨_, hc2⟩
        rw [hk, hrk] at hc2
        exact hcond hc2

/-- The final count repair of `insert`: starting at the spliced node it
recomputes that node's count and then the whole ancestor spine, leaving a
fully count-correct arena for the plugged result tree. -/
lemma finalFixup_spec [Inhabited K] {e : List (ZipNode K)} {o : Ctx K}
    {lsub rsub : BT K} {idx par root1 : Nat} {key : K} {rank : Nat}
    (hlen : e.length ≤ SENTINEL)
    (hrepr : ReprP e (BT.node lsub idx key rank rsub) idx par)
    (hcl : CountsOK e lsub) (hcr : CountsOK e rsub)
    (hctx : ReprCtx e o idx par root1 SENTINEL)
    (hsides : CtxSidesOK e o)
    (hnd : (o.idxsC ++ (BT.node lsub idx key rank rsub).idxsIn).Nodup) :
    ∃ e', fixupCount e idx SENTINEL (e.length + 1) = e' ∧
      e'.length = e.length ∧
      ReprP e' (o.plug (BT.node lsub idx key rank rsub)) root1 SENTINEL ∧
      CountsOK e' (o.plug (BT.node lsub idx key rank rsub)) := by
  obtain ⟨_, hidxlt, hk, hrk, hp, hl, hr⟩ := id hrepr
  have hndsub : (BT.node lsub idx key rank rsub).idxsIn.Nodup := hnd.of_append_right
  have hndmid : (idx :: (lsub.idxsIn ++ rsub.idxsIn)).Nodup :=
    List.nodup_middle.1 (by simpa [BT.idxsIn] using hndsub)
  have hidxnotl : idx ∉ lsub.idxsIn :=
    fun hc => (List.nodup_cons.1 hndmid).1 (List.mem_append_left _ hc)
  have hidxnotr : idx ∉ rsub.idxsIn :=
    fun hc => (List.nodup_cons.1 hndmid).1 (List.mem_append_right _ hc)
  have hdisj : ∀ j ∈ o.idxsC, j ∉ (BT.node lsub idx key rank rsub).idxsIn :=
    fun j hj => (List.nodup_append.1 hnd).2.2 hj
  have hidxmem : idx ∈ (BT.node lsub idx key rank rsub).idxsIn := by simp [BT.idxsIn]
  have hidxnoto : idx ∉ o.idxsC := fun hc => hdisj idx hc hidxmem
  have hcntl := child_count hlen hl hcl
  have hcntr := child_count hlen hr hcr
  have hS : ¬ idx = SENTINEL := by omega
  have hstep : fixupCount e idx SENTINEL (e.length + 1) =
      fixupCount (setCnt e idx (1 + lsub.size + rsub.size)) par SENTINEL e.length := by
    rw [fixupCount, if_pos hS]
    simp only [hcntl, hcntr, hp]
  have hsh1 : EqShape e (setCnt e idx (1 + lsub.size + rsub.size)) :=
    EqShape_setCnt e idx _
  have he1len : (setCnt e idx (1 + lsub.size + rsub.size)).length = e.length :=
    length_setCnt e idx _
  have he1cnt : ∀ j, j ≠ idx →
      (nodeAt (setCnt e idx (1 + lsub.size + rsub.size)) j) = nodeAt e j :=
    fun j hj => nodeAt_setCnt_other e idx j _ (fun hc => hj hc.symm)
  have he1self : (nodeAt (setCnt e idx (1 + lsub.size + rsub.size)) idx).count =
      1 + lsub.size + rsub.size := by
    rw [nodeAt_setCnt_same e idx _ hidxlt]
  have hrepr1 : ReprP (setCnt e idx (1 + lsub.size + rsub.size))
      (BT.node lsub idx key rank rsub) idx par := ReprP_of_EqShape hsh1 hrepr
  have hcnt1 : CountsOK (setCnt e idx (1 + lsub.size + rsub.size))
      (BT.node lsub idx key rank rsub) := by
    refine ⟨by rw [he1self]; omega, ?_, ?_⟩
    · exact CountsOK_congr hcl fun j hj => by
        rw [he1cnt j (fun hc => hidxnotl (hc ▸ hj))]
    · exact CountsOK_congr hcr fun j hj => by
        rw [he1cnt j (fun hc => hidxnotr (hc ▸ hj))]
  have hctx1 : ReprCtx (setCnt e idx (1 + lsub.size + rsub.size)) o idx par
      root1 SENTINEL := ReprCtx_of_EqShape hsh1 hctx
  have hsides1 : CtxSidesOK (setCnt e idx (1 + lsub.size + rsub.size)) o :=
    CtxSidesOK_congr hsides fun j hj => by
      rw [he1cnt j (fun hc => hidxnoto (hc ▸ hj))]
  have hdepth : o.depth < e.length := by
    rw [depth_eq_spine_length]
    have hndc : (idx :: o.spineC).Nodup := by
      refine List.nodup_cons.2 ⟨fun hc => hidxnoto (spineC_subset_idxsC o idx hc), ?_⟩
      exact List.Nodup.sublist (spineC_sublist_idxsC o) hnd.of_append_left
    have hlt : ∀ j ∈ idx :: o.spineC, j < e.length := by
      intro j hj
      rcases List.mem_cons.1 hj with rfl | hj
      · exact hidxlt
      · exact ReprCtx_spine_lt hctx j hj
    have := nodup_lt_length hndc hlt
    simp only [List.length_cons] at this
    omega
  obtain ⟨e2, hrun2, hsh2, hframe2, hcc2, hsides2, hcnt2⟩ :=
    fixupCount_spine
      (show (setCnt e idx (1 + lsub.size + rsub.size)).length ≤ SENTINEL by
        rw [he1len]; exact hlen) hctx1 hrepr1 hcnt1 hsides1
      (by
        refine List.nodup_append.2 ⟨(List.nodup_append.1 hnd).1, hndsub, ?_⟩
        exact fun a ha ha2 => hdisj a ha ha2)
      (fun j hj hc => by
        have := ReprCtx_spine_lt hctx j hj
        omega)
      (show o.depth < e.length from hdepth)
  refine ⟨e2, by rw [hstep]; exact hrun2, by rw [← hsh2.1, he1len], ?_, ?_⟩
  · exact ReprP_plug (ReprCtx_of_EqShape hsh2 hctx1) (ReprP_of_EqShape hsh2 hrepr1)
  · exact (CountsOK_plug_iff o _).2 ⟨hcc2, hsides2, hcnt2⟩

/-- The unzip phase of `insert`: hanging the displaced subtree under the
new node and running the unzip loop leaves the two chains correctly
attached under the new node, with the rest of the arena untouched. -/
lemma unzip_phase [Inhabited K] {lt : K → K → Bool} (O : LtOrd lt)
    {e1 : List (ZipNode K)} {o : Ctx K} {s : BT K} {idx par root1 curr scp : Nat}
    {key : K} {rank : Nat}
    (hlen : e1.length ≤ SENTINEL) (hidxlt : idx < e1.length)
    (hk : (nodeAt e1 idx).key = key) (hrk : (nodeAt e1 idx).rank = rank)
    (hp : (nodeAt e1 idx).parent = par)
    (hcurrne : curr ≠ SENTINEL)
    (hs : ReprP e1 s curr scp) (hcs : CountsOK e1 s)
    (hctx : ReprCtx e1 o idx par root1 SENTINEL)
    (hsides : CtxSidesOK e1 o)
    (hnd : (idx :: (o.idxsC ++ s.idxsIn)).Nodup)
    (hcomp : s.AllK (fun x => lt x key = true ∨ lt key x = true)) :
    ∃ e', unzipLoop lt key idx (setPar (if lt key (nodeAt e1 curr).key
          then setRt e1 idx curr else setLf e1 idx curr) curr idx) idx curr
        ((setPar (if lt key (nodeAt e1 curr).key then setRt e1 idx curr
          else setLf e1 idx curr) curr idx).length + 1) = e' ∧
      e'.length = e1.length ∧
      ReprP e' (BT.node (unzipL lt key s) idx key rank (unzipR lt key s)) idx par ∧
      CountsOK e' (unzipL lt key s) ∧ CountsOK e' (unzipR lt key s) ∧
      ReprCtx e' o idx par root1 SENTINEL ∧ CtxSidesOK e' o := by
  obtain ⟨hidxno, hndos⟩ := List.nodup_cons.1 hnd
  have hidxnoto : idx ∉ o.idxsC := fun hc => hidxno (List.mem_append_left _ hc)
  have hidxnots : idx ∉ s.idxsIn := fun hc => hidxno (List.mem_append_right _ hc)
  have hnds : s.idxsIn.Nodup := hndos.of_append_right
  have hdisjos : ∀ j ∈ o.idxsC, j ∉ s.idxsIn := fun j hj => (List.nodup_append.1 hndos).2.2 hj
  cases s with
  | leaf => exact absurd (show curr = SENTINEL from hs) hcurrne
  | node ls is xs rks rs =>
    obtain ⟨rfl, hclt, hck, hcrk, hcp, hcl, hcr⟩ := id hs
    have hcurrmem : curr ∈ (BT.node ls curr xs rks rs).idxsIn := by simp [BT.idxsIn]
    have hidxne : idx ≠ curr := fun hc => hidxnots (hc ▸ hcurrmem)
    have hxs : lt xs key = true ∨ lt key xs = true := hcomp.2.1
    have hsize : (BT.node ls curr xs rks rs).size ≤ e1.length := by
      rw [← idxsIn_length]
      exact nodup_lt_length hnds (ReprP_idx_lt hs)
    -- the write of the new node's child slot
    obtain ⟨eA, heA, hAlen, hAother, hAidxk, hAidxrk, hAidxp, hAidxc, hAchild⟩ :
      ∃ eA, (if lt key (nodeAt e1 curr).key then setRt e1 idx curr
          else setLf e1 idx curr) = eA ∧
        eA.length = e1.length ∧
        (∀ j, j ≠ idx → nodeAt eA j = nodeAt e1 j) ∧
        (nodeAt eA idx).key = (nodeAt e1 idx).key ∧
        (nodeAt eA idx).rank = (nodeAt e1 idx).rank ∧
        (nodeAt eA idx).parent = (nodeAt e1 idx).parent ∧
        (nodeAt eA idx).count = (nodeAt e1 idx).count ∧
        ((RootLess lt key (BT.node ls curr xs rks rs) ∧ (nodeAt eA idx).left = curr) ∨
         (RootGreater lt key (BT.node ls curr xs rks rs) ∧ (nodeAt eA idx).right = curr)) := by
      rcases hxs with hxk | hkx
      · rw [if_neg (show ¬ (lt key (nodeAt e1 curr).key = true) by
          rw [hck, O.asymm hxk]; simp)]
        have hAidx : nodeAt (setLf e1 idx curr) idx = { nodeAt e1 idx with left := curr } :=
          nodeAt_setLf_same e1 idx curr hidxlt
        exact ⟨_, rfl, length_setLf e1 idx curr,
          fun j hj => nodeAt_setLf_other e1 idx j curr (fun hc => hj hc.symm),
          by rw [hAidx], by rw [hAidx], by rw [hAidx], by rw [hAidx],
          Or.inl ⟨hxk, by rw [hAidx]⟩⟩
      · rw [if_pos (show lt key (nodeAt e1 curr).key = true by rw [hck]; exact hkx)]
        have hAidx : nodeAt (setRt e1 idx curr) idx = { nodeAt e1 idx with right := curr } :=
          nodeAt_setRt_same e1 idx curr hidxlt
        exact ⟨_, rfl, length_setRt e1 idx curr,
          fun j hj => nodeAt_setRt_other e1 idx j curr (fun hc => hj hc.symm),
          by rw [hAidx], by rw [hAidx], by rw [hAidx], by rw [hAidx],
          Or.inr ⟨hkx, by rw [hAidx]⟩⟩
    -- the parent write hanging the displaced subtree under the new node
    have hBlen : (setPar eA curr idx).length = e1.length := by
      rw [length_setPar, hAlen]
    have hBidx : nodeAt (setPar eA curr idx) idx = nodeAt eA idx :=
      nodeAt_setPar_other eA curr idx idx (fun hc => hidxne hc.symm)
    have hBother : ∀ j, j ≠ idx → j ≠ curr → nodeAt (setPar eA curr idx) j = nodeAt e1 j :=
      fun j h1 h2 => by
        rw [nodeAt_setPar_other eA curr j idx (fun hc => h2 hc.symm), hAother j h1]
    have hBcnt : ∀ j, (nodeAt (setPar eA curr idx) j).count = (nodeAt e1 j).count := by
      intro j
      by_cases h2 : j = curr
      · subst h2
        rw [nodeAt_setPar_same eA j idx (by rw [hAlen]; exact hclt)]
        simp only []
        rw [hAother j (fun hc => hidxne hc.symm)]
      · by_cases h1 : j = idx
        · subst h1
          rw [hBidx, hAidxc]
        · rw [hBother j h1 h2]
    have hBrepr : ReprP (setPar eA curr idx) (BT.node ls curr xs rks rs) curr idx := by
      have hsA : ReprP eA (BT.node ls curr xs rks rs) curr scp :=
        ReprP_congr hs fun j hj =>
          ⟨hAother j (fun hc => hidxnots (hc ▸ hj)),
            by rw [hAlen]; exact ReprP_idx_lt hs j hj⟩
      exact ReprP_setPar_root (by rw [hAlen]; exact hlen) hsA hnds
    have hBfr : ∀ j, j ≠ idx → j ∉ (BT.node ls curr xs rks rs).idxsIn →
        nodeAt (setPar eA curr idx) j = nodeAt e1 j :=
      fun j h1 h2 => hBother j h1 (fun hc => h2 (hc ▸ hcurrmem))
    have hinv : UnzipInv lt key idx (setPar eA curr idx) idx curr Ctx.hole Ctx.hole
        (BT.node ls curr xs rks rs) := by
      refine ⟨by rw [hBlen]; exact hlen, by rw [hBlen]; exact hidxlt,
        by rw [hBidx, hAidxk]; exact hk, ?_, trivial, trivial,
        fun x hx => absurd hx (by simp [Ctx.spineKeys]),
        fun x hx => absurd hx (by simp [Ctx.spineKeys]), hcomp,
        CountsOK_congr hcs fun j _ => hBcnt j, trivial, trivial, trivial, trivial,
        (nodeAt (setPar eA curr idx) idx).left, idx,
        (nodeAt (setPar eA curr idx) idx).right, idx, ⟨rfl, rfl⟩, ⟨rfl, rfl⟩, ?_⟩
      · simp only [Ctx.idxsC, List.nil_append]
        exact List.nodup_cons.2 ⟨hidxnots, hnds⟩
      · refine Or.inr ⟨hcurrne, ?_⟩
        rcases hAchild with ⟨hless, hleft⟩ | ⟨hgt, hright⟩
        · exact Or.inl ⟨hless, by rw [hBidx]; exact hleft, hBrepr, rfl⟩
        · exact Or.inr ⟨hgt, by rw [hBidx]; exact hright, hBrepr, rfl⟩
    obtain ⟨e4, hrun4, hlen4, hframe4, hk4, hrk4, hp4, hReprL4, hReprR4, hCntL4, hCntR4⟩ :=
      unzipLoop_spec O hinv
        (show (BT.node ls curr xs rks rs).size < (setPar eA curr idx).length + 1 by
          rw [hBlen]; omega)
    have hfr14 : ∀ j, j ≠ idx → j ∉ (BT.node ls curr xs rks rs).idxsIn →
        nodeAt e4 j = nodeAt e1 j := by
      intro j h1 h2
      rw [hframe4 j h1 (by simp [Ctx.idxsC]) (by simp [Ctx.idxsC]) h2]
      exact hBfr j h1 h2
    have he4len : e4.length = e1.length := by rw [hlen4, hBlen]
    refine ⟨e4, by rw [heA]; exact hrun4, he4len, ?_, hCntL4, hCntR4, ?_, ?_⟩
    · refine ⟨rfl, by rw [he4len]; exact hidxlt, ?_, ?_, ?_, hReprL4, hReprR4⟩
      · rw [hk4, hBidx, hAidxk]
        exact hk
      · rw [hrk4, hBidx, hAidxrk]
        exact hrk
      · rw [hp4, hBidx, hAidxp]
        exact hp
    · refine ReprCtx_congr hctx fun j hj => ⟨?_, by rw [he4len]; exact ReprCtx_idx_lt hctx j hj⟩
      exact hfr14 j (fun hc => hidxnoto (hc ▸ hj)) (hdisjos j hj)
    · refine CtxSidesOK_congr hsides fun j hj => ?_
      rw [hfr14 j (fun hc => hidxnoto (hc ▸ hj)) (hdisjos j hj)]

lemma insert_unfold [Inhabited K] (e : List (ZipNode K)) (root : Nat) (lt : K → K → Bool)
    (rank : Nat) (key : K) :
    ZipTree.insert ⟨e, root, lt⟩ rank key =
      (let e0 := e ++ [⟨key, SENTINEL, SENTINEL, SENTINEL, rank, 1⟩]
       let pc := insertDescend lt e0 rank key SENTINEL root (e0.length + 1)
       let st := if pc.2 = root then (e0, e.length) else
         (setPar (if lt key (nodeAt e0 pc.1).key then setLf e0 pc.1 e.length
             else setRt e0 pc.1 e.length) e.length pc.1, root)
       let e2 := if pc.2 ≠ SENTINEL then
           (let eA := if lt key (nodeAt st.1 pc.2).key then setRt st.1 e.length pc.2
               else setLf st.1 e.length pc.2
            let eB := setPar eA pc.2 e.length
            unzipLoop lt key e.length eB e.length pc.2 (eB.length + 1))
         else st.1
       ZipTree.mk (fixupCount e2 e.length SENTINEL (e2.length + 1)) st.2 lt) := rfl

/-- Arena-level correctness of `insert` for an absent key: the resulting
arena represents `insF` of the represented tree, with correct counts. -/
lemma insert_spec [Inhabited K] {lt : K → K → Bool} (O : LtOrd lt) {e : List (ZipNode K)}
    {t : BT K} {root : Nat} (rank : Nat) {key : K}
    (hlen : e.length < SENTINEL)
    (hrepr : ReprP e t root SENTINEL) (hcnt : CountsOK e t)
    (hperm : t.idxsIn.Perm (List.range e.length))
    (hkey : key ∉ t.keysIn) :
    ∃ e' root',
      ZipTree.insert ⟨e, root, lt⟩ rank key = ⟨e', root', lt⟩ ∧
      e'.length = e.length + 1 ∧
      ReprP e' (insF lt rank key e.length t) root' SENTINEL ∧
      CountsOK e' (insF lt rank key e.length t) := by
  obtain ⟨e0, he0⟩ : ∃ e0,
      e ++ [(⟨key, SENTINEL, SENTINEL, SENTINEL, rank, 1⟩ : ZipNode K)] = e0 := ⟨_, rfl⟩
  have he0len : e0.length = e.length + 1 := by rw [← he0]; simp
  have hfresh : nodeAt e0 e.length = ⟨key, SENTINEL, SENTINEL, SENTINEL, rank, 1⟩ := by
    rw [← he0]; exact nodeAt_append_self e _
  have hlen0 : e0.length ≤ SENTINEL := by rw [he0len]; omega
  have hmemlt : ∀ j ∈ t.idxsIn, j < e.length := fun j hj => List.mem_range.1 (hperm.subset hj)
  have holdn : ∀ j ∈ t.idxsIn, nodeAt e0 j = nodeAt e j :=
    fun j hj => by rw [← he0]; exact nodeAt_append_lt e _ (hmemlt j hj)
  have hrepr0 : ReprP e0 t root SENTINEL :=
    ReprP_congr hrepr fun j hj => ⟨holdn j hj, by rw [he0len]; have := hmemlt j hj; omega⟩
  have hcnt0 : CountsOK e0 t := CountsOK_congr hcnt fun j hj => by rw [holdn j hj]
  have hndt : t.idxsIn.Nodup := hperm.nodup_iff.2 (List.nodup_range _)
  have hidxt : e.length ∉ t.idxsIn := fun hc => by have := hmemlt _ hc; omega
  have hsizet : t.size = e.length := by
    rw [← idxsIn_length]
    simpa using hperm.length_eq
  obtain ⟨o', s', curr', cp', hrun, hplugT, hs', hctx', hdc', hstop', hhole'⟩ :=
    @insertDescend_spec K _ lt rank key e0 hlen0 root SENTINEL (e0.length + 1) t root SENTINEL
      Ctx.hole hrepr0 ⟨rfl, rfl⟩ trivial (by rw [hsizet, he0len]; omega)
  have hT : t = o'.plug s' := hplugT
  have hinsFeq : insF lt rank key e.length t =
      o'.plug (BT.node (unzipL lt key s') e.length key rank (unzipR lt key s')) := by
    rw [hT, insF_plug_cont lt rank key e.length hdc', insF_stop lt rank key e.length hstop']
  have hTperm : t.idxsIn.Perm (s'.idxsIn ++ o'.idxsC) := by
    rw [hT]; exact idxs_plug_perm o' s'
  have hnd0 : (e.length :: t.idxsIn).Nodup := List.nodup_cons.2 ⟨hidxt, hndt⟩
  have hndall : (e.length :: (o'.idxsC ++ s'.idxsIn)).Nodup := by
    refine nodup_shuffle hnd0 fun a => ?_
    have h1 := hTperm.count_eq a
    simp only [List.count_append, List.count_cons] at h1 ⊢
    omega
  have hidxno : e.length ∉ o'.idxsC :=
    fun hc => (List.nodup_cons.1 hndall).1 (List.mem_append_left _ hc)
  have hidxns : e.length ∉ s'.idxsIn :=
    fun hc => (List.nodup_cons.1 hndall).1 (List.mem_append_right _ hc)
  have hdisjos : ∀ j ∈ o'.idxsC, j ∉ s'.idxsIn :=
    fun j hj => (List.nodup_append.1 (List.nodup_cons.1 hndall).2).2.2 hj
  have ndo' : o'.idxsC.Nodup := (List.nodup_cons.1 hndall).2.of_append_left
  have holt : ∀ j ∈ o'.idxsC, j < e.length :=
    fun j hj => hmemlt j (hTperm.mem_iff.2 (List.mem_append_right _ hj))
  have hslt : ∀ j ∈ s'.idxsIn, j < e.length :=
    fun j hj => hmemlt j (hTperm.mem_iff.2 (List.mem_append_left _ hj))
  have hcompS : s'.AllK (fun x => lt x key = true ∨ lt key x = true) := by
    rw [AllK_iff_forall]
    intro x hx
    refine O.total x key fun hc => hkey ?_
    subst hc
    rw [hT]
    exact (keys_plug_perm o' s').mem_iff.2 (List.mem_append_left _ hx)
  obtain ⟨hcc0, hsides0, hcs0⟩ := (CountsOK_plug_iff o' s').1 (by rw [← hT]; exact hcnt0)
  -- the splice: a common description of both branches of `st`
  obtain ⟨e1, root1, par, hst, h1len, h1k, h1rk, h1lf, h1rt, h1p, h1cntall, h1frS,
    hctx1, hs1⟩ :
    ∃ e1 root1 par,
      (if curr' = root then (e0, e.length) else
        (setPar (if lt key (nodeAt e0 cp').key then setLf e0 cp' e.length
            else setRt e0 cp' e.length) e.length cp', root)) = (e1, root1) ∧
      e1.length = e0.length ∧
      (nodeAt e1 e.length).key = key ∧
      (nodeAt e1 e.length).rank = rank ∧
      (nodeAt e1 e.length).left = SENTINEL ∧
      (nodeAt e1 e.length).right = SENTINEL ∧
      (nodeAt e1 e.length).parent = par ∧
      (∀ j, (nodeAt e1 j).count = (nodeAt e0 j).count) ∧
      (∀ j, j ∈ s'.idxsIn → nodeAt e1 j = nodeAt e0 j) ∧
      ReprCtx e1 o' e.length par root1 SENTINEL ∧
      ReprP e1 s' curr' cp' := by
    by_cases hroot : curr' = root
    · have ho'h : o' = Ctx.hole := by
        by_contra hne
        have hmem : root ∈ o'.idxsC := ReprCtx_top_mem hne hctx'
        have hrootlt : root < e.length := holt root hmem
        cases s' with
        | leaf =>
          have hS : curr' = SENTINEL := hs'
          rw [hroot] at hS
          omega
        | node ls is xs rks rs =>
          obtain ⟨rfl, _, _, _, _, _, _⟩ := hs'
          have hcmem : curr' ∈ (BT.node ls curr' xs rks rs).idxsIn := by simp [BT.idxsIn]
          exact hdisjos root hmem (hroot ▸ hcmem)
      subst ho'h
      obtain ⟨hcr', hcp'⟩ := id hctx'
      rw [if_pos hroot]
      refine ⟨e0, e.length, SENTINEL, rfl, rfl, by rw [hfresh], by rw [hfresh],
        by rw [hfresh], by rw [hfresh], by rw [hfresh], fun j => rfl, fun j _ => rfl,
        ⟨rfl, rfl⟩, hs'⟩
    · have ho'ne : o' ≠ Ctx.hole := fun hh => by
        subst hh
        exact hroot hctx'.1
      rw [if_neg hroot]
      -- the hole write on the innermost descent frame
      obtain ⟨eW, heW, hWlen, hWother, hWctx⟩ :
        ∃ eW, (if lt key (nodeAt e0 cp').key then setLf e0 cp' e.length
            else setRt e0 cp' e.length) = eW ∧
          eW.length = e0.length ∧
          (∀ j, j ≠ cp' → nodeAt eW j = nodeAt e0 j) ∧
          ReprCtx eW o' e.length cp' root SENTINEL := by
        cases o' with
        | hole => exact absurd rfl ho'ne
        | inL c' i' k' rk' r' =>
          obtain ⟨hpi, hilen', hk1, hrk1, hleft1, hrepr1, hrec1⟩ := id hctx'
          subst hpi
          obtain ⟨hcondf, hroutef, hdcrest⟩ := hdc'
          rw [if_pos (show lt key (nodeAt e0 cp').key = true by rw [hk1]; exact hroutef)]
          exact ⟨_, rfl, length_setLf e0 cp' e.length,
            fun j hj => nodeAt_setLf_other e0 cp' j e.length (fun hc => hj hc.symm),
            ReprCtx_set_hole_left hctx' ndo' e.length⟩
        | inR l' i' k' rk' c' =>
          obtain ⟨hpi, hilen', hk1, hrk1, hright1, hrepr1, hrec1⟩ := id hctx'
          subst hpi
          obtain ⟨hcondf, hroutef, hdcrest⟩ := hdc'
          rw [if_neg (show ¬ (lt key (nodeAt e0 cp').key = true) by
            rw [hk1, hroutef]; simp)]
          exact ⟨_, rfl, length_setRt e0 cp' e.length,
            fun j hj => nodeAt_setRt_other e0 cp' j e.length (fun hc => hj hc.symm),
            ReprCtx_set_hole_right hctx' ndo' e.length⟩
      have hcpo : cp' ∈ o'.idxsC := by
        obtain ⟨hsp, -⟩ := ReprCtx_innermost ho'ne hctx'
        exact spineC_subset_idxsC o' cp' hsp
      have hcplt : cp' < e.length := holt cp' hcpo
      have hWfreshsame : nodeAt eW e.length = nodeAt e0 e.length :=
        hWother e.length (by omega)
      have hPidx : nodeAt (setPar eW e.length cp') e.length =
          { nodeAt eW e.length with parent := cp' } :=
        nodeAt_setPar_same eW e.length cp' (by rw [hWlen, he0len]; omega)
      have hPother : ∀ j, j ≠ e.length →
          nodeAt (setPar eW e.length cp') j = nodeAt eW j :=
        fun j hj => nodeAt_setPar_other eW e.length j cp' (fun hc => hj hc.symm)
      refine ⟨setPar eW e.length cp', root, cp', by rw [heW],
        by rw [length_setPar, hWlen], ?_, ?_, ?_, ?_, ?_, ?_, ?_, ?_, ?_⟩
      · rw [hPidx, hWfreshsame, hfresh]
      · rw [hPidx, hWfreshsame, hfresh]
      · rw [hPidx, hWfreshsame, hfresh]
      · rw [hPidx, hWfreshsame, hfresh]
      · rw [hPidx]
      · intro j
        by_cases hj : j = e.length
        · subst hj
          rw [hPidx, hWfreshsame]
        · rw [hPother j hj]
          by_cases hj2 : j = cp'
          · subst hj2
            rw [← heW]
            by_cases hc : lt key (nodeAt e0 j).key = true
            · rw [if_pos hc, nodeAt_setLf_same e0 j e.length (by omega)]
            · rw [if_neg hc, nodeAt_setRt_same e0 j e.length (by omega)]
          · rw [hWother j hj2]
      · intro j hj
        rw [hPother j (fun hc => hidxns (hc ▸ hj)),
          hWother j (fun hc => hdisjos cp' hcpo (hc ▸ hj))]
      · refine ReprCtx_congr hWctx fun j hj => ⟨?_, ?_⟩
        · exact hPother j (fun hc => hidxno (hc ▸ hj))
        · rw [length_setPar]
          exact ReprCtx_idx_lt hWctx j hj
      · refine ReprP_congr hs' fun j hj => ⟨?_, ?_⟩
        · rw [hPother j (fun hc => hidxns (hc ▸ hj)),
            hWother j (fun hc => hdisjos cp' hcpo (hc ▸ hj))]
        · rw [length_setPar, hWlen, he0len]
          have := hslt j hj
          omega
  have hcs1 : CountsOK e1 s' := CountsOK_congr hcs0 fun j _ => h1cntall j
  have hsides1 : CtxSidesOK e1 o' := CtxSidesOK_congr hsides0 fun j _ => h1cntall j
  have hlen1 : e1.length ≤ SENTINEL := by rw [h1len]; exact hlen0
  have hidxlt1 : e.length < e1.length := by rw [h1len, he0len]; omega
  -- the unzip phase (or nothing, when the displaced subtree is empty)
  obtain ⟨e4, he4run, he4len, hrepr4, hcl4, hcr4, hctx4, hsides4⟩ :
    ∃ e4,
      (if curr' ≠ SENTINEL then
        (let eA := if lt key (nodeAt e1 curr').key then setRt e1 e.length curr'
            else setLf e1 e.length curr'
         let eB := setPar eA curr' e.length
         unzipLoop lt key e.length eB e.length curr' (eB.length + 1))
       else e1) = e4 ∧
      e4.length = e1.length ∧
      ReprP e4 (BT.node (unzipL lt key s') e.length key rank (unzipR lt key s'))
        e.length par ∧
      CountsOK e4 (unzipL lt key s') ∧ CountsOK e4 (unzipR lt key s') ∧
      ReprCtx e4 o' e.length par root1 SENTINEL ∧ CtxSidesOK e4 o' := by
    by_cases hcsent : curr' = SENTINEL
    · rw [if_neg (by simp [hcsent])]
      cases s' with
      | node ls is xs rks rs =>
        obtain ⟨rfl, hlt', _, _, _, _, _⟩ := hs1
        rw [h1len, he0len] at hlt'
        omega
      | leaf =>
        refine ⟨e1, rfl, rfl, ?_, trivial, trivial, hctx1, hsides1⟩
        exact ⟨rfl, hidxlt1, h1k, h1rk, h1p,
          show ReprP e1 (unzipL lt key BT.leaf) (nodeAt e1 e.length).left e.length from
            by rw [h1lf]; exact rfl,
          show ReprP e1 (unzipR lt key BT.leaf) (nodeAt e1 e.length).right e.length from
            by rw [h1rt]; exact rfl⟩
    · rw [if_pos hcsent]
      obtain ⟨e4, hrun4, h4len, h4repr, h4cl, h4cr, h4ctx, h4sides⟩ :=
        unzip_phase O hlen1 hidxlt1 h1k h1rk h1p hcsent hs1 hcs1 hctx1 hsides1
          hndall hcompS
      exact ⟨e4, hrun4, h4len, h4repr, h4cl, h4cr, h4ctx, h4sides⟩
  -- the final count repair up to the root
  have hndnew : (o'.idxsC ++ (BT.node (unzipL lt key s') e.length key rank
      (unzipR lt key s')).idxsIn).Nodup := by
    refine nodup_shuffle hndall fun a => ?_
    have h2 := (unzip_idxs_perm lt key s').count_eq a
    simp only [BT.idxsIn, List.count_append, List.count_cons] at h2 ⊢
    omega
  obtain ⟨efin, hfinrun, hfinlen, hfinrepr, hfincnt⟩ :=
    finalFixup_spec (by rw [he4len]; exact hlen1) hrepr4 hcl4 hcr4 hctx4 hsides4
      (by
        refine List.nodup_append.2 ⟨?_, ?_, ?_⟩
        · exact (List.nodup_append.1 hndnew).1
        · exact (List.nodup_append.1 hndnew).2.1
        · exact (List.nodup_append.1 hndnew).2.2)
  refine ⟨efin, root1, ?_, ?_, ?_, ?_⟩
  · rw [insert_unfold]
    simp only [he0, hrun, hst]
    rw [he4run, hfinrun]
  · rw [hfinlen, he4len, h1len, he0len]
  · rw [hinsFeq]
    exact hfinrepr
  · rw [hinsFeq]
    exact hfincnt

lemma AllK_mono {P Q : K → Prop} (h : ∀ x, P x → Q x) {t : BT K} (ht : t.AllK P) :
    t.AllK Q := by
  induction t with
  | leaf => trivial
  | node l i k rk r ihl ihr => exact ⟨ihl ht.1, h k ht.2.1, ihr ht.2.2⟩

lemma AllK_of_keys_subset {P : K → Prop} {t t' : BT K}
    (hsub : ∀ x ∈ t'.keysIn, x ∈ t.keysIn) (ht : t.AllK P) : t'.AllK P := by
  rw [AllK_iff_forall] at *
  exact fun x hx => ht x (hsub x hx)

lemma unzipL_keys_subset (lt : K → K → Bool) (key : K) (c : BT K) :
    ∀ x ∈ (unzipL lt key c).keysIn, x ∈ c.keysIn :=
  fun x hx => (unzip_keys_perm lt key c).subset (List.mem_append_left _ hx)

lemma unzipR_keys_subset (lt : K → K → Bool) (key : K) (c : BT K) :
    ∀ x ∈ (unzipR lt key c).keysIn, x ∈ c.keysIn :=
  fun x hx => (unzip_keys_perm lt key c).subset (List.mem_append_right _ hx)

/-- The unzip chains are BSTs sitting strictly below / above the split key. -/
lemma unzip_BSTb {lt : K → K → Bool} (O : LtOrd lt) {key : K} {c : BT K}
    (hb : BSTb lt c)
    (hcomp : c.AllK (fun x => lt x key = true ∨ lt key x = true)) :
    BSTb lt (unzipL lt key c) ∧ (unzipL lt key c).AllK (fun x => lt x key = true) ∧
    BSTb lt (unzipR lt key c) ∧ (unzipR lt key c).AllK (fun x => lt key x = true) := by
  induction c with
  | leaf => exact ⟨trivial, trivial, trivial, trivial⟩
  | node l i x rk r ihl ihr =>
    obtain ⟨hbl, hbr, hal, har⟩ := hb
    obtain ⟨hcl, hcx, hcr⟩ := hcomp
    by_cases hx : lt x key = true
    · obtain ⟨ih1, ih2, ih3, ih4⟩ := ihr hbr hcr
      simp only [unzipL, unzipR, if_pos hx]
      refine ⟨⟨hbl, ih1, hal, ?_⟩, ⟨?_, hx, ih2⟩, ih3, ih4⟩
      · exact AllK_of_keys_subset (unzipL_keys_subset lt key r) har
      · exact AllK_mono (fun y hy => O.lt_trans y x key hy hx) hal
    · have hkx : lt key x = true := by
        rcases hcx with h | h
        · exact absurd h hx
        · exact h
      obtain ⟨ih1, ih2, ih3, ih4⟩ := ihl hbl hcl
      simp only [unzipL, unzipR, if_neg hx]
      refine ⟨ih1, ih2, ⟨ih3, hbr, ?_, har⟩, ⟨?_, hkx, ?_⟩⟩
      · exact AllK_of_keys_subset (unzipR_keys_subset lt key l) hal
      · exact ih4
      · exact AllK_mono (fun y hy => O.lt_trans key x y hkx hy) har

lemma HRel_down {lt : K → K → Bool} (O : LtOrd lt) {k x' : K} {rk rk' : Nat}
    {l : BT K} (h1 : rk' ≤ rk) (h2 : rk' = rk → lt k x' = true) (h3 : HRel lt x' rk' l) :
    HRel lt k rk l := by
  cases l with
  | leaf => trivial
  | node _ _ kl rkl _ =>
    obtain ⟨hle, htie⟩ := h3
    refine ⟨by omega, fun he => ?_⟩
    exact O.lt_trans _ _ _ (h2 (by omega)) (htie (by omega))

/-- The unzip chains stay heap-ordered and keep any heap edge from above. -/
lemma unzip_HeapOK {lt : K → K → Bool} (O : LtOrd lt) {key : K} {c : BT K}
    (hh : HeapOK lt c) :
    HeapOK lt (unzipL lt key c) ∧ HeapOK lt (unzipR lt key c) ∧
    (∀ k rk, HRel lt k rk c → HRel lt k rk (unzipL lt key c)) ∧
    (∀ k rk, HRel lt k rk c → HRel lt k rk (unzipR lt key c)) := by
  induction c with
  | leaf => exact ⟨trivial, trivial, fun _ _ _ => trivial, fun _ _ _ => trivial⟩
  | node l i x rk r ihl ihr =>
    obtain ⟨hhl, hhr, hrl, hrr⟩ := hh
    by_cases hx : lt x key = true
    · obtain ⟨ih1, ih2, ih3, ih4⟩ := ihr hhr
      simp only [unzipL, unzipR, if_pos hx]
      refine ⟨⟨hhl, ih1, hrl, ih3 x rk hrr⟩, ih2, ?_, ?_⟩
      · exact fun k rk' h => ⟨h.1, h.2⟩
      · exact fun k rk' h => ih4 k rk' (HRel_down O h.1 h.2 hrr)
    · obtain ⟨ih1, ih2, ih3, ih4⟩ := ihl hhl
      simp only [unzipL, unzipR, if_neg hx]
      refine ⟨ih1, ⟨ih2, hhr, ih4 x rk hrl, hrr⟩, ?_, ?_⟩
      · exact fun k rk' h => ih3 k rk' (HRel_down O h.1 h.2 hrl)
      · exact fun k rk' h => ⟨h.1, h.2⟩

lemma insF_keys_perm (lt : K → K → Bool) (rank : Nat) (key : K) (idx : Nat) (t : BT K) :
    (insF lt rank key idx t).keysIn.Perm (key :: t.keysIn) := by
  induction t with
  | leaf => simp [insF, BT.keysIn, unzipL, unzipR]
  | node l i x rk r ihl ihr =>
    by_cases hcond : rank < rk ∨ (rank = rk ∧ lt x key = true)
    · by_cases hroute : lt key x = true
      · simp only [insF, if_pos hcond, if_pos hroute, BT.keysIn]
        simpa using ihl.append_right (x :: r.keysIn)
      · simp only [insF, if_pos hcond, if_neg hroute, BT.keysIn]
        have h1 := (ihr.cons x).append_left l.keysIn
        have h2 : List.Perm ((l.keysIn ++ [x]) ++ key :: r.keysIn)
            (key :: ((l.keysIn ++ [x]) ++ r.keysIn)) := List.perm_middle
        refine h1.trans ?_
        simpa using h2
    · simp only [insF, if_neg hcond, BT.keysIn]
      have h2 : List.Perm ((unzipL lt key (BT.node l i x rk r)).keysIn ++
          key :: (unzipR lt key (BT.node l i x rk r)).keysIn)
          (key :: ((unzipL lt key (BT.node l i x rk r)).keysIn ++
            (unzipR lt key (BT.node l i x rk r)).keysIn)) := List.perm_middle
      exact h2.trans ((unzip_keys_perm lt key (BT.node l i x rk r)).cons key)

lemma insF_idxs_perm (lt : K → K → Bool) (rank : Nat) (key : K) (idx : Nat) (t : BT K) :
    (insF lt rank key idx t).idxsIn.Perm (idx :: t.idxsIn) := by
  induction t with
  | leaf => simp [insF, BT.idxsIn, unzipL, unzipR]
  | node l i x rk r ihl ihr =>
    by_cases hcond : rank < rk ∨ (rank = rk ∧ lt x key = true)
    · by_cases hroute : lt key x = true
      · simp only [insF, if_pos hcond, if_pos hroute, BT.idxsIn]
        simpa using ihl.append_right (i :: r.idxsIn)
      · simp only [insF, if_pos hcond, if_neg hroute, BT.idxsIn]
        have h1 := (ihr.cons i).append_left l.idxsIn
        have h2 : List.Perm ((l.idxsIn ++ [i]) ++ idx :: r.idxsIn)
            (idx :: ((l.idxsIn ++ [i]) ++ r.idxsIn)) := List.perm_middle
        refine h1.trans ?_
        simpa using h2
    · simp only [insF, if_neg hcond, BT.idxsIn]
      have h2 : List.Perm ((unzipL lt key (BT.node l i x rk r)).idxsIn ++
          idx :: (unzipR lt key (BT.node l i x rk r)).idxsIn)
          (idx :: ((unzipL lt key (BT.node l i x rk r)).idxsIn ++
            (unzipR lt key (BT.node l i x rk r)).idxsIn)) := List.perm_middle
      exact h2.trans ((unzip_idxs_perm lt key (BT.node l i x rk r)).cons idx)

lemma insF_size (lt : K → K → Bool) (rank : Nat) (key : K) (idx : Nat) (t : BT K) :
    (insF lt rank key idx t).size = t.size + 1 := by
  rw [← keysIn_length, ← keysIn_length]
  have := (insF_keys_perm lt rank key idx t).length_eq
  simpa using this

lemma insF_BSTb {lt : K → K → Bool} (O : LtOrd lt) {rank : Nat} {key : K} {idx : Nat}
    {t : BT K} (hb : BSTb lt t)
    (hcomp : t.AllK (fun x => lt x key = true ∨ lt key x = true)) :
    BSTb lt (insF lt rank key idx t) := by
  induction t with
  | leaf => exact ⟨trivial, trivial, trivial, trivial⟩
  | node l i x rk r ihl ihr =>
    obtain ⟨hbl, hbr, hal, har⟩ := id hb
    obtain ⟨hcl, hcx, hcr⟩ := id hcomp
    by_cases hcond : rank < rk ∨ (rank = rk ∧ lt x key = true)
    · by_cases hroute : lt key x = true
      · simp only [insF, if_pos hcond, if_pos hroute]
        refine ⟨ihl hbl hcl, hbr, ?_, har⟩
        rw [AllK_iff_forall]
        intro y hy
        rcases List.mem_cons.1 ((insF_keys_perm lt rank key idx l).subset hy) with rfl | hy'
        · exact hroute
        · exact (AllK_iff_forall _ _).1 hal y hy'
      · have hxk : lt x key = true := by
          rcases hcx with h | h
          · exact h
          · exact absurd h hroute
        simp only [insF, if_pos hcond, if_neg hroute]
        refine ⟨hbl, ihr hbr hcr, hal, ?_⟩
        rw [AllK_iff_forall]
        intro y hy
        rcases List.mem_cons.1 ((insF_keys_perm lt rank key idx r).subset hy) with rfl | hy'
        · exact hxk
        · exact (AllK_iff_forall _ _).1 har y hy'
    · simp only [insF, if_neg hcond]
      obtain ⟨h1, h2, h3, h4⟩ := unzip_BSTb O hb hcomp
      exact ⟨h1, h3, h2, h4⟩

lemma insF_HeapOK {lt : K → K → Bool} (O : LtOrd lt) {rank : Nat} {key : K} {idx : Nat}
    {t : BT K} (hh : HeapOK lt t)
    (hcomp : t.AllK (fun x => lt x key = true ∨ lt key x = true)) :
    HeapOK lt (insF lt rank key idx t) ∧
    (∀ px prk, HRel lt px prk t →
      (rank < prk ∨ (rank = prk ∧ lt px key = true)) →
      HRel lt px prk (insF lt rank key idx t)) := by
  induction t with
  | leaf =>
    refine ⟨⟨trivial, trivial, trivial, trivial⟩, ?_⟩
    intro px prk _ hc
    rcases hc with h | ⟨h1, h2⟩
    · exact ⟨by omega, fun he => absurd he (by omega)⟩
    · exact ⟨by omega, fun _ => h2⟩
  | node l i x rk r ihl ihr =>
    obtain ⟨hhl, hhr, hrl, hrr⟩ := id hh
    obtain ⟨hcl, hcx, hcr⟩ := id hcomp
    by_cases hcond : rank < rk ∨ (rank = rk ∧ lt x key = true)
    · by_cases hroute : lt key x = true
      · simp only [insF, if_pos hcond, if_pos hroute]
        refine ⟨⟨(ihl hhl hcl).1, hhr, (ihl hhl hcl).2 x rk hrl hcond, hrr⟩, ?_⟩
        exact fun px prk h _ => ⟨h.1, h.2⟩
      · simp only [insF, if_pos hcond, if_neg hroute]
        refine ⟨⟨hhl, (ihr hhr hcr).1, hrl, (ihr hhr hcr).2 x rk hrr hcond⟩, ?_⟩
        exact fun px prk h _ => ⟨h.1, h.2⟩
    · simp only [insF, if_neg hcond]
      have hstop : rk ≤ rank ∧ (rk = rank → lt key x = true) := by
        push_neg at hcond
        refine ⟨by omega, fun he => ?_⟩
        have hnx : ¬ lt x key = true := hcond.2 he.symm
        rcases hcx with h | h
        · exact absurd h hnx
        · exact h
      have hrel : HRel lt key rank (BT.node l i x rk r) := hstop
      have hu : HeapOK lt (unzipL lt key (BT.node l i x rk r)) ∧
          HeapOK lt (unzipR lt key (BT.node l i x rk r)) ∧
          (∀ k rk2, HRel lt k rk2 (BT.node l i x rk r) →
            HRel lt k rk2 (unzipL lt key (BT.node l i x rk r))) ∧
          (∀ k rk2, HRel lt k rk2 (BT.node l i x rk r) →
            HRel lt k rk2 (unzipR lt key (BT.node l i x rk r))) := unzip_HeapOK O hh
      obtain ⟨u1, u2, u3, u4⟩ := hu
      refine ⟨⟨u1, u2, u3 key rank hrel, u4 key rank hrel⟩, ?_⟩
      intro px prk _ hc
      rcases hc with h | ⟨h1, h2⟩
      · exact ⟨by omega, fun he => absurd he (by omega)⟩
      · exact ⟨by omega, fun _ => h2⟩

/-- In-order keys of a BST are strictly sorted. -/
lemma BSTb_pairwise {lt : K → K → Bool} (O : LtOrd lt) {t : BT K} (hb : BSTb lt t) :
    t.keysIn.Pairwise (fun a b => lt a b = true) := by
  induction t with
  | leaf => simp [BT.keysIn]
  | node l i x rk r ihl ihr =>
    obtain ⟨hbl, hbr, hal, har⟩ := hb
    simp only [BT.keysIn]
    rw [List.pairwise_append]
    refine ⟨ihl hbl, ?_, ?_⟩
    · rw [List.pairwise_cons]
      exact ⟨(AllK_iff_forall _ _).1 har, ihr hbr⟩
    · intro a ha b hb
      rcases List.mem_cons.1 hb with rfl | hb'
      · exact (AllK_iff_forall _ _).1 hal a ha
      · exact O.lt_trans a x b ((AllK_iff_forall _ _).1 hal a ha)
          ((AllK_iff_forall _ _).1 har b hb')

lemma zipF_keys_perm (l r : BT K) : (zipF l r).keysIn.Perm (l.keysIn ++ r.keysIn) := by
  induction l, r using zipF.induct with
  | case1 r => simp [zipF, BT.keysIn]
  | case2 ll li lx lrk lr => simp [zipF, BT.keysIn]
  | case3 ll li lx lrk lr rl ri rx rrk rr hle ih =>
    rw [zipF, if_pos hle]
    simp only [BT.keysIn]
    have h1 := (ih.cons lx).append_left ll.keysIn
    refine h1.trans ?_
    simp [BT.keysIn]
  | case4 ll li lx lrk lr rl ri rx rrk rr hle ih =>
    rw [zipF, if_neg hle]
    simp only [BT.keysIn]
    have h1 := ih.append_right (rx :: rr.keysIn)
    refine h1.trans ?_
    simp [BT.keysIn]

lemma zipF_idxs_perm (l r : BT K) : (zipF l r).idxsIn.Perm (l.idxsIn ++ r.idxsIn) := by
  induction l, r using zipF.induct with
  | case1 r => simp [zipF, BT.idxsIn]
  | case2 ll li lx lrk lr => simp [zipF, BT.idxsIn]
  | case3 ll li lx lrk lr rl ri rx rrk rr hle ih =>
    rw [zipF, if_pos hle]
    simp only [BT.idxsIn]
    have h1 := (ih.cons li).append_left ll.idxsIn
    refine h1.trans ?_
    simp [BT.idxsIn]
  | case4 ll li lx lrk lr rl ri rx rrk rr hle ih =>
    rw [zipF, if_neg hle]
    simp only [BT.idxsIn]
    have h1 := ih.append_right (ri :: rr.idxsIn)
    refine h1.trans ?_
    simp [BT.idxsIn]

lemma zipF_size (l r : BT K) : (zipF l r).size = l.size + r.size := by
  rw [← keysIn_length, ← keysIn_length, ← keysIn_length]
  have := (zipF_keys_perm l r).length_eq
  simpa using this

lemma zipF_HRel {lt : K → K → Bool} {k : K} {rk : Nat} {l r : BT K}
    (h1 : HRel lt k rk l) (h2 : HRel lt k rk r) : HRel lt k rk (zipF l r) := by
  cases l with
  | leaf => simpa [zipF] using h2
  | node ll li lx lrk lr =>
    cases r with
    | leaf => simpa [zipF] using h1
    | node rl ri rx rrk rr =>
      rw [zipF]
      by_cases hle : rrk ≤ lrk
      · rw [if_pos hle]
        exact ⟨h1.1, h1.2⟩
      · rw [if_neg hle]
        exact ⟨h2.1, h2.2⟩

lemma zipF_HeapOK {lt : K → K → Bool} {l r : BT K}
    (hl : HeapOK lt l) (hr : HeapOK lt r)
    (hcross : ∀ a ∈ l.keysIn, ∀ b ∈ r.keysIn, lt a b = true) : HeapOK lt (zipF l r) := by
  induction l, r using zipF.induct with
  | case1 r => simpa [zipF] using hr
  | case2 ll li lx lrk lr => simpa [zipF] using hl
  | case3 ll li lx lrk lr rl ri rx rrk rr hle ih =>
    rw [zipF, if_pos hle]
    obtain ⟨hhll, hhlr, hrll, hrlr⟩ := hl
    refine ⟨hhll, ih hhlr hr ?_, hrll, zipF_HRel hrlr ⟨hle, fun _ => ?_⟩⟩
    · intro a ha b hb
      exact hcross a (by simp [BT.keysIn, ha]) b hb
    · exact hcross lx (by simp [BT.keysIn]) rx (by simp [BT.keysIn])
  | case4 ll li lx lrk lr rl ri rx rrk rr hle ih =>
    rw [zipF, if_neg hle]
    obtain ⟨hhrl, hhrr, hrrl, hrrr⟩ := hr
    refine ⟨ih hl hhrl ?_, hhrr, zipF_HRel ⟨by omega, fun he => absurd he (by omega)⟩ hrrl,
      hrrr⟩
    intro a ha b hb
    exact hcross a ha b (by simp [BT.keysIn, hb])

lemma zipF_BSTb {lt : K → K → Bool} (O : LtOrd lt) {l r : BT K}
    (hbl : BSTb lt l) (hbr : BSTb lt r)
    (hcross : ∀ a ∈ l.keysIn, ∀ b ∈ r.keysIn, lt a b = true) : BSTb lt (zipF l r) := by
  induction l, r using zipF.induct with
  | case1 r => simpa [zipF] using hbr
  | case2 ll li lx lrk lr => simpa [zipF] using hbl
  | case3 ll li lx lrk lr rl ri rx rrk rr hle ih =>
    rw [zipF, if_pos hle]
    obtain ⟨hbll, hblr, hall, halr⟩ := hbl
    refine ⟨hbll, ih hblr hbr ?_, hall, ?_⟩
    · intro a ha b hb
      exact hcross a (by simp [BT.keysIn, ha]) b hb
    · rw [AllK_iff_forall]
      intro y hy
      rcases List.mem_append.1 ((zipF_keys_perm lr (BT.node rl ri rx rrk rr)).subset hy)
        with hy' | hy'
      · exact (AllK_iff_forall _ _).1 halr y hy'
      · exact hcross lx (by simp [BT.keysIn]) y hy'
  | case4 ll li lx lrk lr rl ri rx rrk rr hle ih =>
    rw [zipF, if_neg hle]
    obtain ⟨hbrl, hbrr, harl, harr⟩ := hbr
    refine ⟨ih hbl hbrl ?_, hbrr, ?_, harr⟩
    · intro a ha b hb
      exact hcross a ha b (by simp [BT.keysIn, hb])
    · rw [AllK_iff_forall]
      intro y hy
      rcases List.mem_append.1 ((zipF_keys_perm (BT.node ll li lx lrk lr) rl).subset hy)
        with hy' | hy'
      · exact hcross y hy' rx (by simp [BT.keysIn])
      · exact (AllK_iff_forall _ _).1 harl y hy'

lemma occurrence_of_mem {t : BT K} {i : Nat} : i ∈ t.idxsIn →
    ∃ (c : Ctx K) (l : BT K) (x : K) (rk : Nat) (r : BT K),
      t = c.plug (BT.node l i x rk r) := by
  induction t with
  | leaf => intro h; simp [BT.idxsIn] at h
  | node l0 j x0 rk0 r0 ihl ihr =>
    intro h
    simp only [BT.idxsIn, List.mem_append, List.mem_cons] at h
    rcases h with h' | h' | h'
    · obtain ⟨c, l, x, rk, r, hc⟩ := ihl h'
      refine ⟨(Ctx.inL Ctx.hole j x0 rk0 r0).comp c, l, x, rk, r, ?_⟩
      rw [plug_comp, ← hc]
      rfl
    · subst h'
      exact ⟨Ctx.hole, l0, x0, rk0, r0, rfl⟩
    · obtain ⟨c, l, x, rk, r, hc⟩ := ihr h'
      refine ⟨(Ctx.inR l0 j x0 rk0 Ctx.hole).comp c, l, x, rk, r, ?_⟩
      rw [plug_comp, ← hc]
      rfl

/-- Key bound holding between the hole content and the innermost frame. -/
def HoleBound (lt : K → K → Bool) : Ctx K → BT K → Prop
  | .hole, _ => True
  | .inL _ _ k _ _, s => s.AllK (fun x => lt x k = true)
  | .inR _ _ k _ _, s => s.AllK (fun x => lt k x = true)

lemma BSTb_unplug {lt : K → K → Bool} : ∀ {c : Ctx K} {s : BT K}, BSTb lt (c.plug s) →
    BSTb lt s ∧ HoleBound lt c s ∧
    (∀ s', BSTb lt s' → (∀ x ∈ s'.keysIn, x ∈ s.keysIn) → BSTb lt (c.plug s')) := by
  intro c
  induction c with
  | hole => exact fun h => ⟨h, trivial, fun s' h' _ => h'⟩
  | inL c i k rk r ih =>
    intro s hb
    obtain ⟨h1, _, h3⟩ := ih hb
    obtain ⟨hs, hr, has, har⟩ := h1
    refine ⟨hs, has, ?_⟩
    intro s' hs' hsub
    refine h3 (BT.node s' i k rk r) ⟨hs', hr, AllK_of_keys_subset hsub has, har⟩ ?_
    intro x hx
    simp only [BT.keysIn, List.mem_append, List.mem_cons] at hx ⊢
    rcases hx with hx | hx
    · exact Or.inl (hsub x hx)
    · exact Or.inr hx
  | inR l i k rk c ih =>
    intro s hb
    obtain ⟨h1, _, h3⟩ := ih hb
    obtain ⟨hl, hs, hal, has⟩ := h1
    refine ⟨hs, has, ?_⟩
    intro s' hs' hsub
    refine h3 (BT.node l i k rk s') ⟨hl, hs', hal, AllK_of_keys_subset hsub has⟩ ?_
    intro x hx
    simp only [BT.keysIn, List.mem_append, List.mem_cons] at hx ⊢
    rcases hx with hx | hx | hx
    · exact Or.inl hx
    · exact Or.inr (Or.inl hx)
    · exact Or.inr (Or.inr (hsub x hx))

lemma HeapOK_unplug {lt : K → K → Bool} : ∀ {c : Ctx K} {s : BT K}, HeapOK lt (c.plug s) →
    HeapOK lt s ∧
    (∀ s', HeapOK lt s' → (∀ k rk, HRel lt k rk s → HRel lt k rk s') →
      HeapOK lt (c.plug s')) := by
  intro c
  induction c with
  | hole => exact fun h => ⟨h, fun s' h' _ => h'⟩
  | inL c i k rk r ih =>
    intro s hb
    obtain ⟨h1, h3⟩ := ih hb
    obtain ⟨hhs, hhr, hrs, hrr⟩ := h1
    refine ⟨hhs, ?_⟩
    intro s' hs' htr
    exact h3 (BT.node s' i k rk r) ⟨hs', hhr, htr k rk hrs, hrr⟩
      (fun k2 rk2 h => ⟨h.1, h.2⟩)
  | inR l i k rk c ih =>
    intro s hb
    obtain ⟨h1, h3⟩ := ih hb
    obtain ⟨hhl, hhs, hrl, hrs⟩ := h1
    refine ⟨hhs, ?_⟩
    intro s' hs' htr
    exact h3 (BT.node l i k rk s') ⟨hhl, hs', hrl, htr k rk hrs⟩
      (fun k2 rk2 h => ⟨h.1, h.2⟩)

/-- Slot relabelling used by arena compaction: slot `a` becomes slot `b`. -/
def BT.relabel (a b : Nat) : BT K → BT K
  | .leaf => .leaf
  | .node l i k rk r =>
    .node (BT.relabel a b l) (if i = a then b else i) k rk (BT.relabel a b r)

lemma relabel_keysIn (a b : Nat) (t : BT K) : (t.relabel a b).keysIn = t.keysIn := by
  induction t with
  | leaf => rfl
  | node l i k rk r ihl ihr => simp [BT.relabel, BT.keysIn, ihl, ihr]

lemma relabel_idxsIn (a b : Nat) (t : BT K) :
    (t.relabel a b).idxsIn = t.idxsIn.map (fun j => if j = a then b else j) := by
  induction t with
  | leaf => rfl
  | node l i k rk r ihl ihr => simp [BT.relabel, BT.idxsIn, ihl, ihr]

lemma relabel_size (a b : Nat) (t : BT K) : (t.relabel a b).size = t.size := by
  induction t with
  | leaf => rfl
  | node l i k rk r ihl ihr => simp [BT.relabel, BT.size, ihl, ihr]

lemma relabel_AllK (a b : Nat) {P : K → Prop} {t : BT K} (h : t.AllK P) :
    (t.relabel a b).AllK P := by
  rw [AllK_iff_forall, relabel_keysIn]
  exact (AllK_iff_forall _ _).1 h

lemma relabel_BSTb (a b : Nat) {lt : K → K → Bool} {t : BT K} (h : BSTb lt t) :
    BSTb lt (t.relabel a b) := by
  induction t with
  | leaf => trivial
  | node l i k rk r ihl ihr =>
    obtain ⟨h1, h2, h3, h4⟩ := h
    exact ⟨ihl h1, ihr h2, relabel_AllK a b h3, relabel_AllK a b h4⟩

lemma relabel_HRel (a b : Nat) {lt : K → K → Bool} {k : K} {rk : Nat} {t : BT K}
    (h : HRel lt k rk t) : HRel lt k rk (t.relabel a b) := by
  cases t with
  | leaf => trivial
  | node l i k2 rk2 r => exact ⟨h.1, h.2⟩

lemma relabel_HeapOK (a b : Nat) {lt : K → K → Bool} {t : BT K} (h : HeapOK lt t) :
    HeapOK lt (t.relabel a b) := by
  induction t with
  | leaf => trivial
  | node l i k rk r ihl ihr =>
    obtain ⟨h1, h2, h3, h4⟩ := h
    exact ⟨ihl h1, ihr h2, relabel_HRel a b h3, relabel_HRel a b h4⟩

/-- The root rank is at least `rk` (in particular the tree is nonempty). -/
def RootRankGE (rk : Nat) : BT K → Prop
  | .leaf => False
  | .node _ _ _ rk' _ => rk ≤ rk'

/-- The root rank is below `rk`. -/
def RootRankLT (rk : Nat) : BT K → Prop
  | .leaf => False
  | .node _ _ _ rk' _ => rk' < rk

/-- The root rank is strictly above `rk`. -/
def RootRankGT (rk : Nat) : BT K → Prop
  | .leaf => False
  | .node _ _ _ rk' _ => rk < rk'

/-- The root rank is at most `rk`. -/
def RootRankLE (rk : Nat) : BT K → Prop
  | .leaf => False
  | .node _ _ _ rk' _ => rk' ≤ rk

/-- The zip-merge walk down the left side's right spine peels the maximal
right-spine prefix whose ranks stay at or above the right side's root rank,
the next piece of the merged spine. -/
lemma zipWalkRight_spec [Inhabited K] {e : List (ZipNode K)}
    (hlen : e.length ≤ SENTINEL) {rRank : Nat} {c : BT K} {curr cp : Nat}
    (ht : ReprP e c curr cp)
    (hne : RootRankGE rRank c) :
    ∀ {prev fuel : Nat}, c.size < fuel →
    ∃ (w : Ctx K) (c' : BT K) (h' hp' : Nat),
      zipWalkRight e rRank prev curr fuel = (hp', h') ∧
      c = w.plug c' ∧ w ≠ Ctx.hole ∧ LChain w ∧
      ReprCtx e w h' hp' curr cp ∧ ReprP e c' h' hp' ∧
      (c' = .leaf ∨ RootRankLT rRank c') ∧
      (∀ (rl : BT K) (ri : Nat) (rx : K) (rr : BT K),
        zipF c (BT.node rl ri rx rRank rr) =
          w.plug (zipF c' (BT.node rl ri rx rRank rr))) := by
  induction c generalizing curr cp with
  | leaf => exact absurd hne (by simp [RootRankGE])
  | node l0 i0 x0 rk0 r0 ihl ihr =>
    intro prev fuel hfuel
    have hx0 : rRank ≤ rk0 := hne
    obtain ⟨rfl, hilen, hk, hrk, hpp, hl, hr⟩ := ht
    cases fuel with
    | zero => simp [BT.size] at hfuel
    | succ f =>
      rw [zipWalkRight, if_pos (not_or.2 ⟨by omega, by rw [hrk]; omega⟩)]
      cases hr0 : r0 with
      | leaf =>
        subst hr0
        have hrS : (nodeAt e curr).right = SENTINEL := hr
        cases f with
        | zero => simp [BT.size] at hfuel
        | succ f' =>
          rw [zipWalkRight, if_neg (by rw [hrS]; simp)]
          refine ⟨Ctx.inR l0 curr x0 rk0 Ctx.hole, .leaf, SENTINEL, curr, by rw [hrS],
            by simp [Ctx.plug], by simp, by simp [LChain], ?_, by exact rfl,
            Or.inl rfl, ?_⟩
          · exact ⟨rfl, hilen, hk, hrk, hrS, hl, rfl, hpp⟩
          · intro rl ri rx rr
            simp [zipF, hx0, Ctx.plug]
      | node l1 i1 x1 rk1 r1 =>
        subst hr0
        by_cases hx1 : rRank ≤ rk1
        · obtain ⟨w', c', h', hp', hrun, hdec, hwne, hwch, hctx, hrepr, hsign, hfac⟩ :=
            ihr hr hx1
              (show (BT.node l1 i1 x1 rk1 r1).size < f by simp [BT.size] at hfuel ⊢; omega)
          refine ⟨(Ctx.inR l0 curr x0 rk0 Ctx.hole).comp w', c', h', hp', hrun, ?_,
            comp_ne_hole (by simp), LChain_comp (by simp [LChain]) hwch, ?_, hrepr,
            hsign, ?_⟩
          · rw [plug_comp, ← hdec]; rfl
          · exact ReprCtx_comp hctx ⟨rfl, hilen, hk, hrk, rfl, hl, rfl, hpp⟩
          · intro rl ri rx rr
            rw [plug_comp, ← hfac rl ri rx rr]
            simp [zipF, hx0, Ctx.plug]
        · cases f with
          | zero => simp [BT.size] at hfuel
          | succ f' =>
            have hstop : ¬ ¬ ((nodeAt e curr).right = SENTINEL ∨
                (nodeAt e (nodeAt e curr).right).rank < rRank) := by
              obtain ⟨heq1, hlen1, hk1, hrk1, _, _, _⟩ := hr
              rw [hrk1]
              simp only [not_not]
              exact Or.inr (by omega)
            rw [zipWalkRight, if_neg hstop]
            refine ⟨Ctx.inR l0 curr x0 rk0 Ctx.hole, .node l1 i1 x1 rk1 r1,
              (nodeAt e curr).right, curr, rfl,
              by simp [Ctx.plug], by simp, by simp [LChain], ?_, hr,
              Or.inr (by simp only [RootRankLT]; omega), ?_⟩
            · exact ⟨rfl, hilen, hk, hrk, rfl, hl, rfl, hpp⟩
            · intro rl ri rx rr
              simp [zipF, hx0, Ctx.plug]

/-- The zip-merge walk down the right side's left spine, the mirror of
`zipWalkRight_spec`: it peels the maximal left-spine prefix whose ranks stay
strictly above the left side's root rank. -/
lemma zipWalkLeft_spec [Inhabited K] {e : List (ZipNode K)}
    (hlen : e.length ≤ SENTINEL) {lRank : Nat} {c : BT K} {curr cp : Nat}
    (ht : ReprP e c curr cp)
    (hne : RootRankGT lRank c) :
    ∀ {prev fuel : Nat}, c.size < fuel →
    ∃ (w : Ctx K) (c' : BT K) (h' hp' : Nat),
      zipWalkLeft e lRank prev curr fuel = (hp', h') ∧
      c = w.plug c' ∧ w ≠ Ctx.hole ∧ RChain w ∧
      ReprCtx e w h' hp' curr cp ∧ ReprP e c' h' hp' ∧
      (c' = .leaf ∨ RootRankLE lRank c') ∧
      (∀ (ll : BT K) (li : Nat) (lx : K) (lr : BT K),
        zipF (BT.node ll li lx lRank lr) c =
          w.plug (zipF (BT.node ll li lx lRank lr) c')) := by
  induction c generalizing curr cp with
  | leaf => exact absurd hne (by simp [RootRankGT])
  | node l0 i0 x0 rk0 r0 ihl ihr =>
    intro prev fuel hfuel
    have hx0 : lRank < rk0 := hne
    obtain ⟨rfl, hilen, hk, hrk, hpp, hl, hr⟩ := ht
    cases fuel with
    | zero => simp [BT.size] at hfuel
    | succ f =>
      rw [zipWalkLeft, if_pos (not_or.2 ⟨by omega, by rw [hrk]; omega⟩)]
      cases hl0 : l0 with
      | leaf =>
        subst hl0
        have hlS : (nodeAt e curr).left = SENTINEL := hl
        cases f with
        | zero => simp [BT.size] at hfuel
        | succ f' =>
          rw [zipWalkLeft, if_neg (by rw [hlS]; simp)]
          refine ⟨Ctx.inL Ctx.hole curr x0 rk0 r0, .leaf, SENTINEL, curr, by rw [hlS],
            by simp [Ctx.plug], by simp, by simp [RChain], ?_, by exact rfl,
            Or.inl rfl, ?_⟩
          · exact ⟨rfl, hilen, hk, hrk, hlS, hr, rfl, hpp⟩
          · intro ll li lx lr
            have hcond : ¬ (rk0 ≤ lRank) := by omega
            simp [zipF, hcond, Ctx.plug]
      | node l1 i1 x1 rk1 r1 =>
        subst hl0
        by_cases hx1 : lRank < rk1
        · obtain ⟨w', c', h', hp', hrun, hdec, hwne, hwch, hctx, hrepr, hsign, hfac⟩ :=
            ihl hl hx1
              (show (BT.node l1 i1 x1 rk1 r1).size < f by simp [BT.size] at hfuel ⊢; omega)
          refine ⟨(Ctx.inL Ctx.hole curr x0 rk0 r0).comp w', c', h', hp', hrun, ?_,
            comp_ne_hole (by simp), RChain_comp (by simp [RChain]) hwch, ?_, hrepr,
            hsign, ?_⟩
          · rw [plug_comp, ← hdec]; rfl
          · exact ReprCtx_comp hctx ⟨rfl, hilen, hk, hrk, rfl, hr, rfl, hpp⟩
          · intro ll li lx lr
            rw [plug_comp, ← hfac ll li lx lr]
            have hcond : ¬ (rk0 ≤ lRank) := by omega
            simp [zipF, hcond, Ctx.plug]
        · cases f with
          | zero => simp [BT.size] at hfuel
          | succ f' =>
            have hstop : ¬ ¬ ((nodeAt e curr).left = SENTINEL ∨
                lRank ≥ (nodeAt e (nodeAt e curr).left).rank) := by
              obtain ⟨heq1, hlen1, hk1, hrk1, _, _, _⟩ := hl
              rw [hrk1]
              simp only [not_not]
              exact Or.inr (by omega)
            rw [zipWalkLeft, if_neg hstop]
            refine ⟨Ctx.inL Ctx.hole curr x0 rk0 r0, .node l1 i1 x1 rk1 r1,
              (nodeAt e curr).left, curr, rfl,
              by simp [Ctx.plug], by simp, by simp [RChain], ?_, hl,
              Or.inr (by simp only [RootRankLE]; omega), ?_⟩
            · exact ⟨rfl, hilen, hk, hrk, rfl, hr, rfl, hpp⟩
            · intro ll li lx lr
              have hcond : ¬ (rk0 ≤ lRank) := by omega
              simp [zipF, hcond, Ctx.plug]

lemma comp_assoc (o c d : Ctx K) : (o.comp c).comp d = o.comp (c.comp d) := by
  induction d with
  | hole => rfl
  | inL d i k rk r ih => simp [Ctx.comp, ih]
  | inR l i k rk d ih => simp [Ctx.comp, ih]

/-- The root rank, zero on an empty tree. -/
def rankRoot : BT K → Nat
  | .leaf => 0
  | .node _ _ _ rk _ => rk

/-- Invariant of the zip-merge loop of `deleteIndex`: a merge chain `cM`
hangs in the arena with one of the two remaining sides attached at its
hole (the side whose root outranks the other, ties to the left), the other
side dangling; chain counts are stale and are repaired only by the final
climb. -/
def ZipInvD [Inhabited K] (e : List (ZipNode K)) (left right prev : Nat)
    (cM : Ctx K) (L R : BT K) (top tp : Nat) : Prop :=
  e.length ≤ SENTINEL ∧
  (cM.idxsC ++ (L.idxsIn ++ R.idxsIn)).Nodup ∧
  CountsOK e L ∧ CountsOK e R ∧ CtxSidesOK e cM ∧
  ∃ h, ReprCtx e cM h prev top tp ∧
    ((L = .leaf ∧ R = .leaf ∧ h = SENTINEL ∧ left = SENTINEL ∧ right = SENTINEL) ∨
     (L ≠ .leaf ∧ (R = .leaf ∨ RootRankGE (rankRoot R) L) ∧ h = left ∧
       ReprP e L left prev ∧ ∃ rp, ReprP e R right rp) ∨
     (R ≠ .leaf ∧ (L = .leaf ∨ RootRankGT (rankRoot L) R) ∧ h = right ∧
       ReprP e R right prev ∧ ∃ lp2, ReprP e L left lp2))

/-- Correctness of the zip-merge loop: run to exhaustion it interleaves the
two sides by rank exactly as the functional `zipF`, leaving the merged spine
grafted onto the chain, the final remainder attached at its end, and every
untouched slot preserved. -/
lemma zipLoop_spec [Inhabited K] {top tp : Nat} :
    ∀ {fuel : Nat} {e : List (ZipNode K)} {left right prev : Nat} {cM : Ctx K} {L R : BT K},
    ZipInvD e left right prev cM L R top tp → L.size + R.size < fuel →
    ∃ (e' : List (ZipNode K)) (prev' : Nat) (w : Ctx K) (S : BT K) (h' : Nat),
      zipLoop e left right prev fuel = (e', prev') ∧
      e'.length = e.length ∧
      (∀ j, j ∉ cM.idxsC → j ∉ L.idxsIn → j ∉ R.idxsIn → nodeAt e' j = nodeAt e j) ∧
      zipF L R = w.plug S ∧
      ReprCtx e' (cM.comp w) h' prev' top tp ∧
      ReprP e' S h' prev' ∧ CountsOK e' S ∧ CtxSidesOK e' (cM.comp w) := by
  intro fuel
  induction fuel with
  | zero => intro e left right prev cM L R _ hf; omega
  | succ f ih =>
    intro e left right prev cM L R hinv hfuel
    obtain ⟨hlen, hnd, hcL, hcR, hsides, h, hctx, hrole⟩ := hinv
    have hndM : cM.idxsC.Nodup := hnd.of_append_left
    have hndLR : (L.idxsIn ++ R.idxsIn).Nodup := hnd.of_append_right
    have hndL : L.idxsIn.Nodup := hndLR.of_append_left
    have hndR : R.idxsIn.Nodup := hndLR.of_append_right
    have hdisjMLR : ∀ j ∈ cM.idxsC, j ∉ L.idxsIn ++ R.idxsIn :=
      fun j hj => (List.nodup_append.1 hnd).2.2 hj
    have hdisjLR : ∀ j ∈ L.idxsIn, j ∉ R.idxsIn :=
      fun j hj => (List.nodup_append.1 hndLR).2.2 hj
    by_cases hcond : left ≠ SENTINEL ∧ right ≠ SENTINEL
    · rcases hrole with ⟨hL, hR, hh, hlS, hrS⟩ | ⟨hLne, hRc, hh, hrepr, rp, hrp⟩ |
        ⟨hRne, hLc, hh, hrepr, lp2, hlp2⟩
      · exact absurd hlS hcond.1
      · -- the left side is attached and outranks the right side
        rw [hh] at hctx
        cases L with
        | leaf => exact absurd rfl hLne
        | node ll li lx lrk lr =>
        cases R with
        | leaf =>
          obtain rfl : right = SENTINEL := hrp
          exact absurd rfl hcond.2
        | node rl ri rx rrk rr =>
        have hge : rrk ≤ lrk := by
          rcases hRc with hx | hx
          · exact absurd hx (by simp)
          · exact hx
        obtain ⟨rfl, hliLen, hlk, hlrk, hlp, hll, hlr⟩ := id hrepr
        obtain ⟨rfl, hriLen, hrk2, hrrk, hrp2, hrl2, hrr2⟩ := id hrp
        have hLlt : ∀ j ∈ (BT.node ll left lx lrk lr).idxsIn, j < e.length :=
          ReprP_idx_lt hrepr
        have hRlt : ∀ j ∈ (BT.node rl right rx rrk rr).idxsIn, j < e.length :=
          ReprP_idx_lt hrp
        have hsizeL : (BT.node ll left lx lrk lr).size ≤ e.length := by
          rw [← idxsIn_length]
          exact nodup_lt_length hndL hLlt
        obtain ⟨w1, L', h', hp', hrunW, hdec, hwne, hwch, hwctx, hLrepr', hsign, hfac⟩ :=
          zipWalkRight_spec hlen hrepr
            (show RootRankGE rrk (BT.node ll left lx lrk lr) from hge)
            (show (BT.node ll left lx lrk lr).size < e.length + 1 by omega)
        have hLperm : (BT.node ll left lx lrk lr).idxsIn.Perm (L'.idxsIn ++ w1.idxsC) := by
          rw [hdec]
          exact idxs_plug_perm w1 L'
        have hmemL' : ∀ x ∈ L'.idxsIn, x ∈ (BT.node ll left lx lrk lr).idxsIn :=
          fun x hx => hLperm.mem_iff.2 (by simp [hx])
        have hmemw1 : ∀ x ∈ w1.idxsC, x ∈ (BT.node ll left lx lrk lr).idxsIn :=
          fun x hx => hLperm.mem_iff.2 (by simp [hx])
        have hndL'w : (L'.idxsIn ++ w1.idxsC).Nodup := hLperm.nodup_iff.1 hndL
        have hp'mem : hp' ∈ w1.idxsC := by
          obtain ⟨hsp, -⟩ := ReprCtx_innermost hwne hwctx
          exact spineC_subset_idxsC w1 hp' hsp
        have hp'lt : hp' < e.length := hLlt hp' (hmemw1 hp' hp'mem)
        obtain ⟨hcw1, hsidesw1, hcL'⟩ := (CountsOK_plug_iff w1 L').1 (by
          rw [← hdec]; exact hcL)
        have hctxW : ReprCtx e (cM.comp w1) h' hp' top tp := ReprCtx_comp hwctx hctx
        have hndW : (cM.comp w1).idxsC.Nodup :=
          nodup_shuffle (List.nodup_append.2 ⟨hndL'w.of_append_right, hndM,
              fun a ha hca => hdisjMLR a hca (List.mem_append_left _ (hmemw1 a ha))⟩)
            fun a => ((idxsC_comp cM w1).count_eq a).symm
        have hrightmem : right ∈ (BT.node rl right rx rrk rr).idxsIn := by
          simp [BT.idxsIn]
        have hpne : hp' ≠ right := fun hc =>
          hdisjLR hp' (hmemw1 hp' hp'mem) (hc ▸ hrightmem)
        obtain ⟨eX, heX, hXlen, hXother, hXctx⟩ :
          ∃ eX, setRt e hp' right = eX ∧ eX.length = e.length ∧
            (∀ j, j ≠ hp' → nodeAt eX j = nodeAt e j) ∧
            ReprCtx eX (cM.comp w1) right hp' top tp := by
          cases w1 with
          | hole => exact absurd rfl hwne
          | inL c' i' k' rk' r' => exact absurd hwch (by simp [LChain])
          | inR l' i' k' rk' c' =>
            obtain ⟨hpi, -, -, -, -, -, -⟩ := id hctxW
            subst hpi
            exact ⟨_, rfl, length_setRt e hp' right,
              fun j hj => nodeAt_setRt_other e hp' j right (fun hc => hj hc.symm),
              ReprCtx_set_hole_right hctxW hndW right⟩
        have hYlen : (setPar eX right hp').length = e.length := by
          rw [length_setPar, hXlen]
        have hYother : ∀ j, j ≠ hp' → j ≠ right →
            nodeAt (setPar eX right hp') j = nodeAt e j :=
          fun j h1 h2 => by
            rw [nodeAt_setPar_other eX right j hp' (fun hc => h2 hc.symm), hXother j h1]
        have hYcnt : ∀ j, (nodeAt (setPar eX right hp') j).count = (nodeAt e j).count := by
          intro j
          by_cases h2 : j = right
          · subst h2
            rw [nodeAt_setPar_same eX j hp' (by rw [hXlen]; exact hriLen)]
            rw [hXother j (fun hc => hpne hc.symm)]
          · rw [nodeAt_setPar_other eX right j hp' (fun hc => h2 hc.symm)]
            by_cases h1 : j = hp'
            · subst h1
              rw [← heX, nodeAt_setRt_same e j right hp'lt]
            · rw [hXother j h1]
        have hndL'only : ∀ j ∈ L'.idxsIn, j ≠ hp' :=
          fun j hj hc => (List.nodup_append.1 hndL'w).2.2 (hc ▸ hj) hp'mem
        have hRX : ReprP eX (BT.node rl right rx rrk rr) right rp :=
          ReprP_congr hrp fun j hj =>
            ⟨hXother j (fun hc => hdisjLR hp' (hmemw1 hp' hp'mem) (hc ▸ hj)),
              by rw [hXlen]; exact hRlt j hj⟩
        have hRY : ReprP (setPar eX right hp') (BT.node rl right rx rrk rr) right hp' :=
          ReprP_setPar_root (by rw [hXlen]; exact hlen) hRX hndR
        have hL'Y : ReprP (setPar eX right hp') L' h' hp' := by
          refine ReprP_congr hLrepr' fun j hj => ⟨?_, ?_⟩
          · exact hYother j (hndL'only j hj)
              (fun hc => hdisjLR j (hmemL' j hj) (hc ▸ hrightmem))
          · rw [hYlen]
            exact hLlt j (hmemL' j hj)
        have hmemW : ∀ j, j ∈ (cM.comp w1).idxsC → j ∈ w1.idxsC ∨ j ∈ cM.idxsC := by
          intro j hj
          rcases List.mem_append.1 ((idxsC_comp cM w1).mem_iff.1 hj) with hj' | hj'
          · exact Or.inl hj'
          · exact Or.inr hj'
        have hWnotright : ∀ j, j ∈ (cM.comp w1).idxsC → j ≠ right := by
          intro j hj hc
          rcases hmemW j hj with hj' | hj'
          · exact hdisjLR j (hmemw1 j hj') (hc ▸ hrightmem)
          · exact hdisjMLR j hj' (by rw [hc]; exact List.mem_append_right _ hrightmem)
        have hctxY : ReprCtx (setPar eX right hp') (cM.comp w1) right hp' top tp :=
          ReprCtx_congr hXctx fun j hj =>
            ⟨nodeAt_setPar_other eX right j hp' (fun hc => hWnotright j hj hc.symm),
              by rw [length_setPar]; exact ReprCtx_idx_lt hXctx j hj⟩
        have hinv2 : ZipInvD (setPar eX right hp') h' right hp' (cM.comp w1) L'
            (BT.node rl right rx rrk rr) top tp := by
          refine ⟨by rw [hYlen]; exact hlen, ?_,
            CountsOK_congr hcL' fun j _ => hYcnt j,
            CountsOK_congr hcR fun j _ => hYcnt j,
            CtxSidesOK_congr ((CtxSidesOK_comp cM w1).2 ⟨hsidesw1, hsides⟩)
              fun j _ => hYcnt j, right, hctxY,
            Or.inr (Or.inr ⟨by simp, ?_, rfl, hRY, hp', hL'Y⟩)⟩
          · refine nodup_shuffle hnd fun a => ?_
            have h1 := hLperm.count_eq a
            have h2 := (idxsC_comp cM w1).count_eq a
            simp only [List.count_append] at h1 h2 ⊢
            omega
          · rcases hsign with hLl | hLlt'
            · exact Or.inl hLl
            · cases L' with
              | leaf => exact Or.inl rfl
              | node a1 b1 c1 d1 e1 =>
                exact Or.inr (by simpa [RootRankGT, RootRankLT, rankRoot] using hLlt')
        have hfuel2 : L'.size + (BT.node rl right rx rrk rr).size < f := by
          have h1 : (BT.node ll left lx lrk lr).size = L'.size + w1.sizeC := by
            rw [hdec, size_plug]
          have h2 := sizeC_pos hwne
          omega
        obtain ⟨e'', prev'', w2, S, h'', hrun2, hlen2, hframe2, hfac2, hctx2, hS2, hcS2,
          hsides2⟩ := ih hinv2 hfuel2
        rw [comp_assoc] at hctx2 hsides2
        refine ⟨e'', prev'', w1.comp w2, S, h'', ?_, by rw [hlen2, hYlen], ?_, ?_,
          hctx2, hS2, hcS2, hsides2⟩
        · rw [zipLoop]
          rw [if_pos hcond, if_pos (by rw [hlrk, hrrk]; omega), hrrk, hrunW]
          simp only []
          rw [heX]
          exact hrun2
        · intro j hjM hjL hjR
          have hjL' : j ∉ L'.idxsIn := fun hc => hjL (hmemL' j hc)
          have hjW : j ∉ (cM.comp w1).idxsC := fun hc => by
            rcases hmemW j hc with hj' | hj'
            · exact hjL (hmemw1 j hj')
            · exact hjM hj'
          rw [hframe2 j hjW hjL' hjR]
          exact hYother j (fun hc => hjL (hc ▸ hmemw1 hp' hp'mem)) (fun hc => hjR (hc ▸ hrightmem))
        · rw [hfac rl right rx rr, hfac2, ← plug_comp]
      · -- the right side is attached and strictly outranks the left side
        rw [hh] at hctx
        cases R with
        | leaf => exact absurd rfl hRne
        | node rl ri rx rrk rr =>
        cases L with
        | leaf =>
          obtain rfl : left = SENTINEL := hlp2
          exact absurd rfl hcond.1
        | node ll li lx lrk lr =>
        have hgt : lrk < rrk := by
          rcases hLc with hx | hx
          · exact absurd hx (by simp)
          · exact hx
        obtain ⟨rfl, hriLen, hrk2, hrrk, hrp2, hrl2, hrr2⟩ := id hrepr
        obtain ⟨rfl, hliLen, hlk, hlrk, hlp, hll, hlr⟩ := id hlp2
        have hRlt : ∀ j ∈ (BT.node rl right rx rrk rr).idxsIn, j < e.length :=
          ReprP_idx_lt hrepr
        have hLlt : ∀ j ∈ (BT.node ll left lx lrk lr).idxsIn, j < e.length :=
          ReprP_idx_lt hlp2
        have hsizeR : (BT.node rl right rx rrk rr).size ≤ e.length := by
          rw [← idxsIn_length]
          exact nodup_lt_length hndR hRlt
        obtain ⟨w1, R', h', hp', hrunW, hdec, hwne, hwch, hwctx, hRrepr', hsign, hfac⟩ :=
          zipWalkLeft_spec hlen hrepr
            (show RootRankGT lrk (BT.node rl right rx rrk rr) from hgt)
            (show (BT.node rl right rx rrk rr).size < e.length + 1 by omega)
        have hRperm : (BT.node rl right rx rrk rr).idxsIn.Perm (R'.idxsIn ++ w1.idxsC) := by
          rw [hdec]
          exact idxs_plug_perm w1 R'
        have hmemR' : ∀ x ∈ R'.idxsIn, x ∈ (BT.node rl right rx rrk rr).idxsIn :=
          fun x hx => hRperm.mem_iff.2 (by simp [hx])
        have hmemw1 : ∀ x ∈ w1.idxsC, x ∈ (BT.node rl right rx rrk rr).idxsIn :=
          fun x hx => hRperm.mem_iff.2 (by simp [hx])
        have hndR'w : (R'.idxsIn ++ w1.idxsC).Nodup := hRperm.nodup_iff.1 hndR
        have hp'mem : hp' ∈ w1.idxsC := by
          obtain ⟨hsp, -⟩ := ReprCtx_innermost hwne hwctx
          exact spineC_subset_idxsC w1 hp' hsp
        have hp'lt : hp' < e.length := hRlt hp' (hmemw1 hp' hp'mem)
        obtain ⟨hcw1, hsidesw1, hcR'⟩ := (CountsOK_plug_iff w1 R').1 (by
          rw [← hdec]; exact hcR)
        have hctxW : ReprCtx e (cM.comp w1) h' hp' top tp := ReprCtx_comp hwctx hctx
        have hndW : (cM.comp w1).idxsC.Nodup :=
          nodup_shuffle (List.nodup_append.2 ⟨hndR'w.of_append_right, hndM,
              fun a ha hca => hdisjMLR a hca (List.mem_append_right _ (hmemw1 a ha))⟩)
            fun a => ((idxsC_comp cM w1).count_eq a).symm
        have hleftmem : left ∈ (BT.node ll left lx lrk lr).idxsIn := by
          simp [BT.idxsIn]
        have hpne : hp' ≠ left := fun hc =>
          hdisjLR left hleftmem (hc ▸ hmemw1 hp' hp'mem)
        obtain ⟨eX, heX, hXlen, hXother, hXctx⟩ :
          ∃ eX, setLf e hp' left = eX ∧ eX.length = e.length ∧
            (∀ j, j ≠ hp' → nodeAt eX j = nodeAt e j) ∧
            ReprCtx eX (cM.comp w1) left hp' top tp := by
          cases w1 with
          | hole => exact absurd rfl hwne
          | inR l' i' k' rk' c' => exact absurd hwch (by simp [RChain])
          | inL c' i' k' rk' r' =>
            obtain ⟨hpi, -, -, -, -, -, -⟩ := id hctxW
            subst hpi
            exact ⟨_, rfl, length_setLf e hp' left,
              fun j hj => nodeAt_setLf_other e hp' j left (fun hc => hj hc.symm),
              ReprCtx_set_hole_left hctxW hndW left⟩
        have hYlen : (setPar eX left hp').length = e.length := by
          rw [length_setPar, hXlen]
        have hYother : ∀ j, j ≠ hp' → j ≠ left →
            nodeAt (setPar eX left hp') j = nodeAt e j :=
          fun j h1 h2 => by
            rw [nodeAt_setPar_other eX left j hp' (fun hc => h2 hc.symm), hXother j h1]
        have hYcnt : ∀ j, (nodeAt (setPar eX left hp') j).count = (nodeAt e j).count := by
          intro j
          by_cases h2 : j = left
          · subst h2
            rw [nodeAt_setPar_same eX j hp' (by rw [hXlen]; exact hliLen)]
            rw [hXother j (fun hc => hpne hc.symm)]
          · rw [nodeAt_setPar_other eX left j hp' (fun hc => h2 hc.symm)]
            by_cases h1 : j = hp'
            · subst h1
              rw [← heX, nodeAt_setLf_same e j left hp'lt]
            · rw [hXother j h1]
        have hndR'only : ∀ j ∈ R'.idxsIn, j ≠ hp' :=
          fun j hj hc => (List.nodup_append.1 hndR'w).2.2 (hc ▸ hj) hp'mem
        have hLX : ReprP eX (BT.node ll left lx lrk lr) left lp2 :=
          ReprP_congr hlp2 fun j hj =>
            ⟨hXother j (fun hc => hdisjLR j hj (hc ▸ hmemw1 hp' hp'mem)),
              by rw [hXlen]; exact hLlt j hj⟩
        have hLY : ReprP (setPar eX left hp') (BT.node ll left lx lrk lr) left hp' :=
          ReprP_setPar_root (by rw [hXlen]; exact hlen) hLX hndL
        have hR'Y : ReprP (setPar eX left hp') R' h' hp' := by
          refine ReprP_congr hRrepr' fun j hj => ⟨?_, ?_⟩
          · exact hYother j (hndR'only j hj)
              (fun hc => hdisjLR left hleftmem (hc ▸ hmemR' j hj))
          · rw [hYlen]
            exact hRlt j (hmemR' j hj)
        have hmemW : ∀ j, j ∈ (cM.comp w1).idxsC → j ∈ w1.idxsC ∨ j ∈ cM.idxsC := by
          intro j hj
          rcases List.mem_append.1 ((idxsC_comp cM w1).mem_iff.1 hj) with hj' | hj'
          · exact Or.inl hj'
          · exact Or.inr hj'
        have hWnotleft : ∀ j, j ∈ (cM.comp w1).idxsC → j ≠ left := by
          intro j hj hc
          rcases hmemW j hj with hj' | hj'
          · exact hdisjLR left hleftmem (hc ▸ hmemw1 j hj')
          · exact hdisjMLR j hj' (by rw [hc]; exact List.mem_append_left _ hleftmem)
        have hctxY : ReprCtx (setPar eX left hp') (cM.comp w1) left hp' top tp :=
          ReprCtx_congr hXctx fun j hj =>
            ⟨nodeAt_setPar_other eX left j hp' (fun hc => hWnotleft j hj hc.symm),
              by rw [length_setPar]; exact ReprCtx_idx_lt hXctx j hj⟩
        have hinv2 : ZipInvD (setPar eX left hp') left h' hp' (cM.comp w1)
            (BT.node ll left lx lrk lr) R' top tp := by
          refine ⟨by rw [hYlen]; exact hlen, ?_,
            CountsOK_congr hcL fun j _ => hYcnt j,
            CountsOK_congr hcR' fun j _ => hYcnt j,
            CtxSidesOK_congr ((CtxSidesOK_comp cM w1).2 ⟨hsidesw1, hsides⟩)
              fun j _ => hYcnt j, left, hctxY,
            Or.inr (Or.inl ⟨by simp, ?_, rfl, hLY, hp', hR'Y⟩)⟩
          · refine nodup_shuffle hnd fun a => ?_
            have h1 := hRperm.count_eq a
            have h2 := (idxsC_comp cM w1).count_eq a
            simp only [List.count_append] at h1 h2 ⊢
            omega
          · rcases hsign with hRl | hRle'
            · exact Or.inl hRl
            · cases R' with
              | leaf => exact Or.inl rfl
              | node a1 b1 c1 d1 e1 =>
                exact Or.inr (by simpa [RootRankGE, RootRankLE, rankRoot] using hRle')
        have hfuel2 : (BT.node ll left lx lrk lr).size + R'.size < f := by
          have h1 : (BT.node rl right rx rrk rr).size = R'.size + w1.sizeC := by
            rw [hdec, size_plug]
          have h2 := sizeC_pos hwne
          omega
        obtain ⟨e'', prev'', w2, S, h'', hrun2, hlen2, hframe2, hfac2, hctx2, hS2, hcS2,
          hsides2⟩ := ih hinv2 hfuel2
        rw [comp_assoc] at hctx2 hsides2
        refine ⟨e'', prev'', w1.comp w2, S, h'', ?_, by rw [hlen2, hYlen], ?_, ?_,
          hctx2, hS2, hcS2, hsides2⟩
        · rw [zipLoop]
          rw [if_pos hcond, if_neg (by rw [hlrk, hrrk]; omega), hlrk, hrunW]
          simp only []
          rw [heX]
          exact hrun2
        · intro j hjM hjL hjR
          have hjR' : j ∉ R'.idxsIn := fun hc => hjR (hmemR' j hc)
          have hjW : j ∉ (cM.comp w1).idxsC := fun hc => by
            rcases hmemW j hc with hj' | hj'
            · exact hjR (hmemw1 j hj')
            · exact hjM hj'
          rw [hframe2 j hjW hjL hjR']
          exact hYother j (fun hc => hjR (hc ▸ hmemw1 hp' hp'mem))
            (fun hc => hjL (hc ▸ hleftmem))
        · rw [hfac ll left lx lr, hfac2, ← plug_comp]
    · rw [zipLoop, if_neg hcond]
      rcases hrole with ⟨hL, hR, hh, hlS, hrS⟩ | ⟨hLne, hRc, hh, hrepr, rp, hrp⟩ |
        ⟨hRne, hLc, hh, hrepr, lp2, hlp2⟩
      · subst hL
        subst hR
        subst hh
        exact ⟨e, prev, Ctx.hole, .leaf, SENTINEL, rfl, rfl, fun j _ _ _ => rfl,
          by simp [zipF, Ctx.plug], hctx, rfl, trivial, hsides⟩
      · rw [hh] at hctx
        cases L with
        | leaf => exact absurd rfl hLne
        | node ll li lx lrk lr =>
          obtain ⟨rfl, hlt1, -, -, -, -, -⟩ := id hrepr
          have hleftne : left ≠ SENTINEL := by omega
          have hrightS : right = SENTINEL := by
            rcases not_and_or.1 hcond with h1 | h1
            · exact absurd hleftne h1
            · exact not_not.1 h1
          cases R with
          | node rl ri rx rrk rr =>
            obtain ⟨rfl, hlt2, -, -, -, -, -⟩ := hrp
            omega
          | leaf =>
            exact ⟨e, prev, Ctx.hole, BT.node ll left lx lrk lr, left, rfl, rfl,
              fun j _ _ _ => rfl, by simp [zipF, Ctx.plug], hctx, hrepr, hcL, hsides⟩
      · rw [hh] at hctx
        cases R with
        | leaf => exact absurd rfl hRne
        | node rl ri rx rrk rr =>
          obtain ⟨rfl, hlt1, -, -, -, -, -⟩ := id hrepr
          have hrightne : right ≠ SENTINEL := by omega
          have hleftS : left = SENTINEL := by
            rcases not_and_or.1 hcond with h1 | h1
            · exact not_not.1 h1
            · exact absurd hrightne h1
          cases L with
          | node ll li lx lrk lr =>
            obtain ⟨rfl, hlt2, -, -, -, -, -⟩ := hlp2
            omega
          | leaf =>
            exact ⟨e, prev, Ctx.hole, BT.node rl right rx rrk rr, right, rfl, rfl,
              fun j _ _ _ => rfl, by simp [zipF, Ctx.plug], hctx, hrepr, hcR, hsides⟩

lemma deleteIndex_unfold [Inhabited K] (e : List (ZipNode K)) (root : Nat)
    (lt : K → K → Bool) (keyIdx : Nat) :
    ZipTree.deleteIndex ⟨e, root, lt⟩ keyIdx =
      (let key := (nodeAt e keyIdx).key
       let prev := (nodeAt e keyIdx).parent
       let left := (nodeAt e keyIdx).left
       let right := (nodeAt e keyIdx).right
       let curr := if left = SENTINEL then right else if right = SENTINEL then left
         else if (nodeAt e left).rank ≥ (nodeAt e right).rank then left else right
       let st := if root = keyIdx then (e, curr) else
         ((if lt key (nodeAt e prev).key then setLf e prev curr
           else setRt e prev curr), root)
       let e1 := st.1
       let root1 := st.2
       let e2 := if curr ≠ SENTINEL then setPar e1 curr prev else e1
       let zp := zipLoop e2 left right prev (e2.length + 1)
       ZipTree.mk (fixupCount zp.1 zp.2 SENTINEL (zp.1.length + 1)) root1 lt) := rfl

/-- Arena-level correctness of `deleteIndex` at an occurrence of the victim
slot: the victim is replaced by the rank-interleaved zip of its two
subtrees, with all counts repaired up to the root. -/
lemma deleteIndex_spec [Inhabited K] {lt : K → K → Bool} (O : LtOrd lt)
    {e : List (ZipNode K)} {t : BT K} {root : Nat}
    (hlen : e.length ≤ SENTINEL)
    (hrepr : ReprP e t root SENTINEL) (hcnt : CountsOK e t)
    (hnd : t.idxsIn.Nodup) (hbst : BSTb lt t)
    {cD : Ctx K} {lv : BT K} {keyIdx : Nat} {kv : K} {rkv : Nat} {rv : BT K}
    (hocc : t = cD.plug (BT.node lv keyIdx kv rkv rv)) :
    ∃ (e' : List (ZipNode K)) (root' : Nat),
      ZipTree.deleteIndex ⟨e, root, lt⟩ keyIdx = ⟨e', root', lt⟩ ∧
      e'.length = e.length ∧
      ReprP e' (cD.plug (zipF lv rv)) root' SENTINEL ∧
      CountsOK e' (cD.plug (zipF lv rv)) := by
  obtain ⟨vh, vp, hctxD, hvrepr⟩ := ReprP_unplug (hocc ▸ hrepr)
  obtain ⟨hvh, hkilen, hkk, hkrk, hkp, hlv, hrv⟩ := id hvrepr
  have hvh2 : keyIdx = vh := hvh.symm
  subst hvh2
  obtain ⟨hccD, hsidesD, hcntV⟩ := (CountsOK_plug_iff cD _).1 (hocc ▸ hcnt)
  obtain ⟨-, hclv, hcrv⟩ := id hcntV
  have hndP : (cD.plug (BT.node lv keyIdx kv rkv rv)).idxsIn.Nodup := hocc ▸ hnd
  have hpermD : (cD.plug (BT.node lv keyIdx kv rkv rv)).idxsIn.Perm
      ((BT.node lv keyIdx kv rkv rv).idxsIn ++ cD.idxsC) := idxs_plug_perm cD _
  have hndDV : ((BT.node lv keyIdx kv rkv rv).idxsIn ++ cD.idxsC).Nodup :=
    hpermD.nodup_iff.1 hndP
  have hndV : (BT.node lv keyIdx kv rkv rv).idxsIn.Nodup := hndDV.of_append_left
  have hndD : cD.idxsC.Nodup := hndDV.of_append_right
  have hdisjVD : ∀ j ∈ (BT.node lv keyIdx kv rkv rv).idxsIn, j ∉ cD.idxsC :=
    fun j hj => (List.nodup_append.1 hndDV).2.2 hj
  have hVmid : (keyIdx :: (lv.idxsIn ++ rv.idxsIn)).Nodup :=
    List.nodup_middle.1 (by simpa [BT.idxsIn] using hndV)
  have hndlvrv : (lv.idxsIn ++ rv.idxsIn).Nodup := (List.nodup_cons.1 hVmid).2
  have hndlv : lv.idxsIn.Nodup := hndlvrv.of_append_left
  have hndrv : rv.idxsIn.Nodup := hndlvrv.of_append_right
  have hdisjlvrv : ∀ j ∈ lv.idxsIn, j ∉ rv.idxsIn :=
    fun j hj => (List.nodup_append.1 hndlvrv).2.2 hj
  have hmemlv : ∀ j ∈ lv.idxsIn, j ∈ (BT.node lv keyIdx kv rkv rv).idxsIn :=
    fun j hj => by simp [BT.idxsIn, hj]
  have hmemrv : ∀ j ∈ rv.idxsIn, j ∈ (BT.node lv keyIdx kv rkv rv).idxsIn :=
    fun j hj => by simp [BT.idxsIn, hj]
  have hkimem : keyIdx ∈ (BT.node lv keyIdx kv rkv rv).idxsIn := by simp [BT.idxsIn]
  have hVlt : ∀ j ∈ (BT.node lv keyIdx kv rkv rv).idxsIn, j < e.length :=
    ReprP_idx_lt hvrepr
  have hDlt : ∀ j ∈ cD.idxsC, j < e.length := ReprCtx_idx_lt hctxD
  have hsizeV : (BT.node lv keyIdx kv rkv rv).size ≤ e.length := by
    rw [← idxsIn_length]
    exact nodup_lt_length hndV hVlt
  have hndX : (lv.idxsIn ++ (rv.idxsIn ++ cD.idxsC)).Nodup := by
    have h0 : (lv.idxsIn ++ keyIdx :: (rv.idxsIn ++ cD.idxsC)).Nodup := by
      simpa [BT.idxsIn] using hndDV
    exact (List.nodup_cons.1 (List.nodup_middle.1 h0)).2
  have hvpD : vp = SENTINEL ∨ vp ∈ cD.idxsC := by
    cases cD with
    | hole => exact Or.inl hctxD.2
    | inL c0 i0 k0 rk0 r0 =>
      refine Or.inr ?_
      rw [hctxD.1]
      simp [Ctx.idxsC]
    | inR l0 i0 k0 rk0 c0 =>
      refine Or.inr ?_
      rw [hctxD.1]
      simp [Ctx.idxsC]
  have hvpnotV : ∀ j ∈ (BT.node lv keyIdx kv rkv rv).idxsIn, j ≠ vp := by
    intro j hj hc
    rcases hvpD with hS | hmem
    · have := hVlt j hj
      rw [hc, hS] at this
      omega
    · exact hdisjVD j hj (hc ▸ hmem)
  -- the replacement child: the higher-rank side's root, ties to the left
  obtain ⟨curr, hcurr, hrole0⟩ :
    ∃ curr, (if (nodeAt e keyIdx).left = SENTINEL then (nodeAt e keyIdx).right
        else if (nodeAt e keyIdx).right = SENTINEL then (nodeAt e keyIdx).left
        else if (nodeAt e (nodeAt e keyIdx).left).rank ≥
            (nodeAt e (nodeAt e keyIdx).right).rank then (nodeAt e keyIdx).left
        else (nodeAt e keyIdx).right) = curr ∧
      ((lv = .leaf ∧ rv = .leaf ∧ curr = SENTINEL) ∨
       (lv ≠ .leaf ∧ (rv = .leaf ∨ RootRankGE (rankRoot rv) lv) ∧
         curr = (nodeAt e keyIdx).left) ∨
       (rv ≠ .leaf ∧ (lv = .leaf ∨ RootRankGT (rankRoot lv) rv) ∧
         curr = (nodeAt e keyIdx).right)) := by
    cases lv with
    | leaf =>
      have hlS : (nodeAt e keyIdx).left = SENTINEL := hlv
      cases rv with
      | leaf =>
        have hrS : (nodeAt e keyIdx).right = SENTINEL := hrv
        refine ⟨_, rfl, Or.inl ⟨rfl, rfl, ?_⟩⟩
        rw [if_pos hlS, hrS]
      | node rl2 ri2 rx2 rrk2 rr2 =>
        refine ⟨_, rfl, Or.inr (Or.inr ⟨by simp, Or.inl rfl, ?_⟩)⟩
        rw [if_pos hlS]
    | node ll2 li2 lx2 lrk2 lr2 =>
      obtain ⟨hlh, hlhlt, -, hlhrk, -, -, -⟩ := id hlv
      have hlne : ¬ ((nodeAt e keyIdx).left = SENTINEL) := by omega
      cases rv with
      | leaf =>
        have hrS : (nodeAt e keyIdx).right = SENTINEL := hrv
        refine ⟨_, rfl, Or.inr (Or.inl ⟨by simp, Or.inl rfl, ?_⟩)⟩
        rw [if_neg hlne, if_pos hrS]
      | node rl2 ri2 rx2 rrk2 rr2 =>
        obtain ⟨hrh, hrhlt, -, hrhrk, -, -, -⟩ := id hrv
        have hrne : ¬ ((nodeAt e keyIdx).right = SENTINEL) := by omega
        by_cases hcmp : (nodeAt e (nodeAt e keyIdx).left).rank ≥
            (nodeAt e (nodeAt e keyIdx).right).rank
        · refine ⟨_, rfl, Or.inr (Or.inl ⟨by simp, Or.inr ?_, ?_⟩)⟩
          · rw [hlhrk, hrhrk] at hcmp
            simp only [RootRankGE, rankRoot]
            omega
          · rw [if_neg hlne, if_neg hrne, if_pos hcmp]
        · refine ⟨_, rfl, Or.inr (Or.inr ⟨by simp, Or.inr ?_, ?_⟩)⟩
          · rw [hlhrk, hrhrk] at hcmp
            simp only [RootRankGT, rankRoot]
            omega
          · rw [if_neg hlne, if_neg hrne, if_neg hcmp]
  -- unlink the victim from its parent (or swing the root handle)
  obtain ⟨e1, root1, hst, he1len, he1other, he1cnt, hctx1⟩ :
    ∃ (e1 : List (ZipNode K)) (root1 : Nat),
      (if root = keyIdx then (e, curr) else
        ((if lt (nodeAt e keyIdx).key (nodeAt e vp).key then setLf e vp curr
          else setRt e vp curr), root)) = (e1, root1) ∧
      e1.length = e.length ∧
      (∀ j, j ≠ vp → nodeAt e1 j = nodeAt e j) ∧
      (∀ j, (nodeAt e1 j).count = (nodeAt e j).count) ∧
      ReprCtx e1 cD curr vp root1 SENTINEL := by
    by_cases hroot : root = keyIdx
    · have hcDh : cD = Ctx.hole := by
        cases cD with
        | hole => rfl
        | inL c0 i0 k0 rk0 r0 =>
          have hmem : root ∈ (Ctx.inL c0 i0 k0 rk0 r0).idxsC :=
            ReprCtx_top_mem (by simp) hctxD
          exact absurd hmem (hroot ▸ hdisjVD keyIdx hkimem)
        | inR l0 i0 k0 rk0 c0 =>
          have hmem : root ∈ (Ctx.inR l0 i0 k0 rk0 c0).idxsC :=
            ReprCtx_top_mem (by simp) hctxD
          exact absurd hmem (hroot ▸ hdisjVD keyIdx hkimem)
      subst hcDh
      obtain ⟨-, hvpS⟩ := id hctxD
      exact ⟨e, curr, by rw [if_pos hroot], rfl, fun j _ => rfl, fun j => rfl,
        rfl, hvpS⟩
    · have hbstP : BSTb lt (cD.plug (BT.node lv keyIdx kv rkv rv)) := hocc ▸ hbst
      obtain ⟨-, hbound, -⟩ := BSTb_unplug hbstP
      have hkvmem : kv ∈ (BT.node lv keyIdx kv rkv rv).keysIn := by
        simp [BT.keysIn]
      cases cD with
      | hole => exact absurd hctxD.1.symm hroot
      | inL c0 i0 k0 rk0 r0 =>
        obtain ⟨hpi, hi0lt, hk0, -, -, -, -⟩ := id hctxD
        subst hpi
        have hless : lt (nodeAt e keyIdx).key (nodeAt e vp).key = true := by
          rw [hkk, hk0]
          exact (AllK_iff_forall _ _).1 hbound kv hkvmem
        refine ⟨setLf e vp curr, root, by rw [if_neg hroot, if_pos hless],
          length_setLf e vp curr,
          fun j hj => nodeAt_setLf_other e vp j curr (fun hc => hj hc.symm),
          ?_, ReprCtx_set_hole_left hctxD hndD curr⟩
        intro j
        by_cases hj : vp = j
        · subst hj
          rw [nodeAt_setLf_same e vp curr hi0lt]
        · rw [nodeAt_setLf_other e vp j curr hj]
      | inR l0 i0 k0 rk0 c0 =>
        obtain ⟨hpi, hi0lt, hk0, -, -, -, -⟩ := id hctxD
        subst hpi
        have hgtr : lt (nodeAt e keyIdx).key (nodeAt e vp).key = false := by
          rw [hkk, hk0]
          exact O.asymm ((AllK_iff_forall _ _).1 hbound kv hkvmem)
        refine ⟨setRt e vp curr, root,
          by rw [if_neg hroot, if_neg (by simp [hgtr])],
          length_setRt e vp curr,
          fun j hj => nodeAt_setRt_other e vp j curr (fun hc => hj hc.symm),
          ?_, ReprCtx_set_hole_right hctxD hndD curr⟩
        intro j
        by_cases hj : vp = j
        · subst hj
          rw [nodeAt_setRt_same e vp curr hi0lt]
        · rw [nodeAt_setRt_other e vp j curr hj]
  -- hang the replacement child under the victim's parent
  obtain ⟨e2, he2, he2len, he2other, he2cnt, hctx2, hrole2⟩ :
    ∃ (e2 : List (ZipNode K)),
      (if curr ≠ SENTINEL then setPar e1 curr vp else e1) = e2 ∧
      e2.length = e.length ∧
      (∀ j, j ≠ vp → j ∉ lv.idxsIn → j ∉ rv.idxsIn → nodeAt e2 j = nodeAt e j) ∧
      (∀ j, (nodeAt e2 j).count = (nodeAt e j).count) ∧
      ReprCtx e2 cD curr vp root1 SENTINEL ∧
      ((lv = .leaf ∧ rv = .leaf ∧ curr = SENTINEL ∧
          (nodeAt e keyIdx).left = SENTINEL ∧ (nodeAt e keyIdx).right = SENTINEL) ∨
       (lv ≠ .leaf ∧ (rv = .leaf ∨ RootRankGE (rankRoot rv) lv) ∧
         curr = (nodeAt e keyIdx).left ∧
         ReprP e2 lv (nodeAt e keyIdx).left vp ∧
         ∃ (rp : Nat), ReprP e2 rv (nodeAt e keyIdx).right rp) ∨
       (rv ≠ .leaf ∧ (lv = .leaf ∨ RootRankGT (rankRoot lv) rv) ∧
         curr = (nodeAt e keyIdx).right ∧
         ReprP e2 rv (nodeAt e keyIdx).right vp ∧
         ∃ (lp2 : Nat), ReprP e2 lv (nodeAt e keyIdx).left lp2)) := by
    rcases hrole0 with ⟨hlvl, hrvl, hcS⟩ | ⟨hne, hrk, hceq⟩ | ⟨hne, hrk, hceq⟩
    · subst hlvl
      subst hrvl
      refine ⟨e1, by rw [if_neg (by simp [hcS])], he1len,
        fun j hj _ _ => he1other j hj, he1cnt, hctx1,
        Or.inl ⟨rfl, rfl, hcS, hlv, hrv⟩⟩
    · -- the left subtree is attached at the hole
      have hcmem : curr ∈ lv.idxsIn := by
        cases lv with
        | leaf => exact absurd rfl hne
        | node a b c2 d e9 =>
          obtain ⟨hb, -, -, -, -, -, -⟩ := id hlv
          rw [hceq, hb]
          simp [BT.idxsIn]
      have hclt0 : curr < e.length := ReprP_idx_lt hlv curr hcmem
      have hcne : curr ≠ SENTINEL := by omega
      have hclt : curr < e1.length := by
        rw [he1len]
        exact hclt0
      have hlv1 : ReprP e1 lv (nodeAt e keyIdx).left keyIdx :=
        ReprP_congr hlv fun j hj =>
          ⟨he1other j (hvpnotV j (hmemlv j hj)),
           by rw [he1len]; exact ReprP_idx_lt hlv j hj⟩
      have hrv1 : ReprP e1 rv (nodeAt e keyIdx).right keyIdx :=
        ReprP_congr hrv fun j hj =>
          ⟨he1other j (hvpnotV j (hmemrv j hj)),
           by rw [he1len]; exact ReprP_idx_lt hrv j hj⟩
      have hlv1c : ReprP e1 lv curr keyIdx := by
        rw [hceq]
        exact hlv1
      have hlv2 : ReprP (setPar e1 curr vp) lv curr vp :=
        ReprP_setPar_root (by rw [he1len]; exact hlen) hlv1c hndlv
      have hrv2 : ReprP (setPar e1 curr vp) rv (nodeAt e keyIdx).right keyIdx :=
        ReprP_congr hrv1 fun j hj =>
          ⟨nodeAt_setPar_other e1 curr j vp
             (fun hc => hdisjlvrv curr hcmem (by rw [hc]; exact hj)),
           by rw [length_setPar, he1len]; exact ReprP_idx_lt hrv j hj⟩
      refine ⟨setPar e1 curr vp, by rw [if_pos hcne],
        by rw [length_setPar]; exact he1len, ?_, ?_, ?_,
        Or.inr (Or.inl ⟨hne, hrk, hceq, by rw [← hceq]; exact hlv2, keyIdx, hrv2⟩)⟩
      · intro j hjvp hjl hjr
        rw [nodeAt_setPar_other e1 curr j vp (fun hc => hjl (hc ▸ hcmem))]
        exact he1other j hjvp
      · intro j
        by_cases hj : curr = j
        · subst hj
          rw [nodeAt_setPar_same e1 curr vp hclt]
          exact he1cnt curr
        · rw [nodeAt_setPar_other e1 curr j vp hj]
          exact he1cnt j
      · refine ReprCtx_congr hctx1 fun j hj => ⟨?_, ?_⟩
        · exact nodeAt_setPar_other e1 curr j vp
            (fun hc => hdisjVD curr (hmemlv curr hcmem) (by rw [hc]; exact hj))
        · rw [length_setPar, he1len]
          exact hDlt j hj
    · -- the right subtree is attached at the hole
      have hcmem : curr ∈ rv.idxsIn := by
        cases rv with
        | leaf => exact absurd rfl hne
        | node a b c2 d e9 =>
          obtain ⟨hb, -, -, -, -, -, -⟩ := id hrv
          rw [hceq, hb]
          simp [BT.idxsIn]
      have hclt0 : curr < e.length := ReprP_idx_lt hrv curr hcmem
      have hcne : curr ≠ SENTINEL := by omega
      have hclt : curr < e1.length := by
        rw [he1len]
        exact hclt0
      have hlv1 : ReprP e1 lv (nodeAt e keyIdx).left keyIdx :=
        ReprP_congr hlv fun j hj =>
          ⟨he1other j (hvpnotV j (hmemlv j hj)),
           by rw [he1len]; exact ReprP_idx_lt hlv j hj⟩
      have hrv1 : ReprP e1 rv (nodeAt e keyIdx).right keyIdx :=
        ReprP_congr hrv fun j hj =>
          ⟨he1other j (hvpnotV j (hmemrv j hj)),
           by rw [he1len]; exact ReprP_idx_lt hrv j hj⟩
      have hrv1c : ReprP e1 rv curr keyIdx := by
        rw [hceq]
        exact hrv1
      have hrv2 : ReprP (setPar e1 curr vp) rv curr vp :=
        ReprP_setPar_root (by rw [he1len]; exact hlen) hrv1c hndrv
      have hlv2 : ReprP (setPar e1 curr vp) lv (nodeAt e keyIdx).left keyIdx :=
        ReprP_congr hlv1 fun j hj =>
          ⟨nodeAt_setPar_other e1 curr j vp
             (fun hc => hdisjlvrv j hj (by rw [← hc]; exact hcmem)),
           by rw [length_setPar, he1len]; exact ReprP_idx_lt hlv j hj⟩
      refine ⟨setPar e1 curr vp, by rw [if_pos hcne],
        by rw [length_setPar]; exact he1len, ?_, ?_, ?_,
        Or.inr (Or.inr ⟨hne, hrk, hceq, by rw [← hceq]; exact hrv2, keyIdx, hlv2⟩)⟩
      · intro j hjvp hjl hjr
        rw [nodeAt_setPar_other e1 curr j vp (fun hc => hjr (hc ▸ hcmem))]
        exact he1other j hjvp
      · intro j
        by_cases hj : curr = j
        · subst hj
          rw [nodeAt_setPar_same e1 curr vp hclt]
          exact he1cnt curr
        · rw [nodeAt_setPar_other e1 curr j vp hj]
          exact he1cnt j
      · refine ReprCtx_congr hctx1 fun j hj => ⟨?_, ?_⟩
        · exact nodeAt_setPar_other e1 curr j vp
            (fun hc => hdisjVD curr (hmemrv curr hcmem) (by rw [hc]; exact hj))
        · rw [length_setPar, he1len]
          exact hDlt j hj
  -- the zip-merge loop
  have hinvD : ZipInvD e2 (nodeAt e keyIdx).left (nodeAt e keyIdx).right vp
      cD lv rv root1 SENTINEL := by
    refine ⟨by rw [he2len]; exact hlen, ?_,
      CountsOK_congr hclv (fun j _ => he2cnt j),
      CountsOK_congr hcrv (fun j _ => he2cnt j),
      CtxSidesOK_congr hsidesD (fun j _ => he2cnt j), curr, hctx2, ?_⟩
    · refine nodup_shuffle hndX fun a => ?_
      simp only [List.count_append]
      omega
    · rcases hrole2 with ⟨h1, h2, h3, h4, h5⟩ | ⟨h1, h2, h3, h4, rp0, h5⟩ |
        ⟨h1, h2, h3, h4, lp0, h5⟩
      · exact Or.inl ⟨h1, h2, h3, h4, h5⟩
      · exact Or.inr (Or.inl ⟨h1, h2, h3, h4, rp0, h5⟩)
      · exact Or.inr (Or.inr ⟨h1, h2, h3, h4, lp0, h5⟩)
  obtain ⟨e3, prev', w, S, h', hrunZ, he3len, he3other, hfacZ, hctx3, hS3, hcS3,
      hsides3⟩ :=
    zipLoop_spec hinvD
      (show lv.size + rv.size < e2.length + 1 by
        rw [he2len]
        have h9 := hsizeV
        simp only [BT.size] at h9
        omega)
  -- the final count repair up the merged spine and the old search path
  have hlen3 : e3.length ≤ SENTINEL := by
    rw [he3len, he2len]
    exact hlen
  have hndF : ((cD.comp w).idxsC ++ S.idxsIn).Nodup := by
    refine nodup_shuffle hndX fun a => ?_
    have h1 := (idxsC_comp cD w).count_eq a
    have h2 := (idxs_plug_perm w S).count_eq a
    have h3 := (zipF_idxs_perm lv rv).count_eq a
    rw [hfacZ] at h3
    simp only [List.count_append] at h1 h2 h3 ⊢
    omega
  have htpF : ∀ j ∈ (cD.comp w).spineC, j ≠ SENTINEL := by
    intro j hj
    have h1 := ReprCtx_idx_lt hctx3 j (spineC_subset_idxsC _ j hj)
    omega
  have hdepthF : (cD.comp w).depth < e3.length + 1 := by
    have h1 : (cD.comp w).spineC.length ≤ (cD.comp w).idxsC.length :=
      (spineC_sublist_idxsC _).length_le
    have h2 : (cD.comp w).idxsC.length ≤ e3.length :=
      nodup_lt_length hndF.of_append_left (ReprCtx_idx_lt hctx3)
    rw [depth_eq_spine_length]
    omega
  obtain ⟨e4, hfix, hsh, hother4, hcc4, hcs4, hok4⟩ :=
    fixupCount_spine hlen3 hctx3 hS3 hcS3 hsides3 hndF htpF hdepthF
  refine ⟨e4, root1, ?_, ?_, ?_, ?_⟩
  · rw [deleteIndex_unfold]
    simp only [hkp, hcurr, hst, he2, hrunZ]
    rw [hfix]
  · rw [← hsh.1, he3len, he2len]
  · rw [hfacZ, ← plug_comp]
    exact ReprP_plug (ReprCtx_of_EqShape hsh hctx3) (ReprP_of_EqShape hsh hS3)
  · rw [hfacZ, ← plug_comp]
    exact (CountsOK_plug_iff _ _).2 ⟨hcc4, hcs4, hok4⟩

lemma relabel_not_mem {a b : Nat} : ∀ {t : BT K}, a ∉ t.idxsIn → t.relabel a b = t := by
  intro t
  induction t with
  | leaf => intro h; rfl
  | node l i k rk r ihl ihr =>
    intro h
    simp only [BT.idxsIn, List.mem_append, List.mem_cons] at h
    push_neg at h
    simp only [BT.relabel]
    rw [ihl h.1, ihr h.2.2, if_neg (fun hc => h.2.1 hc.symm)]

lemma relabel_plug (a b : Nat) : ∀ (c : Ctx K) (s : BT K), a ∉ c.idxsC →
    (c.plug s).relabel a b = c.plug (s.relabel a b) := by
  intro c
  induction c with
  | hole => intro s _; rfl
  | inL c i k rk r ih =>
    intro s ha
    simp only [Ctx.idxsC, List.mem_cons, List.mem_append] at ha
    push_neg at ha
    show (c.plug (BT.node s i k rk r)).relabel a b =
      c.plug (BT.node (s.relabel a b) i k rk r)
    rw [ih _ ha.2.2]
    congr 1
    simp only [BT.relabel]
    rw [if_neg (fun hc => ha.1 hc.symm), relabel_not_mem ha.2.1]
  | inR l i k rk c ih =>
    intro s ha
    simp only [Ctx.idxsC, List.mem_cons, List.mem_append] at ha
    push_neg at ha
    show (c.plug (BT.node l i k rk s)).relabel a b =
      c.plug (BT.node l i k rk (s.relabel a b))
    rw [ih _ ha.2.2]
    congr 1
    simp only [BT.relabel]
    rw [if_neg (fun hc => ha.1 hc.symm), relabel_not_mem ha.2.1]

lemma range_succ_erase_last (n : Nat) : (List.range (n + 1)).erase n = List.range n := by
  rw [List.range_succ, List.erase_append_right _ (by simp)]
  simp

lemma range_succ_erase_perm {n k : Nat} (hk : k < n) :
    ((List.range (n + 1)).erase k).Perm (n :: ((List.range n).erase k)) := by
  rw [List.range_succ, List.erase_append_left _ (List.mem_range.2 hk)]
  exact List.perm_append_singleton _ _

lemma compact_unfold [Inhabited K] (e : List (ZipNode K)) (root : Nat)
    (lt : K → K → Bool) (keyIdx : Nat) :
    ZipTree.compact ⟨e, root, lt⟩ keyIdx =
      (if keyIdx ≠ e.length - 1 then
        (let e1 := e.set keyIdx (nodeAt e (e.length - 1))
         let l := (nodeAt e1 keyIdx).left
         let r := (nodeAt e1 keyIdx).right
         let e2 := if l ≠ SENTINEL then setPar e1 l keyIdx else e1
         let e3 := if r ≠ SENTINEL then setPar e2 r keyIdx else e2
         let p := (nodeAt e3 keyIdx).parent
         let e4 := if p ≠ SENTINEL then
             (if e.length - 1 = (nodeAt e3 p).left then setLf e3 p keyIdx
              else setRt e3 p keyIdx) else e3
         ZipTree.mk e4.dropLast (if e.length - 1 = root then keyIdx else root) lt)
       else ZipTree.mk e.dropLast root lt) := rfl

/-- Arena compaction: after the victim slot has been vacated, moving the last
slot into it yields an arena one shorter that represents the same tree with
the last slot relabelled to the freed one. -/
lemma compact_spec [Inhabited K] (lt : K → K → Bool)
    {e : List (ZipNode K)} {t : BT K} {root keyIdx : Nat}
    (hlen : e.length ≤ SENTINEL) (hkilen : keyIdx < e.length)
    (hrepr : ReprP e t root SENTINEL) (hcnt : CountsOK e t)
    (hki : keyIdx ∉ t.idxsIn)
    (hperm : t.idxsIn.Perm ((List.range e.length).erase keyIdx)) :
    ∃ (e' : List (ZipNode K)) (root' : Nat),
      ZipTree.compact ⟨e, root, lt⟩ keyIdx = ⟨e', root', lt⟩ ∧
      e'.length = e.length - 1 ∧
      ReprP e' (t.relabel (e.length - 1) keyIdx) root' SENTINEL ∧
      CountsOK e' (t.relabel (e.length - 1) keyIdx) ∧
      (t.relabel (e.length - 1) keyIdx).idxsIn.Perm (List.range (e.length - 1)) := by
  by_cases hne : keyIdx ≠ e.length - 1
  · -- the freed slot is interior: relocate the last node
    have hLmem : (e.length - 1) ∈ t.idxsIn := by
      refine hperm.mem_iff.2 ?_
      rw [List.mem_erase_of_ne (fun hc => hne hc.symm)]
      exact List.mem_range.2 (by omega)
    obtain ⟨c', ll, lx, lrk, lr, hocc⟩ := occurrence_of_mem hLmem
    obtain ⟨lh, pp, hctxL, hlrepr⟩ := ReprP_unplug (hocc ▸ hrepr)
    obtain ⟨hlh, hLlt, hlk, hlrk2, hlp, hlll, hllr⟩ := id hlrepr
    subst hlh
    obtain ⟨hccL, hsidesL, hcntL⟩ := (CountsOK_plug_iff c' _).1 (hocc ▸ hcnt)
    obtain ⟨hcntRoot, hcll, hclr⟩ := id hcntL
    have hndT : t.idxsIn.Nodup := hperm.nodup_iff.2 (List.Nodup.erase _ (List.nodup_range _))
    have hndP : (c'.plug (BT.node ll (e.length - 1) lx lrk lr)).idxsIn.Nodup :=
      hocc ▸ hndT
    have hpermD : (c'.plug (BT.node ll (e.length - 1) lx lrk lr)).idxsIn.Perm
        ((BT.node ll (e.length - 1) lx lrk lr).idxsIn ++ c'.idxsC) :=
      idxs_plug_perm c' _
    have hndDV : ((BT.node ll (e.length - 1) lx lrk lr).idxsIn ++ c'.idxsC).Nodup :=
      hpermD.nodup_iff.1 hndP
    have hndV : (BT.node ll (e.length - 1) lx lrk lr).idxsIn.Nodup :=
      hndDV.of_append_left
    have hndD : c'.idxsC.Nodup := hndDV.of_append_right
    have hdisjVD : ∀ j ∈ (BT.node ll (e.length - 1) lx lrk lr).idxsIn, j ∉ c'.idxsC :=
      fun j hj => (List.nodup_append.1 hndDV).2.2 hj
    have hVmid : ((e.length - 1) :: (ll.idxsIn ++ lr.idxsIn)).Nodup :=
      List.nodup_middle.1 (by simpa [BT.idxsIn] using hndV)
    have hndllr : (ll.idxsIn ++ lr.idxsIn).Nodup := (List.nodup_cons.1 hVmid).2
    have hndll : ll.idxsIn.Nodup := hndllr.of_append_left
    have hndlr : lr.idxsIn.Nodup := hndllr.of_append_right
    have hdisjllr : ∀ j ∈ ll.idxsIn, j ∉ lr.idxsIn :=
      fun j hj => (List.nodup_append.1 hndllr).2.2 hj
    have hmemll : ∀ j ∈ ll.idxsIn, j ∈ (BT.node ll (e.length - 1) lx lrk lr).idxsIn :=
      fun j hj => by simp [BT.idxsIn, hj]
    have hmemlr : ∀ j ∈ lr.idxsIn, j ∈ (BT.node ll (e.length - 1) lx lrk lr).idxsIn :=
      fun j hj => by simp [BT.idxsIn, hj]
    have hLmemV : (e.length - 1) ∈ (BT.node ll (e.length - 1) lx lrk lr).idxsIn := by
      simp [BT.idxsIn]
    have hLnotll : (e.length - 1) ∉ ll.idxsIn :=
      fun hc => (List.nodup_cons.1 hVmid).1 (List.mem_append_left _ hc)
    have hLnotlr : (e.length - 1) ∉ lr.idxsIn :=
      fun hc => (List.nodup_cons.1 hVmid).1 (List.mem_append_right _ hc)
    have hLnotC : (e.length - 1) ∉ c'.idxsC := hdisjVD _ hLmemV
    have hVlt : ∀ j ∈ (BT.node ll (e.length - 1) lx lrk lr).idxsIn, j < e.length :=
      ReprP_idx_lt hlrepr
    have hDlt : ∀ j ∈ c'.idxsC, j < e.length := ReprCtx_idx_lt hctxL
    have hkiV : keyIdx ∉ ((BT.node ll (e.length - 1) lx lrk lr).idxsIn ++ c'.idxsC) :=
      fun hc => (hocc ▸ hki) (hpermD.mem_iff.2 hc)
    have hki1 : keyIdx ∉ ll.idxsIn :=
      fun hc => hkiV (List.mem_append_left _ (hmemll _ hc))
    have hki2 : keyIdx ∉ lr.idxsIn :=
      fun hc => hkiV (List.mem_append_left _ (hmemlr _ hc))
    have hki3 : keyIdx ∉ c'.idxsC := fun hc => hkiV (List.mem_append_right _ hc)
    -- move the last slot's node into the freed slot
    obtain ⟨e1, he1, he1len, he1self, he1other⟩ :
      ∃ (e1 : List (ZipNode K)),
        e.set keyIdx (nodeAt e (e.length - 1)) = e1 ∧
        e1.length = e.length ∧
        nodeAt e1 keyIdx = nodeAt e (e.length - 1) ∧
        (∀ j, j ≠ keyIdx → nodeAt e1 j = nodeAt e j) :=
      ⟨_, rfl, by simp, nodeAt_set_same e keyIdx _ hkilen,
        fun j hj => nodeAt_set_other e keyIdx j _ (fun hc => hj hc.symm)⟩
    -- reparent the relocated node's left child
    obtain ⟨e2, he2, he2len, he2self, he2other, hll2, he2cnt⟩ :
      ∃ (e2 : List (ZipNode K)),
        (if (nodeAt e (e.length - 1)).left ≠ SENTINEL then
            setPar e1 (nodeAt e (e.length - 1)).left keyIdx else e1) = e2 ∧
        e2.length = e.length ∧
        nodeAt e2 keyIdx = nodeAt e (e.length - 1) ∧
        (∀ j, j ≠ keyIdx → j ∉ ll.idxsIn → nodeAt e2 j = nodeAt e j) ∧
        ReprP e2 ll (nodeAt e (e.length - 1)).left keyIdx ∧
        (∀ j, (nodeAt e2 j).count = (nodeAt e1 j).count) := by
      cases ll with
      | leaf =>
        have hS : (nodeAt e (e.length - 1)).left = SENTINEL := hlll
        exact ⟨e1, by rw [if_neg (fun hc => hc hS)], he1len, he1self,
          fun j hj _ => he1other j hj, hS, fun j => rfl⟩
      | node a b c2 d e9 =>
        obtain ⟨hb, hblt, -, -, -, -, -⟩ := id hlll
        have hbmem : (nodeAt e (e.length - 1)).left ∈ (BT.node a b c2 d e9).idxsIn := by
          rw [hb]
          simp [BT.idxsIn]
        have hSne : (nodeAt e (e.length - 1)).left ≠ SENTINEL := by omega
        have hbki : (nodeAt e (e.length - 1)).left ≠ keyIdx :=
          fun hc => hki1 (hc ▸ hbmem)
        have hll1 : ReprP e1 (BT.node a b c2 d e9) (nodeAt e (e.length - 1)).left
            (e.length - 1) :=
          ReprP_congr hlll fun j hj =>
            ⟨he1other j (fun hc => hki1 (hc ▸ hj)),
             by rw [he1len]; exact ReprP_idx_lt hlll j hj⟩
        refine ⟨setPar e1 (nodeAt e (e.length - 1)).left keyIdx,
          by rw [if_pos hSne], by rw [length_setPar]; exact he1len, ?_, ?_,
          ReprP_setPar_root (by rw [he1len]; exact hlen) hll1 hndll, ?_⟩
        · rw [nodeAt_setPar_other e1 _ keyIdx keyIdx hbki]
          exact he1self
        · intro j hj hjl
          rw [nodeAt_setPar_other e1 _ j keyIdx (fun hc => hjl (hc ▸ hbmem))]
          exact he1other j hj
        · intro j
          by_cases hj : (nodeAt e (e.length - 1)).left = j
          · subst hj
            rw [nodeAt_setPar_same e1 _ keyIdx (by rw [he1len]; omega)]
          · rw [nodeAt_setPar_other e1 _ j keyIdx hj]
    -- reparent the relocated node's right child
    obtain ⟨e3, he3, he3len, he3self, he3other, hll3, hlr3, he3cnt⟩ :
      ∃ (e3 : List (ZipNode K)),
        (if (nodeAt e (e.length - 1)).right ≠ SENTINEL then
            setPar e2 (nodeAt e (e.length - 1)).right keyIdx else e2) = e3 ∧
        e3.length = e.length ∧
        nodeAt e3 keyIdx = nodeAt e (e.length - 1) ∧
        (∀ j, j ≠ keyIdx → j ∉ ll.idxsIn → j ∉ lr.idxsIn → nodeAt e3 j = nodeAt e j) ∧
        ReprP e3 ll (nodeAt e (e.length - 1)).left keyIdx ∧
        ReprP e3 lr (nodeAt e (e.length - 1)).right keyIdx ∧
        (∀ j, (nodeAt e3 j).count = (nodeAt e1 j).count) := by
      cases lr with
      | leaf =>
        have hS : (nodeAt e (e.length - 1)).right = SENTINEL := hllr
        exact ⟨e2, by rw [if_neg (fun hc => hc hS)], he2len, he2self,
          fun j hj hjl _ => he2other j hj hjl, hll2, hS, he2cnt⟩
      | node a b c2 d e9 =>
        obtain ⟨hb, hblt, -, -, -, -, -⟩ := id hllr
        have hbmem : (nodeAt e (e.length - 1)).right ∈ (BT.node a b c2 d e9).idxsIn := by
          rw [hb]
          simp [BT.idxsIn]
        have hSne : (nodeAt e (e.length - 1)).right ≠ SENTINEL := by omega
        have hbki : (nodeAt e (e.length - 1)).right ≠ keyIdx :=
          fun hc => hki2 (hc ▸ hbmem)
        have hbnotll : (nodeAt e (e.length - 1)).right ∉ ll.idxsIn :=
          fun hc => hdisjllr _ hc hbmem
        have hlr2 : ReprP e2 (BT.node a b c2 d e9) (nodeAt e (e.length - 1)).right
            (e.length - 1) :=
          ReprP_congr hllr fun j hj =>
            ⟨he2other j (fun hc => hki2 (hc ▸ hj))
               (fun hc => hdisjllr j hc hj),
             by rw [he2len]; exact ReprP_idx_lt hllr j hj⟩
        refine ⟨setPar e2 (nodeAt e (e.length - 1)).right keyIdx,
          by rw [if_pos hSne], by rw [length_setPar]; exact he2len, ?_, ?_, ?_,
          ReprP_setPar_root (by rw [he2len]; exact hlen) hlr2 hndlr, ?_⟩
        · rw [nodeAt_setPar_other e2 _ keyIdx keyIdx hbki]
          exact he2self
        · intro j hj hjl hjr
          rw [nodeAt_setPar_other e2 _ j keyIdx (fun hc => hjr (hc ▸ hbmem))]
          exact he2other j hj hjl
        · refine ReprP_congr hll2 fun j hj => ⟨?_, ?_⟩
          · exact nodeAt_setPar_other e2 _ j keyIdx
              (fun hc => hbnotll (hc ▸ hj))
          · rw [length_setPar, he2len]
            exact ReprP_idx_lt hlll j hj
        · intro j
          by_cases hj : (nodeAt e (e.length - 1)).right = j
          · subst hj
            rw [nodeAt_setPar_same e2 _ keyIdx (by rw [he2len]; omega)]
            exact he2cnt _
          · rw [nodeAt_setPar_other e2 _ j keyIdx hj]
            exact he2cnt j
    -- redirect the parent's child pointer and resolve the root handle
    obtain ⟨e4, root1, he4, hroot1, he4len, he4self, he4cnt, hll4, hlr4, hctx4⟩ :
      ∃ (e4 : List (ZipNode K)) (root1 : Nat),
        (if pp ≠ SENTINEL then
           (if e.length - 1 = (nodeAt e3 pp).left then setLf e3 pp keyIdx
            else setRt e3 pp keyIdx)
         else e3) = e4 ∧
        (if e.length - 1 = root then keyIdx else root) = root1 ∧
        e4.length = e.length ∧
        nodeAt e4 keyIdx = nodeAt e (e.length - 1) ∧
        (∀ j, (nodeAt e4 j).count = (nodeAt e1 j).count) ∧
        ReprP e4 ll (nodeAt e (e.length - 1)).left keyIdx ∧
        ReprP e4 lr (nodeAt e (e.length - 1)).right keyIdx ∧
        ReprCtx e4 c' keyIdx pp root1 SENTINEL := by
      have hctx3 : ReprCtx e3 c' (e.length - 1) pp root SENTINEL :=
        ReprCtx_congr hctxL fun j hj =>
          ⟨he3other j (fun hc => hki3 (hc ▸ hj))
             (fun hc => hdisjVD j (hmemll j hc) hj)
             (fun hc => hdisjVD j (hmemlr j hc) hj),
           by rw [he3len]; exact hDlt j hj⟩
      cases c' with
      | hole =>
        obtain ⟨htop, hppS⟩ := id hctxL
        exact ⟨e3, keyIdx, by rw [if_neg (fun hc => hc hppS)],
          by rw [if_pos htop], he3len, he3self, he3cnt, hll3, hlr3, rfl, hppS⟩
      | inL c0 i0 k0 rk0 r0 =>
        obtain ⟨hpi, hi0lt, hk0, -, hl0, -, -⟩ := id hctxL
        subst hpi
        have hppS : pp ≠ SENTINEL := by omega
        have hppidx : pp ∈ (Ctx.inL c0 pp k0 rk0 r0).idxsC := by simp [Ctx.idxsC]
        have hppki : pp ≠ keyIdx := fun hc => hki3 (hc ▸ hppidx)
        have hppll : pp ∉ ll.idxsIn := fun hc => hdisjVD pp (hmemll pp hc) hppidx
        have hpplr : pp ∉ lr.idxsIn := fun hc => hdisjVD pp (hmemlr pp hc) hppidx
        have he3pp : nodeAt e3 pp = nodeAt e pp := he3other pp hppki hppll hpplr
        have hroot : ¬ (e.length - 1 = root) := by
          intro hc
          have hmem : root ∈ (Ctx.inL c0 pp k0 rk0 r0).idxsC :=
            ReprCtx_top_mem (by simp) hctxL
          exact hLnotC (hc ▸ hmem)
        refine ⟨setLf e3 pp keyIdx, root,
          by rw [if_pos hppS, if_pos (by rw [he3pp, hl0])], by rw [if_neg hroot],
          by rw [length_setLf]; exact he3len, ?_, ?_, ?_, ?_,
          ReprCtx_set_hole_left hctx3 hndD keyIdx⟩
        · rw [nodeAt_setLf_other e3 pp keyIdx keyIdx hppki]
          exact he3self
        · intro j
          by_cases hj : pp = j
          · subst hj
            rw [nodeAt_setLf_same e3 pp keyIdx (by rw [he3len]; exact hi0lt)]
            exact he3cnt pp
          · rw [nodeAt_setLf_other e3 pp j keyIdx hj]
            exact he3cnt j
        · refine ReprP_congr hll3 fun j hj => ⟨?_, ?_⟩
          · exact nodeAt_setLf_other e3 pp j keyIdx (fun hc => hppll (hc ▸ hj))
          · rw [length_setLf, he3len]
            exact ReprP_idx_lt hlll j hj
        · refine ReprP_congr hlr3 fun j hj => ⟨?_, ?_⟩
          · exact nodeAt_setLf_other e3 pp j keyIdx (fun hc => hpplr (hc ▸ hj))
          · rw [length_setLf, he3len]
            exact ReprP_idx_lt hllr j hj
      | inR l0 i0 k0 rk0 c0 =>
        obtain ⟨hpi, hi0lt, hk0, -, hr0, hlf0, -⟩ := id hctxL
        subst hpi
        have hppS : pp ≠ SENTINEL := by omega
        have hppidx : pp ∈ (Ctx.inR l0 pp k0 rk0 c0).idxsC := by simp [Ctx.idxsC]
        have hppki : pp ≠ keyIdx := fun hc => hki3 (hc ▸ hppidx)
        have hppll : pp ∉ ll.idxsIn := fun hc => hdisjVD pp (hmemll pp hc) hppidx
        have hpplr : pp ∉ lr.idxsIn := fun hc => hdisjVD pp (hmemlr pp hc) hppidx
        have he3pp : nodeAt e3 pp = nodeAt e pp := he3other pp hppki hppll hpplr
        have hroot : ¬ (e.length - 1 = root) := by
          intro hc
          have hmem : root ∈ (Ctx.inR l0 pp k0 rk0 c0).idxsC :=
            ReprCtx_top_mem (by simp) hctxL
          exact hLnotC (hc ▸ hmem)
        have hnotlf : ¬ (e.length - 1 = (nodeAt e3 pp).left) := by
          rw [he3pp]
          cases l0 with
          | leaf =>
            have hS : (nodeAt e pp).left = SENTINEL := hlf0
            rw [hS]
            omega
          | node a b c2 d e9 =>
            obtain ⟨hb, -, -, -, -, -, -⟩ := id hlf0
            intro hc
            refine hLnotC ?_
            rw [hc, hb]
            simp [Ctx.idxsC, BT.idxsIn]
        refine ⟨setRt e3 pp keyIdx, root,
          by rw [if_pos hppS, if_neg hnotlf], by rw [if_neg hroot],
          by rw [length_setRt]; exact he3len, ?_, ?_, ?_, ?_,
          ReprCtx_set_hole_right hctx3 hndD keyIdx⟩
        · rw [nodeAt_setRt_other e3 pp keyIdx keyIdx hppki]
          exact he3self
        · intro j
          by_cases hj : pp = j
          · subst hj
            rw [nodeAt_setRt_same e3 pp keyIdx (by rw [he3len]; exact hi0lt)]
            exact he3cnt pp
          · rw [nodeAt_setRt_other e3 pp j keyIdx hj]
            exact he3cnt j
        · refine ReprP_congr hll3 fun j hj => ⟨?_, ?_⟩
          · exact nodeAt_setRt_other e3 pp j keyIdx (fun hc => hppll (hc ▸ hj))
          · rw [length_setRt, he3len]
            exact ReprP_idx_lt hlll j hj
        · refine ReprP_congr hlr3 fun j hj => ⟨?_, ?_⟩
          · exact nodeAt_setRt_other e3 pp j keyIdx (fun hc => hpplr (hc ▸ hj))
          · rw [length_setRt, he3len]
            exact ReprP_idx_lt hllr j hj
    -- shrink the arena and read off the relabelled tree
    have hrel : t.relabel (e.length - 1) keyIdx =
        c'.plug (BT.node ll keyIdx lx lrk lr) := by
      rw [hocc, relabel_plug _ _ _ _ hLnotC]
      congr 1
      simp only [BT.relabel]
      rw [relabel_not_mem hLnotll, relabel_not_mem hLnotlr]
      simp
    have hdropAt : ∀ j, j < e.length → j ≠ e.length - 1 →
        nodeAt e4.dropLast j = nodeAt e4 j := by
      intro j h1 h2
      exact nodeAt_dropLast e4 j (by rw [he4len]; omega)
    have hdropLen : e4.dropLast.length = e.length - 1 := by
      rw [List.length_dropLast, he4len]
    have hkiltL : keyIdx < e.length - 1 := by omega
    have hselfD : nodeAt e4.dropLast keyIdx = nodeAt e (e.length - 1) := by
      rw [hdropAt keyIdx hkilen hne]
      exact he4self
    have hcntD : ∀ j, j ≠ keyIdx → j < e.length → j ≠ e.length - 1 →
        (nodeAt e4.dropLast j).count = (nodeAt e j).count := by
      intro j h1 h2 h3
      rw [hdropAt j h2 h3, he4cnt j, he1other j h1]
    refine ⟨e4.dropLast, root1, ?_, hdropLen, ?_, ?_, ?_⟩
    · rw [compact_unfold, if_pos hne]
      simp only [he1, he1self, he2, he3, he3self, hlp, he4, hroot1]
    · rw [hrel]
      refine ReprP_plug (ReprCtx_congr hctx4 fun j hj => ⟨?_, ?_⟩) ?_
      · exact hdropAt j (hDlt j hj) (fun hc => hLnotC (hc ▸ hj))
      · rw [hdropLen]
        have h1 := hDlt j hj
        have h2 : j ≠ e.length - 1 := fun hc => hLnotC (hc ▸ hj)
        omega
      · refine ⟨rfl, by rw [hdropLen]; exact hkiltL, ?_, ?_, ?_, ?_, ?_⟩
        · rw [hselfD]
          exact hlk
        · rw [hselfD]
          exact hlrk2
        · rw [hselfD]
          exact hlp
        · rw [hselfD]
          refine ReprP_congr hll4 fun j hj => ⟨?_, ?_⟩
          · refine hdropAt j (ReprP_idx_lt hlll j hj) (fun hc => hLnotll (hc ▸ hj))
          · rw [hdropLen]
            have h1 := ReprP_idx_lt hlll j hj
            have h2 : j ≠ e.length - 1 := fun hc => hLnotll (hc ▸ hj)
            omega
        · rw [hselfD]
          refine ReprP_congr hlr4 fun j hj => ⟨?_, ?_⟩
          · refine hdropAt j (ReprP_idx_lt hllr j hj) (fun hc => hLnotlr (hc ▸ hj))
          · rw [hdropLen]
            have h1 := ReprP_idx_lt hllr j hj
            have h2 : j ≠ e.length - 1 := fun hc => hLnotlr (hc ▸ hj)
            omega
    · rw [hrel]
      refine (CountsOK_plug_iff _ _).2 ⟨?_, ?_, ?_⟩
      · refine CtxCounts_congr hccL fun j hj => ?_
        have hj' := spineC_subset_idxsC c' j hj
        exact hcntD j (fun hc => hki3 (hc ▸ hj')) (hDlt j hj')
          (fun hc => hLnotC (hc ▸ hj'))
      · refine CtxSidesOK_congr hsidesL fun j hj => ?_
        exact hcntD j (fun hc => hki3 (hc ▸ hj)) (hDlt j hj)
          (fun hc => hLnotC (hc ▸ hj))
      · refine ⟨?_, ?_, ?_⟩
        · rw [hselfD]
          exact hcntRoot
        · refine CountsOK_congr hcll fun j hj => ?_
          exact hcntD j (fun hc => hki1 (hc ▸ hj)) (ReprP_idx_lt hlll j hj)
            (fun hc => hLnotll (hc ▸ hj))
        · refine CountsOK_congr hclr fun j hj => ?_
          exact hcntD j (fun hc => hki2 (hc ▸ hj)) (ReprP_idx_lt hllr j hj)
            (fun hc => hLnotlr (hc ▸ hj))
    · have hpOld : t.idxsIn.Perm
          (ll.idxsIn ++ (e.length - 1) :: (lr.idxsIn ++ c'.idxsC)) := by
        rw [hocc]
        simpa [BT.idxsIn] using hpermD
      have hpOld2 : t.idxsIn.Perm
          ((e.length - 1) :: (ll.idxsIn ++ (lr.idxsIn ++ c'.idxsC))) :=
        hpOld.trans List.perm_middle
      have hstep : ((List.range e.length).erase keyIdx).Perm
          ((e.length - 1) :: ((List.range (e.length - 1)).erase keyIdx)) := by
        obtain ⟨m, hm⟩ : ∃ m, e.length = m + 1 := ⟨e.length - 1, by omega⟩
        rw [hm]
        simp only [Nat.add_sub_cancel]
        exact range_succ_erase_perm (by omega)
      have hXer : (ll.idxsIn ++ (lr.idxsIn ++ c'.idxsC)).Perm
          ((List.range (e.length - 1)).erase keyIdx) :=
        ((hpOld2.symm.trans hperm).trans hstep).cons_inv
      have hpNew : (c'.plug (BT.node ll keyIdx lx lrk lr)).idxsIn.Perm
          (keyIdx :: (ll.idxsIn ++ (lr.idxsIn ++ c'.idxsC))) := by
        refine (idxs_plug_perm _ _).trans ?_
        have hEq : ((BT.node ll keyIdx lx lrk lr).idxsIn ++ c'.idxsC) =
            ll.idxsIn ++ keyIdx :: (lr.idxsIn ++ c'.idxsC) := by
          simp [BT.idxsIn]
        rw [hEq]
        exact List.perm_middle
      rw [hrel]
      exact hpNew.trans ((hXer.cons keyIdx).trans
        (List.perm_cons_erase (List.mem_range.2 hkiltL)).symm)
  · -- the freed slot is already the last one: just shrink the arena
    have hpos : keyIdx = e.length - 1 := by
      by_contra hc
      exact hne hc
    have hLnot : (e.length - 1) ∉ t.idxsIn := hpos ▸ hki
    have hrelid : t.relabel (e.length - 1) keyIdx = t := relabel_not_mem hLnot
    have hTlt : ∀ j ∈ t.idxsIn, j < e.length := ReprP_idx_lt hrepr
    have hdropAt : ∀ j ∈ t.idxsIn, nodeAt e.dropLast j = nodeAt e j := by
      intro j hj
      have h1 := hTlt j hj
      have h2 : j ≠ e.length - 1 := fun hc => hLnot (hc ▸ hj)
      exact nodeAt_dropLast e j (by omega)
    have hdropLen : e.dropLast.length = e.length - 1 := List.length_dropLast e
    refine ⟨e.dropLast, root, ?_, hdropLen, ?_, ?_, ?_⟩
    · rw [compact_unfold, if_neg (fun hc => hc hpos)]
    · rw [hrelid]
      refine ReprP_congr hrepr fun j hj => ⟨hdropAt j hj, ?_⟩
      rw [hdropLen]
      have h1 := hTlt j hj
      have h2 : j ≠ e.length - 1 := fun hc => hLnot (hc ▸ hj)
      omega
    · rw [hrelid]
      refine CountsOK_congr hcnt fun j hj => ?_
      rw [hdropAt j hj]
    · rw [hrelid]
      have hEq : (List.range e.length).erase keyIdx = List.range (e.length - 1) := by
        rw [hpos]
        obtain ⟨m, hm⟩ : ∃ m, e.length = m + 1 := ⟨e.length - 1, by omega⟩
        rw [hm]
        simp only [Nat.add_sub_cancel]
        exact range_succ_erase_last m
      rw [← hEq]
      exact hperm

/-- The full well-formedness invariant tying a source tree value to its
functional model: correct comparator, pointer layout from the root, correct
counts, a compact arena (slots are exactly `0..len-1`), the BST order and
the rank heap with its tie-break. -/
def WFt [Inhabited K] (lt : K → K → Bool) (z : ZipTree K) (t : BT K) : Prop :=
  z.lessThan = lt ∧ z.entries.length ≤ SENTINEL ∧
  ReprP z.entries t z.root SENTINEL ∧ CountsOK z.entries t ∧
  t.idxsIn.Perm (List.range z.entries.length) ∧ BSTb lt t ∧ HeapOK lt t

lemma WFt_size [Inhabited K] {lt : K → K → Bool} {z : ZipTree K} {t : BT K}
    (h : WFt lt z t) : t.size = z.entries.length := by
  rw [← idxsIn_length, h.2.2.2.2.1.length_eq, List.length_range]

lemma WFt_nodup [Inhabited K] {lt : K → K → Bool} {z : ZipTree K} {t : BT K}
    (h : WFt lt z t) : t.idxsIn.Nodup :=
  h.2.2.2.2.1.nodup_iff.2 (List.nodup_range _)

lemma find_miss [Inhabited K] {lt : K → K → Bool} (O : LtOrd lt) {z : ZipTree K}
    {t : BT K} (h : WFt lt z t) {key : K} (hmiss : key ∉ t.keysIn) :
    z.find key = SENTINEL := by
  have hsize := WFt_size h
  obtain ⟨hlt, hlen, hrepr, hcnt, hperm, hbst, hheap⟩ := h
  rw [ZipTree.find, hlt]
  exact findLoop_miss O hlen hrepr hbst hmiss (by omega)

lemma find_hit [Inhabited K] {lt : K → K → Bool} (O : LtOrd lt) {z : ZipTree K}
    {t : BT K} (h : WFt lt z t) {key : K} (hkey : key ∈ t.keysIn) :
    ∃ (cD : Ctx K) (vl : BT K) (j : Nat) (vrk : Nat) (vr : BT K),
      t = cD.plug (BT.node vl j key vrk vr) ∧ RoutesTo lt key cD ∧
      z.find key = j := by
  have hsize := WFt_size h
  obtain ⟨hlt, hlen, hrepr, hcnt, hperm, hbst, hheap⟩ := h
  obtain ⟨cD, vl, j, vrk, vr, hocc, hroutes, hrun⟩ :=
    findLoop_hit O hlen hrepr hbst hkey
      (show t.size < z.entries.length + 1 by omega)
  exact ⟨cD, vl, j, vrk, vr, hocc, hroutes, by rw [ZipTree.find, hlt]; exact hrun⟩

/-- End-to-end correctness of `deleteInternal` at an occurrence of the
victim: it returns `true`, removes exactly that key, keeps the arena compact
and re-establishes the whole invariant. -/
lemma deleteInternal_spec [Inhabited K] {lt : K → K → Bool} (O : LtOrd lt)
    {e : List (ZipNode K)} {root : Nat} {t : BT K}
    (hwf : WFt lt ⟨e, root, lt⟩ t)
    {cD : Ctx K} {vl : BT K} {j : Nat} {vk : K} {vrk : Nat} {vr : BT K}
    (hocc : t = cD.plug (BT.node vl j vk vrk vr)) :
    ∃ (z' : ZipTree K) (t' : BT K),
      ZipTree.deleteInternal ⟨e, root, lt⟩ j = (true, z') ∧
      WFt lt z' t' ∧ (vk :: t'.keysIn).Perm t.keysIn ∧
      z'.entries.length = e.length - 1 := by
  have hsize := WFt_size hwf
  have hndT := WFt_nodup hwf
  obtain ⟨-, hlen, hrepr, hcnt, hperm, hbst, hheap⟩ := hwf
  have hlenE : e.length ≤ SENTINEL := hlen
  have hjmem : j ∈ t.idxsIn := by
    rw [hocc]
    refine (idxs_plug_perm _ _).mem_iff.2 (List.mem_append_left _ ?_)
    simp [BT.idxsIn]
  have hjlt : j < e.length := ReprP_idx_lt hrepr j hjmem
  have hjS : ¬ (j = SENTINEL) := by
    have := hlenE
    omega
  obtain ⟨e1, root1, hrun1, he1len, hrepr1, hcnt1⟩ :=
    deleteIndex_spec O hlen hrepr hcnt hndT hbst hocc
  -- index bookkeeping of the functional result
  have hndP : (cD.plug (BT.node vl j vk vrk vr)).idxsIn.Nodup := hocc ▸ hndT
  have hpermD : (cD.plug (BT.node vl j vk vrk vr)).idxsIn.Perm
      ((BT.node vl j vk vrk vr).idxsIn ++ cD.idxsC) := idxs_plug_perm cD _
  have hndDV : ((BT.node vl j vk vrk vr).idxsIn ++ cD.idxsC).Nodup :=
    hpermD.nodup_iff.1 hndP
  have hndV : (BT.node vl j vk vrk vr).idxsIn.Nodup := hndDV.of_append_left
  have hVmid : (j :: (vl.idxsIn ++ vr.idxsIn)).Nodup :=
    List.nodup_middle.1 (by simpa [BT.idxsIn] using hndV)
  have hjnotvl : j ∉ vl.idxsIn :=
    fun hc => (List.nodup_cons.1 hVmid).1 (List.mem_append_left _ hc)
  have hjnotvr : j ∉ vr.idxsIn :=
    fun hc => (List.nodup_cons.1 hVmid).1 (List.mem_append_right _ hc)
  have hjnotC : j ∉ cD.idxsC :=
    (List.nodup_append.1 hndDV).2.2 (by simp [BT.idxsIn])
  have hpermT1 : (cD.plug (zipF vl vr)).idxsIn.Perm
      (vl.idxsIn ++ (vr.idxsIn ++ cD.idxsC)) := by
    refine (idxs_plug_perm _ _).trans ?_
    refine (List.Perm.append_right _ (zipF_idxs_perm vl vr)).trans ?_
    rw [List.append_assoc]
  have hki : j ∉ (cD.plug (zipF vl vr)).idxsIn := by
    intro hc
    have := hpermT1.mem_iff.1 hc
    simp only [List.mem_append] at this
    rcases this with h | h | h
    · exact hjnotvl h
    · exact hjnotvr h
    · exact hjnotC h
  have hpOldX : t.idxsIn.Perm (j :: (vl.idxsIn ++ (vr.idxsIn ++ cD.idxsC))) := by
    rw [hocc]
    refine (idxs_plug_perm _ _).trans ?_
    have hEq : ((BT.node vl j vk vrk vr).idxsIn ++ cD.idxsC) =
        vl.idxsIn ++ j :: (vr.idxsIn ++ cD.idxsC) := by simp [BT.idxsIn]
    rw [hEq]
    exact List.perm_middle
  have hpermT1R : (cD.plug (zipF vl vr)).idxsIn.Perm
      ((List.range e.length).erase j) := by
    refine hpermT1.trans ?_
    have h1 : (j :: (vl.idxsIn ++ (vr.idxsIn ++ cD.idxsC))).Perm
        (List.range e.length) := hpOldX.symm.trans hperm
    have h2 := h1.erase j
    simpa using h2
  -- order invariants of the functional result
  obtain ⟨hbstV, -, hclose⟩ := BSTb_unplug (hocc ▸ hbst)
  obtain ⟨bvl, bvr, avl, avr⟩ := id hbstV
  have hcross : ∀ a ∈ vl.keysIn, ∀ b ∈ vr.keysIn, lt a b = true := by
    intro a ha b hb
    exact O.lt_trans a vk b ((AllK_iff_forall _ _).1 avl a ha)
      ((AllK_iff_forall _ _).1 avr b hb)
  have hbstT1 : BSTb lt (cD.plug (zipF vl vr)) := by
    refine hclose _ (zipF_BSTb O bvl bvr hcross) ?_
    intro x hx
    rcases List.mem_append.1 ((zipF_keys_perm vl vr).subset hx) with h | h
    · simp [BT.keysIn, h]
    · simp [BT.keysIn, h]
  obtain ⟨hheapV, hcloseH⟩ := HeapOK_unplug (hocc ▸ hheap)
  obtain ⟨hvlH, hvrH, hrl, hrr⟩ := id hheapV
  have hheapT1 : HeapOK lt (cD.plug (zipF vl vr)) := by
    refine hcloseH _ (zipF_HeapOK hvlH hvrH hcross) ?_
    intro k2 rk2 h
    exact zipF_HRel (HRel_down O h.1 h.2 hrl) (HRel_down O h.1 h.2 hrr)
  -- key accounting
  have hkeysOld : t.keysIn.Perm (vk :: (vl.keysIn ++ (vr.keysIn ++ cD.keysC))) := by
    rw [hocc]
    refine (keys_plug_perm _ _).trans ?_
    have hEq : ((BT.node vl j vk vrk vr).keysIn ++ cD.keysC) =
        vl.keysIn ++ vk :: (vr.keysIn ++ cD.keysC) := by simp [BT.keysIn]
    rw [hEq]
    exact List.perm_middle
  have hkeysT1 : (cD.plug (zipF vl vr)).keysIn.Perm
      (vl.keysIn ++ (vr.keysIn ++ cD.keysC)) := by
    refine (keys_plug_perm _ _).trans ?_
    refine (List.Perm.append_right _ (zipF_keys_perm vl vr)).trans ?_
    rw [List.append_assoc]
  -- the compaction step
  obtain ⟨e2, root2, hrun2, he2len, hrepr2, hcnt2, hperm2⟩ :=
    compact_spec lt (by rw [he1len]; exact hlen)
      (by rw [he1len]; exact hjlt) hrepr1 hcnt1 hki
      (by rw [he1len]; exact hpermT1R)
  refine ⟨⟨e2, root2, lt⟩,
    (cD.plug (zipF vl vr)).relabel (e1.length - 1) j, ?_, ?_, ?_, ?_⟩
  · simp only [ZipTree.deleteInternal]
    rw [if_neg hjS, hrun1, hrun2]
  · refine ⟨rfl, ?_, hrepr2, hcnt2, ?_, relabel_BSTb _ _ hbstT1,
      relabel_HeapOK _ _ hheapT1⟩
    · show e2.length ≤ SENTINEL
      rw [he2len, he1len]
      have := hlenE
      omega
    · show ((cD.plug (zipF vl vr)).relabel (e1.length - 1) j).idxsIn.Perm
        (List.range e2.length)
      rw [he2len]
      exact hperm2
  · rw [relabel_keysIn]
    exact (hkeysT1.cons vk).trans hkeysOld.symm
  · show e2.length = e.length - 1
    rw [he2len, he1len]

/-- `Delete` on an absent key is a fully-reported no-op. -/
lemma Delete_miss [Inhabited K] {lt : K → K → Bool} (O : LtOrd lt) {z : ZipTree K}
    {t : BT K} (hwf : WFt lt z t) {key : K} (hmiss : key ∉ t.keysIn) :
    ZipTree.Delete z key = (false, z) := by
  have hf := find_miss O hwf hmiss
  rw [ZipTree.Delete, hf, ZipTree.deleteInternal, if_pos rfl]

/-- `Delete` on a present key returns `true` and removes exactly one
occurrence of it, re-establishing the invariant on an arena one shorter. -/
lemma Delete_hit [Inhabited K] {lt : K → K → Bool} (O : LtOrd lt) {z : ZipTree K}
    {t : BT K} (hwf : WFt lt z t) {key : K} (hkey : key ∈ t.keysIn) :
    ∃ (z' : ZipTree K) (t' : BT K),
      ZipTree.Delete z key = (true, z') ∧ WFt lt z' t' ∧
      (key :: t'.keysIn).Perm t.keysIn ∧
      z'.entries.length = z.entries.length - 1 := by
  obtain ⟨cD, vl, j, vrk, vr, hocc, -, hfind⟩ := find_hit O hwf hkey
  obtain ⟨e, root, lt0⟩ := z
  have hlt : lt0 = lt := hwf.1
  subst hlt
  obtain ⟨z', t', hrun, hwf', hkeys, hlen'⟩ := deleteInternal_spec O hwf hocc
  refine ⟨z', t', ?_, hwf', hkeys, hlen'⟩
  rw [ZipTree.Delete, hfind]
  exact hrun

/-- `Insert` on a present key refuses and leaves the tree untouched. -/
lemma Insert_hit [Inhabited K] {lt : K → K → Bool} (O : LtOrd lt) {z : ZipTree K}
    {t : BT K} (hwf : WFt lt z t) (rank : Nat) {key : K} (hkey : key ∈ t.keysIn) :
    ZipTree.Insert z rank key = (false, z) := by
  obtain ⟨cD, vl, j, vrk, vr, hocc, -, hfind⟩ := find_hit O hwf hkey
  have hjlt : j < z.entries.length := by
    refine ReprP_idx_lt hwf.2.2.1 j ?_
    rw [hocc]
    exact (idxs_plug_perm _ _).mem_iff.2
      (List.mem_append_left _ (by simp [BT.idxsIn]))
  have hjS : ¬ (z.find key = SENTINEL) := by
    rw [hfind]
    have := hwf.2.1
    omega
  rw [ZipTree.Insert, if_neg hjS]

/-- `Insert` on an absent key (with arena capacity left) creates it: the new
state is well-formed over the functional insertion `insF` at the fresh
slot. -/
lemma Insert_new [Inhabited K] {lt : K → K → Bool} (O : LtOrd lt) {z : ZipTree K}
    {t : BT K} (hwf : WFt lt z t) (rank : Nat) {key : K} (hmiss : key ∉ t.keysIn)
    (hroom : z.entries.length < SENTINEL) :
    ∃ (z' : ZipTree K),
      ZipTree.Insert z rank key = (true, z') ∧
      WFt lt z' (insF lt rank key z.entries.length t) ∧
      z'.entries.length = z.entries.length + 1 := by
  have hfS : z.find key = SENTINEL := find_miss O hwf hmiss
  obtain ⟨e, root, lt0⟩ := z
  have hlt : lt = lt0 := hwf.1.symm
  subst hlt
  obtain ⟨-, hlen, hrepr, hcnt, hperm, hbst, hheap⟩ := hwf
  have hroomE : e.length < SENTINEL := hroom
  obtain ⟨e', root', hrun, hlen', hrepr', hcnt'⟩ :=
    insert_spec O rank hroomE hrepr hcnt hperm hmiss
  have hcomp : t.AllK (fun x => lt x key = true ∨ lt key x = true) := by
    rw [AllK_iff_forall]
    intro x hx
    exact O.total x key (fun hc => hmiss (hc ▸ hx))
  refine ⟨⟨e', root', lt⟩, ?_, ?_, ?_⟩
  · rw [ZipTree.Insert, if_pos hfS, hrun]
  · refine ⟨rfl, ?_, hrepr', hcnt', ?_, insF_BSTb O hbst hcomp,
      (insF_HeapOK O hheap hcomp).1⟩
    · show e'.length ≤ SENTINEL
      omega
    · show (insF lt rank key e.length t).idxsIn.Perm (List.range e'.length)
      refine (insF_idxs_perm lt rank key e.length t).trans ?_
      rw [hlen', List.range_succ]
      exact (hperm.cons e.length).trans (List.perm_append_singleton _ _).symm
  · show e'.length = e.length + 1
    exact hlen'

/-- States reachable from the empty tree by the public `Insert` and `Delete`
operations (insertions carry their externally drawn packed rank and are
subject to the arena's capacity bound). -/
inductive Reach [Inhabited K] (lt : K → K → Bool) : ZipTree K → Prop where
  | init : Reach lt (mkZipTree lt)
  | ins {z : ZipTree K} (rank : Nat) (key : K) : Reach lt z →
      z.entries.length < SENTINEL → Reach lt (ZipTree.Insert z rank key).2
  | del {z : ZipTree K} (key : K) : Reach lt z →
      Reach lt (ZipTree.Delete z key).2

/-- Every reachable state is well-formed over some functional tree. -/
lemma Reach_WF [Inhabited K] {lt : K → K → Bool} (O : LtOrd lt) {z : ZipTree K}
    (h : Reach lt z) : ∃ t, WFt lt z t := by
  induction h with
  | init =>
    exact ⟨BT.leaf, rfl, by simp [mkZipTree, SENTINEL], rfl, trivial, by simp [mkZipTree, BT.idxsIn], trivial,
      trivial⟩
  | ins rank key hz hroom ih =>
    obtain ⟨t, hwf⟩ := ih
    by_cases hkey : key ∈ t.keysIn
    · rw [Insert_hit O hwf rank hkey]
      exact ⟨t, hwf⟩
    · obtain ⟨z', hrun, hwf', -⟩ := Insert_new O hwf rank hkey hroom
      rw [hrun]
      exact ⟨_, hwf'⟩
  | del key hz ih =>
    obtain ⟨t, hwf⟩ := ih
    by_cases hkey : key ∈ t.keysIn
    · obtain ⟨z', t', hrun, hwf', -, -⟩ := Delete_hit O hwf hkey
      rw [hrun]
      exact ⟨t', hwf'⟩
    · rw [Delete_miss O hwf hkey]
      exact ⟨t, hwf⟩

/-- C10: `Next` and `Prev` on an exhausted iterator (current handle is the
"none" sentinel) return it unchanged — hence still empty — and `Key` and
`Parent` return the key type's zero value and the "none" sentinel
respectively.  The statement quantifies over an arbitrary arena `es`, and
the result never depends on `es`: the four operations return without
reading the arena at all, so no out-of-bounds arena access can occur. -/
theorem iterator_exhausted_noop (K : Type) [Inhabited K] (es : List (ZipNode K)) :
    ZipIterator.Next ⟨SENTINEL, es⟩ = (⟨SENTINEL, es⟩ : ZipIterator K) ∧
    ZipIterator.Prev ⟨SENTINEL, es⟩ = (⟨SENTINEL, es⟩ : ZipIterator K) ∧
    (ZipIterator.Next (⟨SENTINEL, es⟩ : ZipIterator K)).IsEmpty = true ∧
    (ZipIterator.Prev (⟨SENTINEL, es⟩ : ZipIterator K)).IsEmpty = true ∧
    ZipIterator.Key (⟨SENTINEL, es⟩ : ZipIterator K) = default ∧
    ZipIterator.Parent (⟨SENTINEL, es⟩ : ZipIterator K) = SENTINEL := by
  refine ⟨?_, ?_, ?_, ?_, ?_, ?_⟩ <;>
    simp [ZipIterator.Next, ZipIterator.Prev, ZipIterator.IsEmpty,
      ZipIterator.Key, ZipIterator.Parent]

end ZipTreeSpec
